import Mathlib

/-!
# Store inventory tracker: the counted binary search tree (`SearchTree.h`)

A shallow embedding of the `SearchTree<Comparable>` class template and of the key types it
is instantiated with, followed by the properties proved about it.

Conventions of the embedding.

* A `TreeNode*` is a value of the inductive type `TreeNode`: `nil` is `nullptr`, `node` is a
  heap node.  A method that takes `TreeNode*&` and rewires it returns the new pointer.
* A `Comparable*` argument is an `Option`: `none` is `nullptr`.
* `itemCount` is a C++ `int`.  It is an `Int` here; the two places where the source adds to
  it (`itemCount++`, `itemCount += numItems`) go through `wrapInt`, the 32-bit two's
  complement result.
* `findAndDeleteMostLeft` ends the process (`exit (EXIT_FAILURE)`) on a null argument; the
  functions on that path return an `Option`, `none` being the terminated process.
-/

namespace SearchTree

/-! ## Machine integers -/

/-- Largest value of a 32-bit `int`. -/
def INT_MAX : Int := 2147483647

/-- Smallest value of a 32-bit `int`. -/
def INT_MIN : Int := -2147483648

/-- The 32-bit two's complement value of a mathematical integer: what an `int` holds after
an addition whose exact result is `x`. -/
def wrapInt (x : Int) : Int := (x + 2147483648) % 4294967296 - 2147483648

/-! ## Keys (`Comparable.h`) -/

/-- The two operators of `Comparable` that `SearchTree` calls: `eq a b` is `a == b` and
`lt a b` is `a < b`. -/
structure Comparable (α : Type) where
  eq : α → α → Bool
  lt : α → α → Bool

/-- The key type's `operator<` is a strict total order and its `operator==` holds exactly
when neither key is less than the other. -/
structure StrictTotalOrder {α : Type} (ops : Comparable α) : Prop where
  irrefl : ∀ a, ops.lt a a = false
  trans : ∀ a b c, ops.lt a b = true → ops.lt b c = true → ops.lt a c = true
  connected : ∀ a b, ops.lt a b = false → ops.lt b a = false → a = b
  eq_iff : ∀ a b, ops.eq a b = true ↔ (ops.lt a b = false ∧ ops.lt b a = false)

/-- The comparison of two `std::string`s with `operator<`: lexicographic on the characters.
(Byte order on UTF-8 text is the order of the code points.) -/
def strLt (a b : String) : Bool := decide (a.toList < b.toList)

/-- A `Coin` (`Coin.h`): its `type`, `year` and `grade` data members. -/
structure Coin where
  type : String
  year : Int
  grade : Int
deriving DecidableEq, Repr

/-- The method `Coin::operator==`. -/
def Coin.eq (self rhsCoin : Coin) : Bool :=
  decide (rhsCoin.grade = self.grade) && decide (rhsCoin.type = self.type)
    && decide (rhsCoin.year = self.year)

/-- The method `Coin::operator<`. -/
def Coin.lt (self rhsCoin : Coin) : Bool :=
  if strLt self.type rhsCoin.type then true
  else if self.type = rhsCoin.type then
    if self.year < rhsCoin.year then true
    else if self.year = rhsCoin.year then
      if self.grade < rhsCoin.grade then true else false
    else false
  else false

/-- The operators of `Coin` as seen by `SearchTree`. -/
def coinOps : Comparable Coin := ⟨Coin.eq, Coin.lt⟩

/-- A `Comic` (`Comic.h`): its `publisher`, `title`, `year` and `grade` data members. -/
structure Comic where
  publisher : String
  title : String
  year : Int
  grade : String
deriving DecidableEq, Repr

/-- The method `Comic::operator==`. -/
def Comic.eq (self rhsComic : Comic) : Bool :=
  decide (rhsComic.publisher = self.publisher) && decide (rhsComic.title = self.title)
    && decide (rhsComic.year = self.year) && decide (rhsComic.grade = self.grade)

/-- The method `Comic::operator<`. -/
def Comic.lt (self rhsComic : Comic) : Bool :=
  if strLt self.publisher rhsComic.publisher then true
  else if self.publisher = rhsComic.publisher then
    if strLt self.title rhsComic.title then true
    else if self.title = rhsComic.title then
      if self.year < rhsComic.year then true
      else if self.year = rhsComic.year then
        if strLt self.grade rhsComic.grade then true else false
      else false
    else false
  else false

/-- The operators of `Comic` as seen by `SearchTree`. -/
def comicOps : Comparable Comic := ⟨Comic.eq, Comic.lt⟩

/-- A `SportsCard` (`SportsCard.h`): its `player`, `year`, `manufacturer` and `grade` data
members. -/
structure SportsCard where
  player : String
  year : Int
  manufacturer : String
  grade : String
deriving DecidableEq, Repr

/-- The method `SportsCard::operator==`. -/
def SportsCard.eq (self rhsSportsCard : SportsCard) : Bool :=
  decide (rhsSportsCard.player = self.player) && decide (rhsSportsCard.year = self.year)
    && decide (rhsSportsCard.manufacturer = self.manufacturer)
    && decide (rhsSportsCard.grade = self.grade)

/-- The method `SportsCard::operator<`. -/
def SportsCard.lt (self rhsSportsCard : SportsCard) : Bool :=
  if strLt self.player rhsSportsCard.player then true
  else if self.player = rhsSportsCard.player then
    if self.year < rhsSportsCard.year then true
    else if self.year = rhsSportsCard.year then
      if strLt self.manufacturer rhsSportsCard.manufacturer then true
      else if self.manufacturer = rhsSportsCard.manufacturer then
        if strLt self.grade rhsSportsCard.grade then true else false
      else false
    else false
  else false

/-- The operators of `SportsCard` as seen by `SearchTree`. -/
def sportsCardOps : Comparable SportsCard := ⟨SportsCard.eq, SportsCard.lt⟩

/-- A `Collectible*` that is not null: an object of one of the three subclasses. -/
inductive Collectible where
  | coin (item : Coin) : Collectible
  | comic (item : Comic) : Collectible
  | sportsCard (item : SportsCard) : Collectible
deriving DecidableEq, Repr

/-- A `Transaction` of a customer (`Customer.h`): its `action` and its `item`. -/
structure Transaction where
  action : Char
  item : Collectible
deriving DecidableEq, Repr

/-- A `Customer` (`Customer.h`): its `idNumber`, `name` and `transactions` data members. -/
structure Customer where
  idNumber : String
  name : String
  transactions : List Transaction
deriving DecidableEq, Repr

/-- The method `Customer::operator==`. -/
def Customer.eq (self rhsCustomer : Customer) : Bool :=
  decide (rhsCustomer.name = self.name) && decide (rhsCustomer.idNumber = self.idNumber)

/-- The method `Customer::operator<`. -/
def Customer.lt (self rhsCustomer : Customer) : Bool :=
  strLt self.name rhsCustomer.name

/-- The operators of `Customer` as seen by `SearchTree`. -/
def customerOps : Comparable Customer := ⟨Customer.eq, Customer.lt⟩

/-! ## The tree (`SearchTree.h`) -/

/-- A `TreeNode*`: `nil` is `nullptr`; a node holds its `item`, its `itemCount` and its two
child pointers. -/
inductive TreeNode (α : Type) where
  | nil : TreeNode α
  | node (item : α) (itemCount : Int) (leftChildPtr rightChildPtr : TreeNode α) : TreeNode α
deriving DecidableEq, Repr

open TreeNode

variable {α : Type}

/-- The two-argument `insertHelper (treeNodePtr, itemPtr)`: returns the value returned and the
new `treeNodePtr`. -/
def insertHelper (ops : Comparable α) : TreeNode α → Option α → Bool × TreeNode α
  | t, none => (false, t)
  | nil, some k => (true, node k 1 nil nil)
  | node x c l r, some k =>
    if ops.lt k x then
      ((insertHelper ops l (some k)).1, node x c (insertHelper ops l (some k)).2 r)
    else if ops.eq k x then (false, node x (wrapInt (c + 1)) l r)
    else ((insertHelper ops r (some k)).1, node x c l (insertHelper ops r (some k)).2)

/-- The three-argument `insertHelper (treeNodePtr, itemPtr, numItems)`. -/
def insertHelper_numItems (ops : Comparable α) :
    TreeNode α → Option α → Int → Bool × TreeNode α
  | t, none, _ => (false, t)
  | nil, some k, n => (true, node k n nil nil)
  | node x c l r, some k, n =>
    if ops.lt k x then
      ((insertHelper_numItems ops l (some k) n).1,
        node x c (insertHelper_numItems ops l (some k) n).2 r)
    else if ops.eq k x then (false, node x (wrapInt (c + n)) l r)
    else
      ((insertHelper_numItems ops r (some k) n).1,
        node x c l (insertHelper_numItems ops r (some k) n).2)

/-- The method `findAndDeleteMostLeft`: the item and the count of the leftmost node, and the
tree without that node; `none` when called on `nullptr` (the process exits). -/
def findAndDeleteMostLeft : TreeNode α → Option (α × Int × TreeNode α)
  | nil => none
  | node x c nil r => some (x, c, r)
  | node x c (node y d ll lr) r =>
    match findAndDeleteMostLeft (node y d ll lr) with
    | none => none
    | some (m, mc, l') => some (m, mc, node x c l' r)

/-- The method `deleteNode`: the pointer that replaces `treeNode`.  On `nullptr` the
invalid-argument exception is caught and nothing changes. -/
def deleteNode : TreeNode α → Option (TreeNode α)
  | nil => some nil
  | node _ _ nil nil => some nil
  | node _ _ nil (node y d rl rr) => some (node y d rl rr)
  | node _ _ (node y d ll lr) nil => some (node y d ll lr)
  | node _ _ (node y d ll lr) (node z e rl rr) =>
    match findAndDeleteMostLeft (node z e rl rr) with
    | none => none
    | some (m, mc, r') => some (node m mc (node y d ll lr) r')

/-- The method `removeHelper`: the value returned and the new `root`.  The decrement is made
on a count above 1 only, so it cannot leave the range of `int`. -/
def removeHelper (ops : Comparable α) : TreeNode α → α → Option (Bool × TreeNode α)
  | nil, _ => some (false, nil)
  | node x c l r, k =>
    if ops.eq k x then
      if c > 1 then some (true, node x (c - 1) l r)
      else
        match deleteNode (node x c l r) with
        | none => none
        | some t => some (true, t)
    else if ops.lt k x then
      match removeHelper ops l k with
      | none => none
      | some res => some (res.1, node x c res.2 r)
    else
      match removeHelper ops r k with
      | none => none
      | some res => some (res.1, node x c l res.2)

/-- The method `findNode`: the node found (`nil` for `nullptr`). -/
def findNode (ops : Comparable α) : TreeNode α → α → TreeNode α
  | nil, _ => nil
  | node x c l r, k =>
    if ops.lt k x then findNode ops l k
    else if ops.eq k x then node x c l r
    else findNode ops r k

/-- The method `nodeHeight`.  Its `1 + maxHeight` stays far below `INT_MAX`: a height is
bounded by the recursion depth of the insertions that built the tree. -/
def nodeHeight : TreeNode α → Int
  | nil => 0
  | node _ _ nil nil => 0
  | node _ _ l r => 1 + (if nodeHeight l > nodeHeight r then nodeHeight l else nodeHeight r)

/-- The method `sameNodes`. -/
def sameNodes (ops : Comparable α) : TreeNode α → TreeNode α → Bool
  | nil, nil => true
  | nil, node _ _ _ _ => false
  | node _ _ _ _, nil => false
  | node x c l r, node y d l2 r2 =>
    ops.eq x y && decide (c = d) && sameNodes ops l l2 && sameNodes ops r r2

/-- The method `printHelper`: the lines written, each an item with its count. -/
def printHelper : TreeNode α → List (α × Int)
  | nil => []
  | node x c l r => printHelper l ++ (x, c) :: printHelper r

/-- The public `insert (itemPtr)`, on the `root` of the tree. -/
def insert (ops : Comparable α) (root : TreeNode α) (itemPtr : Option α) : Bool × TreeNode α :=
  insertHelper ops root itemPtr

/-- The public `insert (itemPtr, numItems)`. -/
def insert_numItems (ops : Comparable α) (root : TreeNode α) (itemPtr : Option α)
    (numItems : Int) : Bool × TreeNode α :=
  insertHelper_numItems ops root itemPtr numItems

/-- The public `remove (itemToRemove)`. -/
def remove (ops : Comparable α) (root : TreeNode α) (itemToRemove : α) :
    Option (Bool × TreeNode α) :=
  removeHelper ops root itemToRemove

/-- The public `retrieve`: the stored item, `none` for `nullptr`. -/
def retrieve (ops : Comparable α) (root : TreeNode α) (itemToRetrieve : α) : Option α :=
  match findNode ops root itemToRetrieve with
  | nil => none
  | node x _ _ _ => some x

/-- The public `contains`. -/
def contains (ops : Comparable α) (root : TreeNode α) (item : α) : Bool :=
  (retrieve ops root item).isSome

/-- The public `height`. -/
def height (ops : Comparable α) (root : TreeNode α) (key : α) : Int :=
  match findNode ops root key with
  | nil => -1
  | node x c l r => nodeHeight (node x c l r)

/-- The public `isEmpty`. -/
def isEmpty (root : TreeNode α) : Bool :=
  match root with
  | nil => true
  | node _ _ _ _ => false

/-! ## Notions used to state the properties -/

/-- The items of the tree in in-order: the first components of the lines of `printHelper`. -/
def items (t : TreeNode α) : List α := (printHelper t).map Prod.fst

/-- Every item stored in the tree satisfies `p`. -/
def allItems (p : α → Bool) : TreeNode α → Bool
  | nil => true
  | node x _ l r => p x && allItems p l && allItems p r

/-- Every count stored in the tree satisfies `p`. -/
def allCounts (p : Int → Bool) : TreeNode α → Bool
  | nil => true
  | node _ c l r => p c && allCounts p l && allCounts p r

/-- The strict BST invariant: at every node, every item of the left subtree is less than the
node's item and the node's item is less than every item of the right subtree. -/
def isBST (ops : Comparable α) : TreeNode α → Bool
  | nil => true
  | node x _ l r =>
    allItems (fun y => ops.lt y x) l && allItems (fun y => ops.lt x y) r
      && isBST ops l && isBST ops r

/-- The count stored with a key: the `itemCount` of the node that `findNode` returns. -/
def itemCountOf (ops : Comparable α) (root : TreeNode α) (key : α) : Option Int :=
  match findNode ops root key with
  | nil => none
  | node _ c _ _ => some c

/-- The tree with every count erased: its shape and the item stored at every position. -/
def eraseCounts : TreeNode α → TreeNode α
  | nil => nil
  | node x _ l r => node x 0 (eraseCounts l) (eraseCounts r)

/-- The lines of `printHelper` with the count of the items equal to `key` replaced by `v`. -/
def replaceCount (ops : Comparable α) (key : α) (v : Int) (ls : List (α × Int)) :
    List (α × Int) :=
  ls.map (fun p => if ops.eq key p.1 then (p.1, v) else p)

/-- A call of one of the three mutating public methods. -/
inductive Call (α : Type) where
  | insert (itemPtr : Option α) : Call α
  | insert_numItems (itemPtr : Option α) (numItems : Int) : Call α
  | remove (itemToRemove : α) : Call α

/-- The tree after one call; `none` when the process exits inside the call. -/
def applyCall (ops : Comparable α) (root : TreeNode α) : Call α → Option (TreeNode α)
  | Call.insert p => some (insert ops root p).2
  | Call.insert_numItems p n => some (insert_numItems ops root p n).2
  | Call.remove k =>
    match remove ops root k with
    | none => none
    | some res => some res.2

/-- The tree after a sequence of calls, made one after the other. -/
def runCalls (ops : Comparable α) : TreeNode α → List (Call α) → Option (TreeNode α)
  | t, [] => some t
  | t, c :: cs =>
    match applyCall ops t c with
    | none => none
    | some t' => runCalls ops t' cs

/-- The units asked for by a call are at least one: always for `insert (key)` and for
`remove (key)`, and `numItems >= 1` for `insert (key, numItems)`. -/
def unitsPositive : Call α → Bool
  | Call.insert _ => true
  | Call.insert_numItems _ n => decide (1 ≤ n)
  | Call.remove _ => true

/-- The call does not raise the count of a stored key above `INT_MAX`. -/
def callFits (ops : Comparable α) (root : TreeNode α) : Call α → Bool
  | Call.insert none => true
  | Call.insert (some k) =>
    match itemCountOf ops root k with
    | none => true
    | some c => decide (c + 1 ≤ INT_MAX)
  | Call.insert_numItems none _ => true
  | Call.insert_numItems (some k) n =>
    match itemCountOf ops root k with
    | none => true
    | some c => decide (c + n ≤ INT_MAX)
  | Call.remove _ => true

/-- No call of the sequence, made in its turn, raises a stored count above `INT_MAX`. -/
def callsFit (ops : Comparable α) : TreeNode α → List (Call α) → Bool
  | _, [] => true
  | t, c :: cs =>
    callFits ops t c &&
      (match applyCall ops t c with
       | none => true
       | some t' => callsFit ops t' cs)

/-- The number of edges on the longest downward path from the root of a tree to one of its
leaves; `-1` for the empty tree. -/
def longestPath : TreeNode α → Int
  | nil => -1
  | node _ _ l r => 1 + max (longestPath l) (longestPath r)

/-- The `==` and `<` of `int` keys, the keys of the height scenario. -/
def intOps : Comparable Int := ⟨fun a b => decide (a = b), fun a b => decide (a < b)⟩

/-- The tree after inserting the keys of a list one after the other with `insert (key)`. -/
def insertAll (ops : Comparable α) : TreeNode α → List α → TreeNode α
  | t, [] => t
  | t, k :: ks => insertAll ops (insert ops t (some k)).2 ks

/-! ## Copy, equality and the traversal without counts (`SearchTree.h`) -/

/-- The method `copyTree`: a new node for every node of the original, holding a copy of its
item and its count. -/
def copyTree : TreeNode α → TreeNode α
  | nil => nil
  | node x c l r => node x c (copyTree l) (copyTree r)

/-- The copy constructor `SearchTree (const SearchTree&)`: the new `root`. -/
def copyConstructor (tree : TreeNode α) : TreeNode α := copyTree tree

/-- The method `makeEmptyHelper`: both subtrees are emptied, then the node is handed to
`deleteNode`. -/
def makeEmptyHelper : TreeNode α → Option (TreeNode α)
  | nil => some nil
  | node x c l r =>
    match makeEmptyHelper l with
    | none => none
    | some l' =>
      match makeEmptyHelper r with
      | none => none
      | some r' => deleteNode (node x c l' r')

/-- The public `makeEmpty`. -/
def makeEmpty (root : TreeNode α) : Option (TreeNode α) := makeEmptyHelper root

/-- The overloaded `operator=`: the new `root` of the left-hand tree.  `sameObject` tells
whether `this == &rightTree`, in which case nothing is done. -/
def operatorAssign (root rightTree : TreeNode α) (sameObject : Bool) : Option (TreeNode α) :=
  if sameObject then some root
  else
    match makeEmpty root with
    | none => none
    | some _ => some (copyTree rightTree)

/-- The overloaded `operator==` of two trees. -/
def operatorEq (ops : Comparable α) (root rightTree : TreeNode α) : Bool :=
  sameNodes ops root rightTree

/-- The overloaded `operator!=` of two trees. -/
def operatorNe (ops : Comparable α) (root rightTree : TreeNode α) : Bool :=
  !sameNodes ops root rightTree

/-- The method `printWithoutCountsHelper`: the items written. -/
def printWithoutCountsHelper : TreeNode α → List α
  | nil => []
  | node x _ l r => printWithoutCountsHelper l ++ x :: printWithoutCountsHelper r

/-- The public `printWithoutCounts`. -/
def printWithoutCounts (root : TreeNode α) : List α := printWithoutCountsHelper root

/-- The node at a position of a tree, the position being the turns taken from the root
(`false` to the left child, `true` to the right child): its item and its count. -/
def nodeAt : TreeNode α → List Bool → Option (α × Int)
  | nil, _ => none
  | node x c _ _, [] => some (x, c)
  | node _ _ l _, false :: p => nodeAt l p
  | node _ _ _ r, true :: p => nodeAt r p

/-- The shape of a tree: the tree with its items and counts erased. -/
def shape : TreeNode α → TreeNode Unit
  | nil => nil
  | node _ _ l r => node () 0 (shape l) (shape r)

/-- The output in which every key is repeated as many times as its count. -/
def repeatedByCount (t : TreeNode α) : List α :=
  (printHelper t).flatMap (fun p => List.replicate p.2.toNat p.1)

/-- The values returned by removing the keys of a list one after the other, and the tree
left at the end. -/
def removeAll (ops : Comparable α) : TreeNode α → List α → Option (List Bool × TreeNode α)
  | t, [] => some ([], t)
  | t, k :: ks =>
    match remove ops t k with
    | none => none
    | some res =>
      match removeAll ops res.2 ks with
      | none => none
      | some rest => some (res.1 :: rest.1, rest.2)

/-! ## Strings, numbers and item data (`Collectible.cpp`, `Coin.cpp`, `Comic.cpp`,
`SportsCard.cpp`)

A call that does not return is an error of `Except`: an exception that no caller catches,
a read beyond the end of a vector, the use of a pointer to no object, or the `exit` of
`findAndDeleteMostLeft`. -/

/-- The ways in which a call ends the run instead of returning. -/
inductive Fault where
  | invalid_argument : Fault
  | out_of_range : Fault
  | outOfBounds : Fault
  | danglingPointer : Fault
  | exitFailure : Fault
deriving DecidableEq, Repr

/-- The library function `isspace` in the default locale. -/
def isspace (c : Char) : Bool := c.toNat == 32 || (9 ≤ c.toNat && c.toNat ≤ 13)

/-- The library function `isdigit`. -/
def isdigit (c : Char) : Bool := 48 ≤ c.toNat && c.toNat ≤ 57

/-- The number written by a list of decimal digits. -/
def decimalValue (digits : List Char) : Nat :=
  digits.foldl (fun acc c => 10 * acc + (c.toNat - 48)) 0

/-- The library function `std::stoi (str)`: white space is skipped, an optional sign and the
longest run of digits are read, what follows is ignored; `invalid_argument` is thrown when
there is no digit, `out_of_range` when the number does not fit an `int`. -/
def stoi (str : String) : Except Fault Int :=
  let afterSpace := str.toList.dropWhile isspace
  let negative := afterSpace.head? == some (Char.ofNat 45)
  let afterSign :=
    if afterSpace.head? == some (Char.ofNat 45) || afterSpace.head? == some (Char.ofNat 43)
    then afterSpace.tail else afterSpace
  let digits := afterSign.takeWhile isdigit
  if digits.isEmpty then Except.error Fault.invalid_argument
  else
    let value : Int := if negative then -(decimalValue digits : Int) else (decimalValue digits : Int)
    if value < INT_MIN || INT_MAX < value then Except.error Fault.out_of_range
    else Except.ok value

/-- The element `v[i]` of a `std::vector<std::string>`; reading beyond its size is a fault. -/
def vecAt (v : List String) (i : Nat) : Except Fault String :=
  match v.get? i with
  | some str => Except.ok str
  | none => Except.error Fault.outOfBounds

/-- The data member `currYear` of `Collectible`, which nothing changes. -/
def currYear : Int := 2020

/-- The method `Collectible::isValidNumber`. -/
def isValidNumber (numStr : String) : Except Fault Bool :=
  if numStr.toList.any (fun c => !isdigit c) then Except.ok false
  else
    match stoi numStr with
    | Except.error e => Except.error e
    | Except.ok v => Except.ok (!decide (v < 1))

/-- The method `Collectible::isValidYear`. -/
def isValidYear (yearStr : String) : Except Fault Bool :=
  match isValidNumber yearStr with
  | Except.error e => Except.error e
  | Except.ok false => Except.ok false
  | Except.ok true =>
    match stoi yearStr with
    | Except.error e => Except.error e
    | Except.ok v => Except.ok (decide (v ≤ currYear))

/-- The method `Collectible::validDataVector`. -/
def validDataVector (data : List String) (numElements : Nat) : Bool :=
  if data.length ≠ numElements then false
  else !(data.any (fun str => str == ""))

/-- The method `Coin::setData`: `none` when it returns false, else the coin with its data
members set. -/
def Coin.setData (data : List String) : Except Fault (Option Coin) :=
  match vecAt data 0 with
  | Except.error e => Except.error e
  | Except.ok yearStr =>
    match isValidYear yearStr with
    | Except.error e => Except.error e
    | Except.ok false => Except.ok none
    | Except.ok true =>
      match vecAt data 1 with
      | Except.error e => Except.error e
      | Except.ok gradeStr =>
        match isValidNumber gradeStr with
        | Except.error e => Except.error e
        | Except.ok false => Except.ok none
        | Except.ok true =>
          if !validDataVector data 3 then Except.ok none
          else
            match stoi yearStr, stoi gradeStr, vecAt data 2 with
            | Except.ok year, Except.ok grade, Except.ok type => Except.ok (some ⟨type, year, grade⟩)
            | Except.error e, _, _ => Except.error e
            | _, Except.error e, _ => Except.error e
            | _, _, Except.error e => Except.error e

/-- The method `Comic::setData`. -/
def Comic.setData (data : List String) : Except Fault (Option Comic) :=
  match vecAt data 0 with
  | Except.error e => Except.error e
  | Except.ok yearStr =>
    match isValidYear yearStr with
    | Except.error e => Except.error e
    | Except.ok false => Except.ok none
    | Except.ok true =>
      if !validDataVector data 4 then Except.ok none
      else
        match stoi yearStr, vecAt data 1, vecAt data 2, vecAt data 3 with
        | Except.ok year, Except.ok grade, Except.ok title, Except.ok publisher =>
          Except.ok (some ⟨publisher, title, year, grade⟩)
        | Except.error e, _, _, _ => Except.error e
        | _, Except.error e, _, _ => Except.error e
        | _, _, Except.error e, _ => Except.error e
        | _, _, _, Except.error e => Except.error e

/-- The method `SportsCard::setData`. -/
def SportsCard.setData (data : List String) : Except Fault (Option SportsCard) :=
  match vecAt data 0 with
  | Except.error e => Except.error e
  | Except.ok yearStr =>
    match isValidYear yearStr with
    | Except.error e => Except.error e
    | Except.ok false => Except.ok none
    | Except.ok true =>
      if !validDataVector data 4 then Except.ok none
      else
        match stoi yearStr, vecAt data 1, vecAt data 2, vecAt data 3 with
        | Except.ok year, Except.ok grade, Except.ok player, Except.ok manufacturer =>
          Except.ok (some ⟨player, year, manufacturer, grade⟩)
        | Except.error e, _, _, _ => Except.error e
        | _, Except.error e, _, _ => Except.error e
        | _, _, Except.error e, _ => Except.error e
        | _, _, _, Except.error e => Except.error e

/-! ## The factory and the store (`CollectibleFactory.cpp`, `StoreInventory.cpp`)

Every tree of `inventoryTree` receives only the objects that `createObject` makes for the
symbol hashed to its index, so the store keeps one tree for each subclass, with the item
type of that subclass.  A `Customer*` is the index of the customer among the `Customer`
objects made so far.  What is written to the console is not part of the state. -/

/-- The subclass of a `Collectible` object. -/
inductive Kind where
  | coin : Kind
  | comic : Kind
  | sportsCard : Kind
deriving DecidableEq, Repr

/-- The class of the objects of a subclass. -/
def Kind.Item : Kind → Type
  | Kind.coin => Coin
  | Kind.comic => Comic
  | Kind.sportsCard => SportsCard

/-- The operators of a subclass. -/
def Kind.ops : (kind : Kind) → Comparable kind.Item
  | Kind.coin => coinOps
  | Kind.comic => comicOps
  | Kind.sportsCard => sportsCardOps

/-- The virtual method `setData` of a subclass. -/
def Kind.setData : (kind : Kind) → List String → Except Fault (Option kind.Item)
  | Kind.coin => Coin.setData
  | Kind.comic => Comic.setData
  | Kind.sportsCard => SportsCard.setData

/-- An object of a subclass as a `Collectible`. -/
def Kind.toCollectible : (kind : Kind) → kind.Item → Collectible
  | Kind.coin => Collectible.coin
  | Kind.comic => Collectible.comic
  | Kind.sportsCard => Collectible.sportsCard

/-- The constant `CollectibleFactory::FACTORY_SIZE`. -/
def FACTORY_SIZE : Nat := 29

/-- The method `CollectibleFactory::hash`. -/
def CollectibleFactory.hash (objectType : Char) : Int :=
  if objectType.toNat < 65 || objectType.toNat > 90 then -1
  else ((objectType.toNat - 65) % FACTORY_SIZE : Nat)

/-- The `factoryVector` that the constructor of `CollectibleFactory` fills. -/
def CollectibleFactory.factoryVector : List (Option Kind) :=
  (((List.replicate FACTORY_SIZE none).set (CollectibleFactory.hash (Char.ofNat 83)).toNat (some Kind.sportsCard)).set
    (CollectibleFactory.hash (Char.ofNat 67)).toNat (some Kind.comic)).set
    (CollectibleFactory.hash (Char.ofNat 77)).toNat (some Kind.coin)

/-- The method `CollectibleFactory::createObject`: the subclass of the new object, `none`
for `nullptr`. -/
def CollectibleFactory.createObject (objectType : Char) : Option Kind :=
  if CollectibleFactory.hash objectType < 0 then none
  else (CollectibleFactory.factoryVector.get? (CollectibleFactory.hash objectType).toNat).join

/-- The constant `StoreInventory::MAX_CUSTOMERS`. -/
def MAX_CUSTOMERS : Nat := 1000

/-- The constant `StoreInventory::INVENTORY_SIZE`. -/
def INVENTORY_SIZE : Nat := 29

/-- The data member `itemSymbols`: M, C and S. -/
def itemSymbols : List Char := [Char.ofNat 77, Char.ofNat 67, Char.ofNat 83]

/-- The method `StoreInventory::hashItem`. -/
def hashItem (itemType : Char) : Int :=
  if itemType.toNat < 65 || itemType.toNat > 90 then -1
  else ((itemType.toNat - 65) % INVENTORY_SIZE : Nat)

/-- Whether `inventoryTree[index]` is not null: the constructor of `StoreInventory` makes a
tree at the index of every item symbol. -/
def hasInventoryTree (index : Int) : Bool :=
  itemSymbols.any (fun symbolChar => hashItem symbolChar == index)

/-- The state of a `StoreInventory`. -/
structure StoreInventory where
  customers : List Customer
  customerDict : List (Option Nat)
  customerTree : TreeNode Nat
  coinTree : TreeNode Coin
  comicTree : TreeNode Comic
  sportsCardTree : TreeNode SportsCard
deriving DecidableEq

/-- The tree of `inventoryTree` that holds the objects of a subclass. -/
def StoreInventory.treeOf (store : StoreInventory) : (kind : Kind) → TreeNode kind.Item
  | Kind.coin => store.coinTree
  | Kind.comic => store.comicTree
  | Kind.sportsCard => store.sportsCardTree

/-- The store after the tree of a subclass has been changed in place. -/
def StoreInventory.setTree (store : StoreInventory) :
    (kind : Kind) → TreeNode kind.Item → StoreInventory
  | Kind.coin, t => { store with coinTree := t }
  | Kind.comic, t => { store with comicTree := t }
  | Kind.sportsCard, t => { store with sportsCardTree := t }

/-- The store made by the constructor of `StoreInventory`. -/
def StoreInventory.new : StoreInventory :=
  ⟨[], List.replicate MAX_CUSTOMERS none, nil, nil, nil, nil⟩

/-- The method `StoreInventory::isValidCustID`. -/
def isValidCustID (ID : String) : Except Fault Bool :=
  match stoi ID with
  | Except.error e => Except.error e
  | Except.ok v => Except.ok (decide (v ≥ 0) && decide (v < 1000))

/-- The method `Customer::addTransaction`: the value returned and the customer after the
call. -/
def Customer.addTransaction (self : Customer) (actionType : Char)
    (collectItem : Option Collectible) : Bool × Customer :=
  if actionType ≠ Char.ofNat 66 ∧ actionType ≠ Char.ofNat 83 then (false, self)
  else
    match collectItem with
    | none => (false, self)
    | some item => (true, { self with transactions := self.transactions ++ [⟨actionType, item⟩] })

/-- The call `customer->addTransaction (action, item)` made by a command; the value it
returns is not used. -/
def StoreInventory.addTransaction (store : StoreInventory) (customer : Nat) (action : Char)
    (item : Collectible) : Except Fault StoreInventory :=
  match store.customers.get? customer with
  | none => Except.error Fault.danglingPointer
  | some c =>
    Except.ok { store with
      customers := store.customers.set customer (c.addTransaction action (some item)).2 }

/-- The first steps of the three commands that name a customer: `args[ID]` is checked by
`isValidCustID` and looked up in `customerDict`; `none` when the command returns false
there. -/
def findCustomer (store : StoreInventory) (args : List String) : Except Fault (Option Nat) :=
  match vecAt args 0 with
  | Except.error e => Except.error e
  | Except.ok idStr =>
    match isValidCustID idStr with
    | Except.error e => Except.error e
    | Except.ok false => Except.ok none
    | Except.ok true =>
      match stoi idStr with
      | Except.error e => Except.error e
      | Except.ok v =>
        match store.customerDict.get? v.toNat with
        | none => Except.error Fault.outOfBounds
        | some customer => Except.ok customer

/-- The character `(args[ITEM_TYPE])[0]`; the null character for the empty string. -/
def firstChar (str : String) : Char := str.toList.headD (Char.ofNat 0)

/-- The method `StoreInventory::SellItem::execute`: the value returned and the store after
the command. -/
def SellItem.execute (args : List String) (store : StoreInventory) :
    Except Fault (Bool × StoreInventory) :=
  match findCustomer store args with
  | Except.error e => Except.error e
  | Except.ok none => Except.ok (false, store)
  | Except.ok (some customer) =>
    match vecAt args 1 with
    | Except.error e => Except.error e
    | Except.ok typeStr =>
      match CollectibleFactory.createObject (firstChar typeStr) with
      | none => Except.ok (false, store)
      | some kind =>
        if hashItem (firstChar typeStr) < 0 then Except.ok (false, store)
        else if !hasInventoryTree (hashItem (firstChar typeStr)) then Except.ok (false, store)
        else
          match kind.setData (args.drop 2) with
          | Except.error e => Except.error e
          | Except.ok none => Except.ok (false, store)
          | Except.ok (some item) =>
            match remove kind.ops (store.treeOf kind) item with
            | none => Except.error Fault.exitFailure
            | some res =>
              if !res.1 then Except.ok (false, store.setTree kind res.2)
              else
                match (store.setTree kind res.2).addTransaction customer (Char.ofNat 83)
                    (kind.toCollectible item) with
                | Except.error e => Except.error e
                | Except.ok store' => Except.ok (true, store')

/-- The method `StoreInventory::BuyItem::execute`.  The copy that is logged after an
insertion is made by `createObject` and `setData` from the same symbol and data, so it
holds the data of the item. -/
def BuyItem.execute (args : List String) (store : StoreInventory) :
    Except Fault (Bool × StoreInventory) :=
  match findCustomer store args with
  | Except.error e => Except.error e
  | Except.ok none => Except.ok (false, store)
  | Except.ok (some customer) =>
    match vecAt args 1 with
    | Except.error e => Except.error e
    | Except.ok typeStr =>
      match CollectibleFactory.createObject (firstChar typeStr) with
      | none => Except.ok (false, store)
      | some kind =>
        if hashItem (firstChar typeStr) < 0 then Except.ok (false, store)
        else if !hasInventoryTree (hashItem (firstChar typeStr)) then Except.ok (false, store)
        else
          match kind.setData (args.drop 2) with
          | Except.error e => Except.error e
          | Except.ok none => Except.ok (false, store)
          | Except.ok (some item) =>
            if contains kind.ops (insert kind.ops (store.treeOf kind) (some item)).2 item
                && !(insert kind.ops (store.treeOf kind) (some item)).1 then
              match (store.setTree kind (insert kind.ops (store.treeOf kind) (some item)).2).addTransaction
                  customer (Char.ofNat 66) (kind.toCollectible item) with
              | Except.error e => Except.error e
              | Except.ok store' => Except.ok (true, store')
            else if (insert kind.ops (store.treeOf kind) (some item)).1 then
              match (store.setTree kind (insert kind.ops (store.treeOf kind) (some item)).2).addTransaction
                  customer (Char.ofNat 66) (kind.toCollectible item) with
              | Except.error e => Except.error e
              | Except.ok store' => Except.ok (true, store')
            else
              Except.ok (false, store.setTree kind (insert kind.ops (store.treeOf kind) (some item)).2)

/-- The method `StoreInventory::ShowCustomerTransact::execute`. -/
def ShowCustomerTransact.execute (args : List String) (store : StoreInventory) :
    Except Fault (Bool × StoreInventory) :=
  match findCustomer store args with
  | Except.error e => Except.error e
  | Except.ok none => Except.ok (false, store)
  | Except.ok (some _) => Except.ok (true, store)

/-- The tuple by which `Comic::operator<` compares, in its lexicographic order. -/
def Comic.key (c : Comic) : Lex (List Char × Lex (List Char × Lex (Int × List Char))) :=
  toLex (c.publisher.toList, toLex (c.title.toList, toLex (c.year, c.grade.toList)))

/-- The tuple by which `SportsCard::operator<` compares, in its lexicographic order. -/
def SportsCard.key (c : SportsCard) :
    Lex (List Char × Lex (Int × Lex (List Char × List Char))) :=
  toLex (c.player.toList, toLex (c.year, toLex (c.manufacturer.toList, c.grade.toList)))

/-- The store of the selling scenario: one customer, with ID 001, and a cent in stock
twice. -/
def scenarioStore : StoreInventory :=
  { customers := [⟨"001", "Alice Smith", []⟩]
    customerDict := (List.replicate MAX_CUSTOMERS none).set 1 (some 0)
    customerTree := node 0 1 nil nil
    coinTree := node ⟨"Lincoln Cent", 2001, 65⟩ 2 nil nil
    comicTree := nil
    sportsCardTree := nil }

/-- The arguments of a command of customer 001 about the cent of the scenario. -/
def scenarioArgs : List String := ["001", "M", "2001", "65", "Lincoln Cent"]

/-! ## Loading and reports (`StoreInventory.cpp`, `Customer.cpp`)

A record is what a loader has read from one line of its file: the reading of the line is
not part of the model.  A report is the list of the lines that it writes, the text of an
item or of a customer being what its `toString` returns. -/

/-- The library function `isalpha` in the default locale. -/
def isalpha (c : Char) : Bool :=
  (65 ≤ c.toNat && c.toNat ≤ 90) || (97 ≤ c.toNat && c.toNat ≤ 122)

/-- The method `StoreInventory::isValidCustName`. -/
def isValidCustName (name : String) : Bool :=
  !(name.toList.any (fun c => !isalpha c && !(c == Char.ofNat 32)))

/-- The operators of `Customer` as the customer tree applies them, through the two
`Customer*` that it compares.  (The tree holds pointers to objects that are never deleted
while the store lives; a pointer to no object compares false.) -/
def customerPtrOps (customers : List Customer) : Comparable Nat :=
  ⟨fun a b =>
      match customers.get? a, customers.get? b with
      | some x, some y => x.eq y
      | _, _ => false,
    fun a b =>
      match customers.get? a, customers.get? b with
      | some x, some y => x.lt y
      | _, _ => false⟩

/-- The body of the loop of `addCustomersFromFile`, for the `customerInfo` read from one
line: the ID and the name are validated, a `Customer` is made, its pointer is stored in
`customerDict` and handed to `customerTree.insert`, whose result is not looked at. -/
def addCustomerRecord (customerInfo : List String) (store : StoreInventory) :
    Except Fault StoreInventory :=
  match vecAt customerInfo 0 with
  | Except.error e => Except.error e
  | Except.ok idStr =>
    match isValidCustID idStr with
    | Except.error e => Except.error e
    | Except.ok false =>
      match vecAt customerInfo 1 with
      | Except.error e => Except.error e
      | Except.ok _ => Except.ok store
    | Except.ok true =>
      match vecAt customerInfo 1 with
      | Except.error e => Except.error e
      | Except.ok nameStr =>
        if !isValidCustName nameStr then Except.ok store
        else
          match stoi idStr with
          | Except.error e => Except.error e
          | Except.ok v =>
            if store.customerDict.length ≤ v.toNat then Except.error Fault.outOfBounds
            else
              Except.ok { store with
                customers := store.customers ++ [⟨idStr, nameStr, []⟩]
                customerDict := store.customerDict.set v.toNat (some store.customers.length)
                customerTree :=
                  (insert (customerPtrOps (store.customers ++ [⟨idStr, nameStr, []⟩]))
                    store.customerTree (some store.customers.length)).2 }

/-- The method `StoreInventory::addCustomersFromFile`, on the records of the lines of the
file. -/
def addCustomersFromFile : List (List String) → StoreInventory → Except Fault StoreInventory
  | [], store => Except.ok store
  | customerInfo :: rest, store =>
    match addCustomerRecord customerInfo store with
    | Except.error e => Except.error e
    | Except.ok store' => addCustomersFromFile rest store'

/-- What `buildInventoryFromFile` reads from one line: `itemType`, `itemCount` (after its
`pop_back`) and the entries of `data`. -/
structure InventoryRecord where
  itemType : Char
  itemCount : String
  data : List String
deriving DecidableEq, Repr

/-- The body of the loop of `buildInventoryFromFile`, for the record read from one line:
whether the message `Invalid item count. Could not add item to inventory.` was written, and
the store.  After that message the method goes on to the lines that create and insert the
item. -/
def buildInventoryRecord (record : InventoryRecord) (store : StoreInventory) :
    Except Fault (Bool × StoreInventory) :=
  match stoi record.itemCount with
  | Except.error e => Except.error e
  | Except.ok count =>
    match CollectibleFactory.createObject record.itemType with
    | none => Except.ok (decide (count < 1), store)
    | some kind =>
      match kind.setData record.data with
      | Except.error e => Except.error e
      | Except.ok none => Except.ok (decide (count < 1), store)
      | Except.ok (some item) =>
        if hashItem record.itemType < 0 then Except.error Fault.outOfBounds
        else if !hasInventoryTree (hashItem record.itemType) then
          Except.error Fault.danglingPointer
        else
          Except.ok (decide (count < 1),
            store.setTree kind (insert_numItems kind.ops (store.treeOf kind) (some item) count).2)

/-- The method `StoreInventory::buildInventoryFromFile`, on the records of the lines of the
file: the number of messages about an invalid count, and the store. -/
def buildInventoryFromFile :
    List InventoryRecord → StoreInventory → Except Fault (Nat × StoreInventory)
  | [], store => Except.ok (0, store)
  | record :: rest, store =>
    match buildInventoryRecord record store with
    | Except.error e => Except.error e
    | Except.ok res =>
      match buildInventoryFromFile rest res.2 with
      | Except.error e => Except.error e
      | Except.ok res' => Except.ok ((if res.1 then 1 else 0) + res'.1, res'.2)

/-- One line of a report. -/
inductive Line where
  | text (str : String) : Line
  | itemCount (item : Collectible) (count : Int) : Line
  | customer (idNumber name : String) : Line
  | transaction (action : Char) (item : Collectible) : Line
deriving DecidableEq, Repr

/-- The method `Customer::insertTransactions`: the line `Transactions:`, then `none` or a
line `action: item` for every transaction, from the first to the last. -/
def Customer.insertTransactions (self : Customer) : List Line :=
  Line.text "Transactions:" ::
    (if self.transactions.length = 0 then [Line.text "none"]
     else self.transactions.map (fun t => Line.transaction t.action t.item))

/-- The method `Customer::print`: the line of `toString ()`, the transactions and an empty
line. -/
def Customer.print (self : Customer) : List Line :=
  Line.customer self.idNumber self.name :: (self.insertTransactions ++ [Line.text ""])

/-- The lines that `printWithoutCountsHelper` writes for the customer tree: every pointer
of the traversal is followed to its `Customer`, which is printed. -/
def printCustomers (customers : List Customer) : List Nat → Except Fault (List Line)
  | [] => Except.ok []
  | customer :: rest =>
    match customers.get? customer with
    | none => Except.error Fault.danglingPointer
    | some c =>
      match printCustomers customers rest with
      | Except.error e => Except.error e
      | Except.ok lines => Except.ok (c.print ++ lines)

/-- The method `StoreInventory::ShowTransactHistory::execute`: the value returned, the
store and the lines written. -/
def ShowTransactHistory.execute (_args : List String) (store : StoreInventory) :
    Except Fault (Bool × StoreInventory × List Line) :=
  match printCustomers store.customers (printWithoutCounts store.customerTree) with
  | Except.error e => Except.error e
  | Except.ok lines => Except.ok (true, store, Line.text "Transaction History: " :: lines)

/-- The subclass of the objects that `inventoryTree[index]` receives: the one whose object
`factoryVector` holds at that index, the two hash functions being the same. -/
def kindAt (index : Int) : Option Kind :=
  if index < 0 then none
  else (CollectibleFactory.factoryVector.get? index.toNat).join

/-- The lines of `operator<<` for a tree of the inventory: `item; Count: itemCount` for
every node, in order. -/
def printInventoryLines (kind : Kind) (root : TreeNode kind.Item) : List Line :=
  (printHelper root).map (fun p => Line.itemCount (kind.toCollectible p.1) p.2)

/-- The lines of `std::cout << *store.inventoryTree[index]`. -/
def StoreInventory.printInventoryTree (store : StoreInventory) (index : Int) :
    Except Fault (List Line) :=
  if index < 0 then Except.error Fault.outOfBounds
  else if !hasInventoryTree index then Except.error Fault.danglingPointer
  else
    match kindAt index with
    | none => Except.ok []
    | some kind => Except.ok (printInventoryLines kind (store.treeOf kind))

/-- The loop of `DisplayInventory::execute` over the symbols of `itemSymbols`. -/
def displayTrees (store : StoreInventory) : List Char → Except Fault (List Line)
  | [] => Except.ok []
  | symbolChar :: rest =>
    match store.printInventoryTree (hashItem symbolChar) with
    | Except.error e => Except.error e
    | Except.ok lines =>
      match displayTrees store rest with
      | Except.error e => Except.error e
      | Except.ok lines' => Except.ok (lines ++ lines')

/-- The method `StoreInventory::DisplayInventory::execute`: the value returned, the store
and the lines written. -/
def DisplayInventory.execute (_args : List String) (store : StoreInventory) :
    Except Fault (Bool × StoreInventory × List Line) :=
  match displayTrees store itemSymbols with
  | Except.error e => Except.error e
  | Except.ok lines =>
    Except.ok (true, store, Line.text "Inventory: " :: (lines ++ [Line.text ""]))

/-- The customers of the tree are in name order: at every node the customers of the left
subtree have a smaller name and no customer of the right subtree has a smaller name. -/
def nameOrdered (ops : Comparable α) : TreeNode α → Bool
  | nil => true
  | node x _ l r =>
    allItems (fun y => ops.lt y x) l && allItems (fun y => !ops.lt y x) r
      && nameOrdered ops l && nameOrdered ops r

/-- The arguments of a command of customer 001 about a dime, which the scenario does not
stock. -/
def dimeArgs : List String := ["001", "M", "1913", "70", "Liberty Dime"]

/-- The record of the line `M, 0, 2001, 65, Lincoln Cent` of an inventory file. -/
def zeroCountRecord : InventoryRecord := ⟨Char.ofNat 77, "0", ["2001", "65", "Lincoln Cent"]⟩

/-- The record of the line `M, -1, 2001, 65, Lincoln Cent` of an inventory file. -/
def negativeCountRecord : InventoryRecord :=
  ⟨Char.ofNat 77, "-1", ["2001", "65", "Lincoln Cent"]⟩

/-- The tuple by which `Coin::operator<` compares, in its lexicographic order. -/
def Coin.key (c : Coin) : Lex (List Char × Lex (Int × Int)) :=
  toLex (c.type.toList, toLex (c.year, c.grade))

/-- Exactly one of three results is true. -/
def exactlyOne (p q r : Bool) : Bool :=
  (p && !q && !r) || (!p && q && !r) || (!p && !q && r)

/-- The store after the customer record `001, Alice Smith` has been loaded. -/
def storeAlice : StoreInventory :=
  { customers := [⟨"001", "Alice Smith", []⟩]
    customerDict := (List.replicate MAX_CUSTOMERS none).set 1 (some 0)
    customerTree := node 0 1 nil nil
    coinTree := nil
    comicTree := nil
    sportsCardTree := nil }

/-- The store after the customer records `001, Alice Smith` and `001, Bob Jones` have been
loaded. -/
def storeAliceBob : StoreInventory :=
  { customers := [⟨"001", "Alice Smith", []⟩, ⟨"001", "Bob Jones", []⟩]
    customerDict := (List.replicate MAX_CUSTOMERS none).set 1 (some 1)
    customerTree := node 0 1 nil (node 1 1 nil nil)
    coinTree := nil
    comicTree := nil
    sportsCardTree := nil }

/-- The store after the customer record `001, Alice Smith` has been loaded twice. -/
def storeAliceTwice : StoreInventory :=
  { customers := [⟨"001", "Alice Smith", []⟩, ⟨"001", "Alice Smith", []⟩]
    customerDict := (List.replicate MAX_CUSTOMERS none).set 1 (some 1)
    customerTree := node 0 2 nil nil
    coinTree := nil
    comicTree := nil
    sportsCardTree := nil }

/-- The customer tree of the store is well formed: its pointers are pointers to customers
of the store, and it is in name order. -/
def customerTreeOrdered (store : StoreInventory) : Bool :=
  allItems (fun p => decide (p < store.customers.length)) store.customerTree
    && nameOrdered (customerPtrOps store.customers) store.customerTree

/-- The store after the customers Bob Jones (ID 002), Alice Smith (ID 001) and Carol White
(ID 003) have been loaded, in this order, and Alice Smith has sold a cent and bought a
dime: Bob Jones is at the root of the customer tree, Alice Smith is its left child and
Carol White its right child. -/
def storeBobAliceCarol : StoreInventory :=
  { customers := [⟨"002", "Bob Jones", []⟩,
      ⟨"001", "Alice Smith", [⟨Char.ofNat 83, Collectible.coin ⟨"Lincoln Cent", 2001, 65⟩⟩,
        ⟨Char.ofNat 66, Collectible.coin ⟨"Liberty Dime", 1913, 70⟩⟩]⟩,
      ⟨"003", "Carol White", []⟩]
    customerDict :=
      (((List.replicate MAX_CUSTOMERS none).set 2 (some 0)).set 1 (some 1)).set 3 (some 2)
    customerTree := node 0 1 (node 1 1 nil nil) (node 2 1 nil nil)
    coinTree := node ⟨"Liberty Dime", 1913, 70⟩ 1 nil nil
    comicTree := nil
    sportsCardTree := nil }

/-- Two states of the store have the same customer tree and, at every pointer, customers
with the same ID and name. -/
def SameDirectory (s s' : StoreInventory) : Prop :=
  s'.customerTree = s.customerTree ∧ s'.customers.length = s.customers.length ∧
    ∀ a, (s'.customers.get? a).map (fun c => (c.idNumber, c.name))
      = (s.customers.get? a).map (fun c => (c.idNumber, c.name))

/-- Every customer that the ID table refers to is held by a node of the customer tree. -/
def DictInTree (store : StoreInventory) : Prop :=
  ∀ i p, store.customerDict.get? i = some (some p) → p ∈ items store.customerTree

/-- The record of the line `X, 3, 2001, 65, Lincoln Cent` of an inventory file, whose
symbol is the symbol of no category. -/
def unknownSymbolRecord : InventoryRecord :=
  ⟨Char.ofNat 88, "3", ["2001", "65", "Lincoln Cent"]⟩

/-- A call of one of the two methods that `removeHelper` reaches, with the pointer that the
call is given. -/
inductive Entered (α : Type) where
  | deleteNode (treeNode : TreeNode α) : Entered α
  | findAndDeleteMostLeft (treeNodePtr : TreeNode α) : Entered α

/-- The pointer that a call is given. -/
def Entered.argument : Entered α → TreeNode α
  | Entered.deleteNode treeNode => treeNode
  | Entered.findAndDeleteMostLeft treeNodePtr => treeNodePtr

/-- The calls of `findAndDeleteMostLeft` made when it is called with a pointer: the call
itself, and the calls that it makes on the left child while there is one. -/
def enteredByFindAndDeleteMostLeft : TreeNode α → List (Entered α)
  | nil => [Entered.findAndDeleteMostLeft nil]
  | node x c nil r => [Entered.findAndDeleteMostLeft (node x c nil r)]
  | node x c (node y d ll lr) r =>
    Entered.findAndDeleteMostLeft (node x c (node y d ll lr) r)
      :: enteredByFindAndDeleteMostLeft (node y d ll lr)

/-- The calls made when `deleteNode` is called with a pointer: the call itself and, for a
node with two children, the calls of `findAndDeleteMostLeft` on the right child. -/
def enteredByDeleteNode : TreeNode α → List (Entered α)
  | nil => [Entered.deleteNode nil]
  | node x c nil nil => [Entered.deleteNode (node x c nil nil)]
  | node x c nil (node y d rl rr) => [Entered.deleteNode (node x c nil (node y d rl rr))]
  | node x c (node y d ll lr) nil => [Entered.deleteNode (node x c (node y d ll lr) nil)]
  | node x c (node y d ll lr) (node z e rl rr) =>
    Entered.deleteNode (node x c (node y d ll lr) (node z e rl rr))
      :: enteredByFindAndDeleteMostLeft (node z e rl rr)

/-- The calls of `deleteNode` and `findAndDeleteMostLeft` made by a call of
`removeHelper`. -/
def enteredByRemoveHelper (ops : Comparable α) : TreeNode α → α → List (Entered α)
  | nil, _ => []
  | node x c l r, k =>
    if ops.eq k x then
      if c > 1 then [] else enteredByDeleteNode (node x c l r)
    else if ops.lt k x then enteredByRemoveHelper ops l k
    else enteredByRemoveHelper ops r k

/-- The leftmost node of a tree, which is the first of its traversal: its item and its
count. -/
def leftmostNode : TreeNode α → Option (α × Int)
  | nil => none
  | node x c nil _ => some (x, c)
  | node _ _ (node y d ll lr) _ => leftmostNode (node y d ll lr)

/-- The tree without its leftmost node, whose right child takes its place. -/
def spliceLeftmost : TreeNode α → TreeNode α
  | nil => nil
  | node _ _ nil r => r
  | node x c (node y d ll lr) r => node x c (spliceLeftmost (node y d ll lr)) r

/-- The tree in which the node where the search for a key stops is replaced by another
tree. -/
def replaceFound (ops : Comparable α) : TreeNode α → α → TreeNode α → TreeNode α
  | nil, _, _ => nil
  | node x c l r, k, s =>
    if ops.lt k x then node x c (replaceFound ops l k s) r
    else if ops.eq k x then s
    else node x c l (replaceFound ops r k s)

/-- A tree of four coins whose root, a dime, has two children; the right child has a left
child. -/
def fourCoins : TreeNode Coin :=
  node ⟨"Liberty Dime", 1913, 70⟩ 1 (node ⟨"Buffalo Nickel", 1920, 60⟩ 2 nil nil)
    (node ⟨"Lincoln Cent", 2001, 65⟩ 1
      (node ⟨"Lincoln Cent", 1999, 65⟩ 4 nil (node ⟨"Lincoln Cent", 2000, 65⟩ 1 nil nil)) nil)

/-- The chain of the keys of a list: every key has the count 1 and no left child, and the
next key of the list is its right child. -/
def rightChain : List α → TreeNode α
  | [] => nil
  | k :: ks => node k 1 nil (rightChain ks)

/-- No node of the tree has a left child. -/
def noLeftChild : TreeNode α → Bool
  | nil => true
  | node _ _ nil r => noLeftChild r
  | node _ _ (node _ _ _ _) _ => false

/-- The two operators of a key type agree: `operator<` never holds in both directions
between two keys, and two keys that `operator==` equates are less than the same keys.
(`Customer`, whose `operator==` does not read the transactions, is such a key type.) -/
structure ConsistentOps {α : Type} (ops : Comparable α) : Prop where
  lt_asymm : ∀ a b, ops.lt a b = true → ops.lt b a = false
  eq_lt : ∀ a b c, ops.eq a b = true → ops.lt a c = ops.lt b c

/-- A tree of two customers; Alice Smith has sold a cent. -/
def twoCustomers : TreeNode Customer :=
  node ⟨"001", "Alice Smith", [⟨Char.ofNat 83, Collectible.coin ⟨"Lincoln Cent", 2001, 65⟩⟩]⟩ 1
    nil (node ⟨"002", "Bob Jones", []⟩ 1 nil nil)

/-! ## The nodes of the trees on the heap (`SearchTree.h`)

For the independence of a copy the nodes are placed on a heap.  A `TreeNode*` is `none` for
`nullptr` or the address of a node object; a node object holds its item, which it owns, its
count and its two child pointers.  `new TreeNode` takes the next address that was never
used, `delete` leaves no object at the address.  The methods follow pointers, so they are
given a bound on the number of calls they may nest (`fuel`); they return `none` when the
bound is reached, when they use the address of no object, or when the process exits. -/

/-- A `TreeNode` object: its `item`, `itemCount`, `leftChildPtr` and `rightChildPtr`. -/
structure NodeCell (α : Type) where
  item : α
  itemCount : Int
  leftChildPtr : Option Nat
  rightChildPtr : Option Nat

/-- The heap: the node object at every address, and the address that the next
`new TreeNode` returns. -/
structure Heap (α : Type) where
  cells : Nat → Option (NodeCell α)
  next : Nat

/-- The heap after the object at an address has been written (`some`) or deleted (`none`). -/
def Heap.write (h : Heap α) (a : Nat) (c : Option (NodeCell α)) : Heap α :=
  ⟨fun b => if b = a then c else h.cells b, h.next⟩

/-- The heap after `new TreeNode` and the initialisation of the new object, whose address
is the old `next`. -/
def Heap.alloc (h : Heap α) (c : NodeCell α) : Heap α :=
  ⟨fun b => if b = h.next then some c else h.cells b, h.next + 1⟩

/-- The heap after an assignment to the `leftChildPtr` of the node at an address. -/
def Heap.setLeft (h : Heap α) (a : Nat) (p : Option Nat) : Heap α :=
  match h.cells a with
  | none => h
  | some c => h.write a (some ⟨c.item, c.itemCount, p, c.rightChildPtr⟩)

/-- The heap after an assignment to the `rightChildPtr` of the node at an address. -/
def Heap.setRight (h : Heap α) (a : Nat) (p : Option Nat) : Heap α :=
  match h.cells a with
  | none => h
  | some c => h.write a (some ⟨c.item, c.itemCount, c.leftChildPtr, p⟩)

/-- The method `insertHelper (treeNodePtr, itemPtr, numItems)` on the heap: the value
returned, the heap and the new value of `treeNodePtr`. -/
def insertHelperH (ops : Comparable α) :
    Nat → Heap α → Option Nat → α → Int → Option (Bool × Heap α × Option Nat)
  | 0, _, _, _, _ => none
  | _ + 1, h, none, k, n => some (true, h.alloc ⟨k, n, none, none⟩, some h.next)
  | fuel + 1, h, some a, k, n =>
    match h.cells a with
    | none => none
    | some c =>
      if ops.lt k c.item then
        match insertHelperH ops fuel h c.leftChildPtr k n with
        | none => none
        | some res => some (res.1, res.2.1.setLeft a res.2.2, some a)
      else if ops.eq k c.item then
        some (false, h.write a (some ⟨c.item, wrapInt (c.itemCount + n), c.leftChildPtr,
          c.rightChildPtr⟩), some a)
      else
        match insertHelperH ops fuel h c.rightChildPtr k n with
        | none => none
        | some res => some (res.1, res.2.1.setRight a res.2.2, some a)

/-- The method `findAndDeleteMostLeft` on the heap: the item and the count of the leftmost
node, the heap and the new value of `treeNodePtr`. -/
def findAndDeleteMostLeftH :
    Nat → Heap α → Option Nat → Option (α × Int × Heap α × Option Nat)
  | 0, _, _ => none
  | _ + 1, _, none => none
  | fuel + 1, h, some a =>
    match h.cells a with
    | none => none
    | some c =>
      match c.leftChildPtr with
      | none => some (c.item, c.itemCount, h.write a none, c.rightChildPtr)
      | some l =>
        match findAndDeleteMostLeftH fuel h (some l) with
        | none => none
        | some res => some (res.1, res.2.1, res.2.2.1.setLeft a res.2.2.2, some a)

/-- The method `deleteNode` on the heap: the heap and the new value of `treeNode`. -/
def deleteNodeH (fuel : Nat) (h : Heap α) : Option Nat → Option (Heap α × Option Nat)
  | none => some (h, none)
  | some a =>
    match h.cells a with
    | none => none
    | some c =>
      match c.leftChildPtr, c.rightChildPtr with
      | none, none => some (h.write a none, none)
      | none, some r => some (h.write a none, some r)
      | some l, none => some (h.write a none, some l)
      | some l, some r =>
        match findAndDeleteMostLeftH fuel h (some r) with
        | none => none
        | some res =>
          some (res.2.2.1.write a (some ⟨res.1, res.2.1, some l, res.2.2.2⟩), some a)

/-- The method `removeHelper` on the heap: the value returned, the heap and the new value
of `root`. -/
def removeHelperH (ops : Comparable α) :
    Nat → Heap α → Option Nat → α → Option (Bool × Heap α × Option Nat)
  | 0, _, _, _ => none
  | _ + 1, h, none, _ => some (false, h, none)
  | fuel + 1, h, some a, k =>
    match h.cells a with
    | none => none
    | some c =>
      if ops.eq k c.item then
        if c.itemCount > 1 then
          some (true, h.write a (some ⟨c.item, c.itemCount - 1, c.leftChildPtr,
            c.rightChildPtr⟩), some a)
        else
          match deleteNodeH fuel h (some a) with
          | none => none
          | some res => some (true, res.1, res.2)
      else if ops.lt k c.item then
        match removeHelperH ops fuel h c.leftChildPtr k with
        | none => none
        | some res => some (res.1, res.2.1.setLeft a res.2.2, some a)
      else
        match removeHelperH ops fuel h c.rightChildPtr k with
        | none => none
        | some res => some (res.1, res.2.1.setRight a res.2.2, some a)


/-- The method `copyTree` on the heap: the heap and the pointer returned. -/
def copyTreeH : Nat → Heap α → Option Nat → Option (Heap α × Option Nat)
  | 0, _, _ => none
  | _ + 1, h, none => some (h, none)
  | fuel + 1, h, some a =>
    match h.cells a with
    | none => none
    | some c =>
      match copyTreeH fuel (h.alloc ⟨c.item, c.itemCount, none, none⟩) c.leftChildPtr with
      | none => none
      | some resL =>
        match copyTreeH fuel (resL.1.setLeft h.next resL.2) c.rightChildPtr with
        | none => none
        | some resR => some (resR.1.setRight h.next resR.2, some h.next)

/-- One call of a mutating public method on the tree whose `root` is given: the heap and
the `root` after the call.  The two `insertHelper` have the same body, with 1 for `numItems`
in the one without it; both refuse a `nullptr` item before they touch the tree. -/
def applyCallH (ops : Comparable α) (fuel : Nat) (h : Heap α) (root : Option Nat) :
    Call α → Option (Heap α × Option Nat)
  | Call.insert none => some (h, root)
  | Call.insert (some k) =>
    match insertHelperH ops fuel h root k 1 with
    | none => none
    | some res => some res.2
  | Call.insert_numItems none _ => some (h, root)
  | Call.insert_numItems (some k) n =>
    match insertHelperH ops fuel h root k n with
    | none => none
    | some res => some res.2
  | Call.remove k =>
    match removeHelperH ops fuel h root k with
    | none => none
    | some res => some res.2

/-- A sequence of calls on the tree whose `root` is given. -/
def runCallsH (ops : Comparable α) (fuel : Nat) :
    Heap α → Option Nat → List (Call α) → Option (Heap α × Option Nat)
  | h, root, [] => some (h, root)
  | h, root, c :: cs =>
    match applyCallH ops fuel h root c with
    | none => none
    | some res => runCallsH ops fuel res.1 res.2 cs

/-- The tree that a pointer leads to on the heap, read with a bound on the depth. -/
def readTree : Nat → Heap α → Option Nat → Option (TreeNode α)
  | 0, _, _ => none
  | _ + 1, _, none => some nil
  | fuel + 1, h, some a =>
    match h.cells a with
    | none => none
    | some c =>
      match readTree fuel h c.leftChildPtr, readTree fuel h c.rightChildPtr with
      | some l, some r => some (node c.item c.itemCount l r)
      | _, _ => none

/-- The pointer to the root of a tree whose nodes carry their addresses. -/
def rootPtr : TreeNode (Nat × α) → Option Nat
  | nil => none
  | node x _ _ _ => some x.1

/-- The addresses of the nodes of a tree whose nodes carry their addresses. -/
def addrs : TreeNode (Nat × α) → List Nat
  | nil => []
  | node x _ l r => addrs l ++ x.1 :: addrs r

/-- The tree without the addresses of its nodes. -/
def plain : TreeNode (Nat × α) → TreeNode α
  | nil => nil
  | node x c l r => node x.2 c (plain l) (plain r)

/-- The number of nodes of a tree. -/
def size : TreeNode α → Nat
  | nil => 0
  | node _ _ l r => size l + size r + 1

/-- Every node of the tree is on the heap, at its address, with its item, its count and the
addresses of its children. -/
def Lives (h : Heap α) : TreeNode (Nat × α) → Prop
  | nil => True
  | node x c l r =>
    h.cells x.1 = some ⟨x.2, c, rootPtr l, rootPtr r⟩ ∧ Lives h l ∧ Lives h r

/-- The pointer `p` is the root of the tree `T` on the heap `h`: the nodes of `T` are on the
heap, at different addresses, all of them allocated. -/
def Owns (h : Heap α) (p : Option Nat) (T : TreeNode (Nat × α)) : Prop :=
  rootPtr T = p ∧ Lives h T ∧ (addrs T).Nodup ∧ ∀ a ∈ addrs T, a < h.next


/-- A heap with one node, at address 0: the key 5 with count 1 and no children. -/
def oneNodeHeap : Heap Int :=
  ⟨fun a => if a = 0 then some ⟨5, 1, none, none⟩ else none, 1⟩

/-- The tree of `oneNodeHeap`, with the address of its node. -/
def oneNodeTree : TreeNode (Nat × Int) := node (0, 5) 1 nil nil

/-- Calls that insert a new key, remove the last occurrence of a key and add units. -/
def threeCalls : List (Call Int) :=
  [Call.insert (some 3), Call.remove 5, Call.insert_numItems (some 7) 2]


/-! ## The key order -/

theorem StrictTotalOrder.eq_true_iff {ops : Comparable α} (ho : StrictTotalOrder ops)
    (a b : α) : ops.eq a b = true ↔ a = b := by
  rw [ho.eq_iff]
  constructor
  · rintro ⟨h1, h2⟩
    exact ho.connected a b h1 h2
  · rintro rfl
    exact ⟨ho.irrefl a, ho.irrefl a⟩

theorem StrictTotalOrder.eq_self {ops : Comparable α} (ho : StrictTotalOrder ops)
    (a : α) : ops.eq a a = true :=
  (ho.eq_true_iff a a).2 rfl

theorem StrictTotalOrder.lt_asymm {ops : Comparable α} (ho : StrictTotalOrder ops)
    {a b : α} (h : ops.lt a b = true) : ops.lt b a = false := by
  cases hba : ops.lt b a with
  | false => rfl
  | true =>
    have := ho.trans a b a h hba
    rw [ho.irrefl a] at this
    exact absurd this (by decide)

theorem StrictTotalOrder.eq_false_of_lt {ops : Comparable α} (ho : StrictTotalOrder ops)
    {a b : α} (h : ops.lt a b = true) : ops.eq a b = false := by
  cases he : ops.eq a b with
  | false => rfl
  | true =>
    have hab := (ho.eq_true_iff a b).1 he
    subst hab
    rw [ho.irrefl a] at h
    exact absurd h (by decide)

theorem StrictTotalOrder.eq_false_of_gt {ops : Comparable α} (ho : StrictTotalOrder ops)
    {a b : α} (h : ops.lt b a = true) : ops.eq a b = false := by
  cases he : ops.eq a b with
  | false => rfl
  | true =>
    have hab := (ho.eq_true_iff a b).1 he
    subst hab
    rw [ho.irrefl a] at h
    exact absurd h (by decide)

theorem StrictTotalOrder.gt_of_not {ops : Comparable α} (ho : StrictTotalOrder ops)
    {a b : α} (h1 : ops.lt a b = false) (h2 : ops.eq a b = false) : ops.lt b a = true := by
  cases hba : ops.lt b a with
  | true => rfl
  | false =>
    have := (ho.eq_iff a b).2 ⟨h1, hba⟩
    rw [h2] at this
    exact absurd this (by decide)

theorem strLt_irrefl (a : String) : strLt a a = false := by
  simp [strLt]

theorem strLt_trans {a b c : String} (h1 : strLt a b = true) (h2 : strLt b c = true) :
    strLt a c = true := by
  simp only [strLt, decide_eq_true_eq] at *
  exact lt_trans h1 h2

theorem strLt_connected {a b : String} (h1 : strLt a b = false) (h2 : strLt b a = false) :
    a = b := by
  simp only [strLt, decide_eq_false_iff_not] at *
  have := lt_trichotomy a.toList b.toList
  rcases this with h | h | h
  · exact absurd h h1
  · exact String.toList_inj.1 h
  · exact absurd h h2

theorem strLt_asymm {a b : String} (h1 : strLt a b = true) : strLt b a = false := by
  simp only [strLt, decide_eq_true_eq, decide_eq_false_iff_not] at *
  exact lt_asymm h1

/-- The operators of `Coin` form a strict total order whose `operator==` is the equality of
all three data members. -/
theorem coinOps_strictTotalOrder : StrictTotalOrder coinOps where
  irrefl a := by
    simp [coinOps, Coin.lt, strLt_irrefl]
  trans a b c := by
    obtain ⟨at_, ay, ag⟩ := a
    obtain ⟨bt, by_, bg⟩ := b
    obtain ⟨ct, cy, cg⟩ := c
    simp only [coinOps, Coin.lt]
    intro h1 h2
    by_cases t1 : strLt at_ bt = true
    · by_cases t2 : strLt bt ct = true
      · simp [strLt_trans t1 t2]
      · simp only [t2] at h2
        by_cases e2 : bt = ct
        · subst e2; simp [t1]
        · simp [e2] at h2
    · simp only [t1] at h1
      by_cases e1 : at_ = bt
      · subst e1
        by_cases t2 : strLt at_ ct = true
        · simp [t2]
        · simp only [t2] at h2 ⊢
          by_cases e2 : at_ = ct
          · subst e2
            simp only [if_true, if_false, Bool.false_eq_true] at h1 h2 ⊢
            split_ifs at h1 h2 ⊢ <;> first | rfl | omega
          · simp [e2] at h2
      · simp [e1] at h1
  connected a b := by
    obtain ⟨at_, ay, ag⟩ := a
    obtain ⟨bt, by_, bg⟩ := b
    simp only [coinOps, Coin.lt]
    intro h1 h2
    by_cases t1 : strLt at_ bt = true
    · simp [t1] at h1
    · by_cases t2 : strLt bt at_ = true
      · simp [t2] at h2
      · have e := strLt_connected (Bool.eq_false_iff.2 t1) (Bool.eq_false_iff.2 t2)
        subst e
        simp only [t1, if_true, if_false, Bool.false_eq_true] at h1 h2
        have hy : ay = by_ := by
          split_ifs at h1 h2 <;> omega
        subst hy
        have hg : ag = bg := by
          split_ifs at h1 h2 <;> omega
        subst hg
        rfl
  eq_iff a b := by
    obtain ⟨at_, ay, ag⟩ := a
    obtain ⟨bt, by_, bg⟩ := b
    simp only [coinOps, Coin.lt, Coin.eq]
    constructor
    · intro h
      simp only [Bool.and_eq_true, decide_eq_true_eq] at h
      obtain ⟨⟨h1, h2⟩, h3⟩ := h
      subst h1 h2 h3
      simp [strLt_irrefl]
    · rintro ⟨h1, h2⟩
      by_cases t1 : strLt at_ bt = true
      · simp [t1] at h1
      · by_cases t2 : strLt bt at_ = true
        · simp [t2] at h2
        · have e := strLt_connected (Bool.eq_false_iff.2 t1) (Bool.eq_false_iff.2 t2)
          subst e
          simp only [t1, if_true, if_false, Bool.false_eq_true] at h1 h2
          have hy : ay = by_ := by
            split_ifs at h1 h2 <;> omega
          subst hy
          have hg : ag = bg := by
            split_ifs at h1 h2 <;> omega
          subst hg
          simp

/-! ## Traversal, `allItems` and the BST invariant -/

theorem items_nil : items (nil : TreeNode α) = [] := rfl

theorem items_node (x : α) (c : Int) (l r : TreeNode α) :
    items (node x c l r) = items l ++ x :: items r := by
  simp [items, printHelper]

theorem allItems_iff (p : α → Bool) (t : TreeNode α) :
    allItems p t = true ↔ ∀ y ∈ items t, p y = true := by
  induction t with
  | nil => simp [allItems, items_nil]
  | node x c l r ihl ihr =>
    simp only [allItems, Bool.and_eq_true, ihl, ihr, items_node, List.mem_append,
      List.mem_cons]
    constructor
    · rintro ⟨⟨hx, hl⟩, hr⟩ y (hy | rfl | hy)
      · exact hl y hy
      · exact hx
      · exact hr y hy
    · intro h
      exact ⟨⟨h x (Or.inr (Or.inl rfl)), fun y hy => h y (Or.inl hy)⟩,
        fun y hy => h y (Or.inr (Or.inr hy))⟩

theorem isBST_iff_pairwise {ops : Comparable α} (ho : StrictTotalOrder ops) (t : TreeNode α) :
    isBST ops t = true ↔ (items t).Pairwise (fun a b => ops.lt a b = true) := by
  induction t with
  | nil => simp [isBST, items_nil]
  | node x c l r ihl ihr =>
    simp only [isBST, Bool.and_eq_true, ihl, ihr, items_node, allItems_iff,
      List.pairwise_append, List.pairwise_cons, List.mem_cons]
    constructor
    · rintro ⟨⟨⟨hl, hr⟩, pl⟩, pr⟩
      refine ⟨pl, ⟨hr, pr⟩, ?_⟩
      rintro a ha b (rfl | hb)
      · exact hl a ha
      · exact ho.trans a x b (hl a ha) (hr b hb)
    · rintro ⟨pl, ⟨hr, pr⟩, h⟩
      exact ⟨⟨⟨fun a ha => h a ha x (Or.inl rfl), hr⟩, pl⟩, pr⟩

/-! ## Insertion -/

theorem insertHelper_eq_numItems (ops : Comparable α) (t : TreeNode α) (p : Option α) :
    insertHelper ops t p = insertHelper_numItems ops t p 1 := by
  induction t with
  | nil => cases p <;> rfl
  | node x c l r ihl ihr =>
    cases p with
    | none => rfl
    | some k => simp only [insertHelper, insertHelper_numItems, ihl, ihr]

theorem insertHelper_numItems_none (ops : Comparable α) (t : TreeNode α) (n : Int) :
    insertHelper_numItems ops t none n = (false, t) := by
  cases t <;> rfl

theorem allItems_insert (ops : Comparable α) (p : α → Bool) (t : TreeNode α) (k : α) (n : Int)
    (ht : allItems p t = true) (hk : p k = true) :
    allItems p (insertHelper_numItems ops t (some k) n).2 = true := by
  induction t with
  | nil => simp [insertHelper_numItems, allItems, hk]
  | node x c l r ihl ihr =>
    simp only [allItems, Bool.and_eq_true] at ht
    obtain ⟨⟨hx, hl⟩, hr⟩ := ht
    simp only [insertHelper_numItems]
    split_ifs
    · simp [allItems, hx, ihl hl, hr]
    · simp [allItems, hx, hl, hr]
    · simp [allItems, hx, hl, ihr hr]

theorem isBST_insert {ops : Comparable α} (ho : StrictTotalOrder ops) (t : TreeNode α) (k : α)
    (n : Int) (hb : isBST ops t = true) :
    isBST ops (insertHelper_numItems ops t (some k) n).2 = true := by
  induction t with
  | nil => simp [insertHelper_numItems, isBST, allItems]
  | node x c l r ihl ihr =>
    simp only [isBST, Bool.and_eq_true] at hb
    obtain ⟨⟨⟨hl, hr⟩, bl⟩, br⟩ := hb
    simp only [insertHelper_numItems]
    by_cases h1 : ops.lt k x = true
    · simp only [h1, if_true, isBST, Bool.and_eq_true]
      exact ⟨⟨⟨allItems_insert ops _ l k n hl h1, hr⟩, ihl bl⟩, br⟩
    · by_cases h2 : ops.eq k x = true
      · simp only [h1, h2, if_true, if_false, isBST, Bool.and_eq_true]
        exact ⟨⟨⟨hl, hr⟩, bl⟩, br⟩
      · simp only [h1, h2, if_false, isBST, Bool.and_eq_true]
        have hgt : ops.lt x k = true :=
          ho.gt_of_not (Bool.eq_false_iff.2 h1) (Bool.eq_false_iff.2 h2)
        exact ⟨⟨⟨hl, allItems_insert ops _ r k n hr hgt⟩, bl⟩, ihr br⟩

/-! ## Removal -/

theorem findAndDeleteMostLeft_node (x : α) (c : Int) (l r : TreeNode α) :
    ∃ m mc t', findAndDeleteMostLeft (node x c l r) = some (m, mc, t') ∧
      printHelper (node x c l r) = (m, mc) :: printHelper t' := by
  induction l generalizing x c r with
  | nil => exact ⟨x, c, r, rfl, by simp [printHelper]⟩
  | node y d ll lr ihl _ =>
    obtain ⟨m, mc, t', h1, h2⟩ := ihl y d lr
    refine ⟨m, mc, node x c t' r, ?_, ?_⟩
    · simp only [findAndDeleteMostLeft, h1]
    · rw [printHelper, h2]
      simp [printHelper]

theorem deleteNode_node (x : α) (c : Int) (l r : TreeNode α) :
    ∃ t', deleteNode (node x c l r) = some t' ∧
      printHelper t' = printHelper l ++ printHelper r := by
  cases l with
  | nil =>
    cases r with
    | nil => exact ⟨nil, rfl, rfl⟩
    | node z e rl rr => exact ⟨node z e rl rr, rfl, by simp [printHelper]⟩
  | node y d ll lr =>
    cases r with
    | nil => exact ⟨node y d ll lr, rfl, by simp [printHelper]⟩
    | node z e rl rr =>
      obtain ⟨m, mc, r', h1, h2⟩ := findAndDeleteMostLeft_node z e rl rr
      refine ⟨node m mc (node y d ll lr) r', ?_, ?_⟩
      · simp only [deleteNode, h1]
      · rw [h2]
        simp [printHelper]

theorem removeHelper_total (ops : Comparable α) (t : TreeNode α) (k : α) :
    ∃ res, removeHelper ops t k = some res ∧ (items res.2).Sublist (items t) := by
  induction t with
  | nil => exact ⟨(false, nil), rfl, List.Sublist.refl _⟩
  | node x c l r ihl ihr =>
    simp only [removeHelper]
    by_cases h1 : ops.eq k x = true
    · simp only [h1, if_true]
      by_cases hc : c > 1
      · simp only [hc, if_true]
        exact ⟨_, rfl, by simp [items_node]⟩
      · simp only [hc, if_false]
        obtain ⟨t', h3, h4⟩ := deleteNode_node x c l r
        refine ⟨(true, t'), by simp only [h3], ?_⟩
        simp only [items, h4, printHelper, List.map_append, List.map_cons]
        exact List.Sublist.append_left (List.sublist_cons_self _ _) _
    · simp only [h1, if_false]
      by_cases h2 : ops.lt k x = true
      · simp only [h2, if_true]
        obtain ⟨res, h3, h4⟩ := ihl
        refine ⟨(res.1, node x c res.2 r), by simp [h3], ?_⟩
        simp only [items_node]
        exact List.Sublist.append_right h4 _
      · simp only [h2, if_false]
        obtain ⟨res, h3, h4⟩ := ihr
        refine ⟨(res.1, node x c l res.2), by simp [h3], ?_⟩
        simp only [items_node]
        exact List.Sublist.append_left (List.Sublist.cons₂ _ h4) _

theorem isBST_remove {ops : Comparable α} (ho : StrictTotalOrder ops) (t : TreeNode α) (k : α)
    (hb : isBST ops t = true) :
    ∃ res, removeHelper ops t k = some res ∧ isBST ops res.2 = true := by
  obtain ⟨res, h1, h2⟩ := removeHelper_total ops t k
  refine ⟨res, h1, ?_⟩
  rw [isBST_iff_pairwise ho] at hb ⊢
  exact hb.sublist h2

/-! ## Searching -/

theorem contains_eq_false_iff (ops : Comparable α) (t : TreeNode α) (k : α) :
    contains ops t k = false ↔ findNode ops t k = nil := by
  unfold contains retrieve
  cases findNode ops t k <;> simp

theorem contains_eq_true_iff (ops : Comparable α) (t : TreeNode α) (k : α) :
    contains ops t k = true ↔ ∃ y d l r, findNode ops t k = node y d l r := by
  unfold contains retrieve
  cases findNode ops t k <;> simp

theorem findNode_item {ops : Comparable α} (ho : StrictTotalOrder ops) (t : TreeNode α) (k : α)
    (y : α) (d : Int) (l r : TreeNode α) (h : findNode ops t k = node y d l r) : y = k := by
  induction t with
  | nil => simp [findNode] at h
  | node x c tl tr ihl ihr =>
    simp only [findNode] at h
    split_ifs at h with h1 h2
    · exact ihl h
    · simp only [node.injEq] at h
      rw [← h.1]
      exact ((ho.eq_true_iff k x).1 h2).symm
    · exact ihr h

/-- Searching after an insertion: the node found for a key that was stored before holds the
same item, and the same count unless it is the inserted key. -/
theorem findNode_insert_frame (ops : Comparable α) (t : TreeNode α) (K : α) (n : Int) (k : α)
    (y : α) (d : Int) (l r : TreeNode α) (h : findNode ops t k = node y d l r) :
    ∃ d' l' r', findNode ops (insertHelper_numItems ops t (some K) n).2 k = node y d' l' r' ∧
      (ops.eq K y = false → d' = d) := by
  induction t with
  | nil => simp [findNode] at h
  | node x c tl tr ihl ihr =>
    simp only [findNode] at h
    simp only [insertHelper_numItems]
    by_cases k1 : ops.lt k x = true
    · simp only [k1, if_true] at h
      split_ifs <;> simp only [findNode, k1, if_true]
      · exact ihl h
      · exact ⟨d, l, r, h, fun _ => rfl⟩
      · exact ⟨d, l, r, h, fun _ => rfl⟩
    · by_cases k2 : ops.eq k x = true
      · simp only [k1, k2, if_true, if_false, node.injEq] at h
        obtain ⟨rfl, rfl, rfl, rfl⟩ := h
        split_ifs with h1 h2 <;> simp only [findNode, k1, k2, if_true, if_false]
        · exact ⟨_, _, _, rfl, fun _ => rfl⟩
        · refine ⟨_, _, _, rfl, fun hne => ?_⟩
          rw [h2] at hne
          exact absurd hne (by decide)
        · exact ⟨_, _, _, rfl, fun _ => rfl⟩
      · simp only [k1, k2, if_false] at h
        split_ifs <;> simp only [findNode, k1, k2, if_false]
        · exact ⟨d, l, r, h, fun _ => rfl⟩
        · exact ⟨d, l, r, h, fun _ => rfl⟩
        · exact ihr h

theorem insert_absent_result {ops : Comparable α} (ho : StrictTotalOrder ops) (t : TreeNode α)
    (K : α) (U : Int) (hK : findNode ops t K = nil) :
    (insertHelper_numItems ops t (some K) U).1 = true ∧
    findNode ops (insertHelper_numItems ops t (some K) U).2 K = node K U nil nil ∧
    ∃ pre post, printHelper t = pre ++ post ∧
      printHelper (insertHelper_numItems ops t (some K) U).2 = pre ++ (K, U) :: post := by
  induction t with
  | nil =>
    refine ⟨rfl, ?_, [], [], rfl, rfl⟩
    simp [insertHelper_numItems, findNode, ho.irrefl, ho.eq_self]
  | node x c tl tr ihl ihr =>
    simp only [findNode] at hK
    simp only [insertHelper_numItems]
    by_cases k1 : ops.lt K x = true
    · simp only [k1, if_true] at hK ⊢
      obtain ⟨h1, h2, pre, post, h3, h4⟩ := ihl hK
      refine ⟨h1, by simp only [findNode, k1, if_true, h2], pre, post ++ (x, c) :: printHelper tr,
        ?_, ?_⟩
      · simp [printHelper, h3]
      · simp [printHelper, h4]
    · by_cases k2 : ops.eq K x = true
      · simp [k1, k2] at hK
      · simp only [Bool.not_eq_true] at k1 k2
        simp only [k1, k2, Bool.false_eq_true, if_false] at hK ⊢
        obtain ⟨h1, h2, pre, post, h3, h4⟩ := ihr hK
        refine ⟨h1, by simp only [findNode, k1, k2, Bool.false_eq_true, if_false, h2],
          printHelper tl ++ (x, c) :: pre, post, ?_, ?_⟩
        · simp [printHelper, h3]
        · simp [printHelper, h4]

theorem replaceCount_append (ops : Comparable α) (K : α) (v : Int) (xs ys : List (α × Int)) :
    replaceCount ops K v (xs ++ ys) = replaceCount ops K v xs ++ replaceCount ops K v ys := by
  simp [replaceCount]

theorem replaceCount_cons (ops : Comparable α) (K : α) (v : Int) (p : α × Int)
    (ys : List (α × Int)) :
    replaceCount ops K v (p :: ys) =
      (if ops.eq K p.1 then (p.1, v) else p) :: replaceCount ops K v ys := by
  simp [replaceCount]

theorem replaceCount_of_ne (ops : Comparable α) (K : α) (v : Int) (t : TreeNode α)
    (h : allItems (fun y => !ops.eq K y) t = true) :
    replaceCount ops K v (printHelper t) = printHelper t := by
  induction t with
  | nil => rfl
  | node x c l r ihl ihr =>
    simp only [allItems, Bool.and_eq_true, Bool.not_eq_true'] at h
    obtain ⟨⟨hx, hl⟩, hr⟩ := h
    simp [printHelper, replaceCount_append, replaceCount_cons, ihl hl, ihr hr, hx]

theorem allItems_imp (p q : α → Bool) (t : TreeNode α) (h : ∀ y, p y = true → q y = true)
    (hp : allItems p t = true) : allItems q t = true := by
  rw [allItems_iff] at hp ⊢
  exact fun y hy => h y (hp y hy)

/-- Inserting `K` leaves what is found for every other key as it was. -/
theorem insert_other_key {ops : Comparable α} (ho : StrictTotalOrder ops) (t : TreeNode α)
    (K : α) (n : Int) (k : α) (hne : ops.eq K k = false) :
    itemCountOf ops (insertHelper_numItems ops t (some K) n).2 k = itemCountOf ops t k ∧
    retrieve ops (insertHelper_numItems ops t (some K) n).2 k = retrieve ops t k := by
  have hkK : ops.eq k K = false := by
    cases he : ops.eq k K with
    | false => rfl
    | true =>
      have := (ho.eq_true_iff k K).1 he
      rw [this, ho.eq_self] at hne
      exact absurd hne (by decide)
  induction t with
  | nil =>
    simp [insertHelper_numItems, itemCountOf, retrieve, findNode, hkK]
  | node x c l r ihl ihr =>
    simp only [insertHelper_numItems]
    by_cases K1 : ops.lt K x = true
    · simp only [K1, if_true]
      simp only [itemCountOf, retrieve, findNode] at ihl ⊢
      split_ifs
      · exact ihl
      · exact ⟨rfl, rfl⟩
      · exact ⟨rfl, rfl⟩
    · simp only [Bool.not_eq_true] at K1
      by_cases K2 : ops.eq K x = true
      · simp only [K1, K2, Bool.false_eq_true, if_true, if_false]
        simp only [itemCountOf, retrieve, findNode]
        split_ifs with h1 h2
        · exact ⟨rfl, rfl⟩
        · have e1 := (ho.eq_true_iff K x).1 K2
          have e2 := (ho.eq_true_iff k x).1 h2
          rw [e1, e2, ho.eq_self] at hne
          exact absurd hne (by decide)
        · exact ⟨rfl, rfl⟩
      · simp only [Bool.not_eq_true] at K2
        simp only [K1, K2, Bool.false_eq_true, if_false]
        simp only [itemCountOf, retrieve, findNode] at ihr ⊢
        split_ifs
        · exact ⟨rfl, rfl⟩
        · exact ⟨rfl, rfl⟩
        · exact ihr

theorem wrapInt_of_fits (x : Int) (h1 : INT_MIN ≤ x) (h2 : x ≤ INT_MAX) : wrapInt x = x := by
  unfold INT_MIN at h1
  unfold INT_MAX at h2
  unfold wrapInt
  omega

/-! ## Searching a tree that satisfies the invariant -/

theorem mem_items_of_mem {t : TreeNode α} {k : α} {c : Int} (h : (k, c) ∈ printHelper t) :
    k ∈ items t :=
  List.mem_map.2 ⟨(k, c), h, rfl⟩

theorem not_mem_of_allItems {ops : Comparable α} (ho : StrictTotalOrder ops) {t : TreeNode α}
    {k : α} {c : Int} (h : allItems (fun y => !ops.eq k y) t = true) :
    (k, c) ∉ printHelper t := by
  intro hm
  have := (allItems_iff _ t).1 h k (mem_items_of_mem hm)
  simp [ho.eq_self] at this

/-- In a tree satisfying the invariant, the count found by searching for a key is the count
printed with that key, and a key is found exactly when it is printed. -/
theorem itemCountOf_iff_mem {ops : Comparable α} (ho : StrictTotalOrder ops) (t : TreeNode α)
    (hb : isBST ops t = true) (k : α) (c : Int) :
    itemCountOf ops t k = some c ↔ (k, c) ∈ printHelper t := by
  induction t with
  | nil => simp [itemCountOf, findNode, printHelper]
  | node x d l r ihl ihr =>
    simp only [isBST, Bool.and_eq_true] at hb
    obtain ⟨⟨⟨hl, hr⟩, bl⟩, br⟩ := hb
    have ihl := ihl bl
    have ihr := ihr br
    simp only [itemCountOf, findNode] at ihl ihr ⊢
    simp only [printHelper, List.mem_append, List.mem_cons, Prod.mk.injEq]
    by_cases k1 : ops.lt k x = true
    · simp only [k1, if_true]
      have hne : k ≠ x := by
        rintro rfl
        rw [ho.irrefl] at k1
        exact absurd k1 (by decide)
      have hr' : (k, c) ∉ printHelper r := by
        apply not_mem_of_allItems ho
        refine allItems_imp _ _ r (fun z hz => ?_) hr
        simp only [Bool.not_eq_true']
        exact ho.eq_false_of_lt (ho.trans k x z k1 hz)
      rw [ihl]
      constructor
      · exact fun h => Or.inl h
      · rintro (h | ⟨h, _⟩ | h)
        · exact h
        · exact absurd h hne
        · exact absurd h hr'
    · simp only [Bool.not_eq_true] at k1
      by_cases k2 : ops.eq k x = true
      · have hkx : k = x := (ho.eq_true_iff k x).1 k2
        simp only [k1, k2, Bool.false_eq_true, if_true, if_false, Option.some.injEq]
        have hl' : (k, c) ∉ printHelper l := by
          apply not_mem_of_allItems ho
          refine allItems_imp _ _ l (fun z hz => ?_) hl
          simp only [Bool.not_eq_true']
          rw [hkx]
          exact ho.eq_false_of_gt hz
        have hr' : (k, c) ∉ printHelper r := by
          apply not_mem_of_allItems ho
          refine allItems_imp _ _ r (fun z hz => ?_) hr
          simp only [Bool.not_eq_true']
          rw [hkx]
          exact ho.eq_false_of_lt hz
        constructor
        · exact fun h => Or.inr (Or.inl ⟨hkx, h.symm⟩)
        · rintro (h | ⟨_, h⟩ | h)
          · exact absurd h hl'
          · exact h.symm
          · exact absurd h hr'
      · simp only [Bool.not_eq_true] at k2
        simp only [k1, k2, Bool.false_eq_true, if_false]
        have hgt : ops.lt x k = true := ho.gt_of_not k1 k2
        have hne : k ≠ x := by
          rintro rfl
          rw [ho.irrefl] at hgt
          exact absurd hgt (by decide)
        have hl' : (k, c) ∉ printHelper l := by
          apply not_mem_of_allItems ho
          refine allItems_imp _ _ l (fun z hz => ?_) hl
          simp only [Bool.not_eq_true']
          exact ho.eq_false_of_gt (ho.trans z x k hz hgt)
        rw [ihr]
        constructor
        · exact fun h => Or.inr (Or.inr h)
        · rintro (h | ⟨h, _⟩ | h)
          · exact absurd h hl'
          · exact absurd h hne
          · exact h

theorem itemCountOf_isSome (ops : Comparable α) (t : TreeNode α) (k : α) :
    (itemCountOf ops t k).isSome = contains ops t k := by
  unfold itemCountOf contains retrieve
  cases findNode ops t k <;> rfl

theorem contains_iff_mem {ops : Comparable α} (ho : StrictTotalOrder ops) (t : TreeNode α)
    (hb : isBST ops t = true) (k : α) : contains ops t k = true ↔ k ∈ items t := by
  rw [← itemCountOf_isSome, Option.isSome_iff_exists]
  constructor
  · rintro ⟨c, hc⟩
    exact mem_items_of_mem ((itemCountOf_iff_mem ho t hb k c).1 hc)
  · intro h
    obtain ⟨⟨k', c⟩, hm, rfl⟩ := List.mem_map.1 h
    exact ⟨c, (itemCountOf_iff_mem ho t hb k' c).2 hm⟩

/-- Two trees satisfying the invariant that print the same lines for a key give the same
count for it. -/
theorem itemCountOf_congr {ops : Comparable α} (ho : StrictTotalOrder ops) (t t' : TreeNode α)
    (hb : isBST ops t = true) (hb' : isBST ops t' = true) (k : α)
    (h : ∀ c, (k, c) ∈ printHelper t' ↔ (k, c) ∈ printHelper t) :
    itemCountOf ops t' k = itemCountOf ops t k := by
  apply Option.ext
  intro c
  simp only [Option.mem_def]
  rw [itemCountOf_iff_mem ho t' hb', itemCountOf_iff_mem ho t hb, h]

theorem sameNodes_self {ops : Comparable α} (ho : StrictTotalOrder ops) (t : TreeNode α) :
    sameNodes ops t t = true := by
  induction t with
  | nil => rfl
  | node x c l r ihl ihr => simp [sameNodes, ho.eq_self, ihl, ihr]

theorem removeHelper_absent {ops : Comparable α} (ho : StrictTotalOrder ops) (t : TreeNode α)
    (K : α) (hK : findNode ops t K = nil) : removeHelper ops t K = some (false, t) := by
  induction t with
  | nil => rfl
  | node x c l r ihl ihr =>
    simp only [findNode] at hK
    simp only [removeHelper]
    by_cases k1 : ops.lt K x = true
    · simp only [k1, if_true] at hK
      simp [ho.eq_false_of_lt k1, k1, ihl hK]
    · simp only [Bool.not_eq_true] at k1
      by_cases k2 : ops.eq K x = true
      · simp [k1, k2] at hK
      · simp only [Bool.not_eq_true] at k2
        simp only [k1, k2, Bool.false_eq_true, if_false] at hK
        simp [k1, k2, ihr hK]

/-- Removing a key stored with a count above one: nothing changes but that count. -/
theorem remove_decrement_result {ops : Comparable α} (ho : StrictTotalOrder ops)
    (t : TreeNode α) (hb : isBST ops t = true) (K : α)
    (y : α) (c : Int) (l r : TreeNode α) (hK : findNode ops t K = node y c l r) (hc : c > 1) :
    ∃ t', removeHelper ops t K = some (true, t') ∧ eraseCounts t' = eraseCounts t ∧
      printHelper t' = replaceCount ops K (c - 1) (printHelper t) := by
  induction t with
  | nil => simp [findNode] at hK
  | node x d tl tr ihl ihr =>
    simp only [isBST, Bool.and_eq_true] at hb
    obtain ⟨⟨⟨hl, hr⟩, bl⟩, br⟩ := hb
    simp only [findNode] at hK
    simp only [removeHelper]
    by_cases k1 : ops.lt K x = true
    · simp only [k1, if_true] at hK
      obtain ⟨t', h1, h3, h4⟩ := ihl bl hK
      refine ⟨node x d t' tr, by simp [ho.eq_false_of_lt k1, k1, h1],
        by simp only [eraseCounts, h3], ?_⟩
      have hr' : allItems (fun z => !ops.eq K z) tr = true := by
        refine allItems_imp _ _ tr (fun z hz => ?_) hr
        simp only [Bool.not_eq_true']
        exact ho.eq_false_of_lt (ho.trans K x z k1 hz)
      simp only [printHelper, replaceCount_append, replaceCount_cons, h4,
        replaceCount_of_ne ops K _ tr hr', ho.eq_false_of_lt k1, Bool.false_eq_true, if_false]
    · simp only [Bool.not_eq_true] at k1
      by_cases k2 : ops.eq K x = true
      · simp only [k1, k2, Bool.false_eq_true, if_true, if_false, node.injEq] at hK
        obtain ⟨rfl, rfl, rfl, rfl⟩ := hK
        have hKx : K = x := (ho.eq_true_iff K x).1 k2
        refine ⟨node x (d - 1) tl tr, by simp [k2, hc], by simp only [eraseCounts], ?_⟩
        have hl' : allItems (fun z => !ops.eq K z) tl = true := by
          refine allItems_imp _ _ tl (fun z hz => ?_) hl
          simp only [Bool.not_eq_true']
          rw [hKx]
          exact ho.eq_false_of_gt hz
        have hr' : allItems (fun z => !ops.eq K z) tr = true := by
          refine allItems_imp _ _ tr (fun z hz => ?_) hr
          simp only [Bool.not_eq_true']
          rw [hKx]
          exact ho.eq_false_of_lt hz
        simp only [printHelper, replaceCount_append, replaceCount_cons,
          replaceCount_of_ne ops K _ tl hl', replaceCount_of_ne ops K _ tr hr', k2, if_true]
      · simp only [Bool.not_eq_true] at k2
        simp only [k1, k2, Bool.false_eq_true, if_false] at hK
        obtain ⟨t', h1, h3, h4⟩ := ihr br hK
        refine ⟨node x d tl t', by simp [k1, k2, h1], by simp only [eraseCounts, h3], ?_⟩
        have hgt : ops.lt x K = true := ho.gt_of_not k1 k2
        have hl' : allItems (fun z => !ops.eq K z) tl = true := by
          refine allItems_imp _ _ tl (fun z hz => ?_) hl
          simp only [Bool.not_eq_true']
          exact ho.eq_false_of_gt (ho.trans z x K hz hgt)
        simp only [printHelper, replaceCount_append, replaceCount_cons, h4,
          replaceCount_of_ne ops K _ tl hl', k2, Bool.false_eq_true, if_false]

/-- Removing a key stored with a count of one or less: its line leaves the traversal. -/
theorem remove_last_result {ops : Comparable α} (ho : StrictTotalOrder ops)
    (t : TreeNode α) (K : α)
    (y : α) (c : Int) (l r : TreeNode α) (hK : findNode ops t K = node y c l r) (hc : ¬ c > 1) :
    ∃ t' pre post, removeHelper ops t K = some (true, t') ∧
      printHelper t = pre ++ (K, c) :: post ∧ printHelper t' = pre ++ post := by
  induction t with
  | nil => simp [findNode] at hK
  | node x d tl tr ihl ihr =>
    simp only [findNode] at hK
    simp only [removeHelper]
    by_cases k1 : ops.lt K x = true
    · simp only [k1, if_true] at hK
      obtain ⟨t', pre, post, h1, h3, h4⟩ := ihl hK
      refine ⟨node x d t' tr, pre, post ++ (x, d) :: printHelper tr,
        by simp [ho.eq_false_of_lt k1, k1, h1], ?_, ?_⟩
      · simp [printHelper, h3]
      · simp [printHelper, h4]
    · simp only [Bool.not_eq_true] at k1
      by_cases k2 : ops.eq K x = true
      · simp only [k1, k2, Bool.false_eq_true, if_true, if_false, node.injEq] at hK
        obtain ⟨rfl, rfl, rfl, rfl⟩ := hK
        have hKx : K = x := (ho.eq_true_iff K x).1 k2
        obtain ⟨t', h3, h4⟩ := deleteNode_node x d tl tr
        refine ⟨t', printHelper tl, printHelper tr, by simp [k2, hc, h3], ?_, h4⟩
        simp [printHelper, hKx]
      · simp only [Bool.not_eq_true] at k2
        simp only [k1, k2, Bool.false_eq_true, if_false] at hK
        obtain ⟨t', pre, post, h1, h3, h4⟩ := ihr hK
        refine ⟨node x d tl t', printHelper tl ++ (x, d) :: pre, post,
          by simp [k1, k2, h1], ?_, ?_⟩
        · simp [printHelper, h3]
        · simp [printHelper, h4]

theorem findNode_of_itemCountOf {ops : Comparable α} {t : TreeNode α} {K : α} {c : Int}
    (hc : itemCountOf ops t K = some c) : ∃ y l r, findNode ops t K = node y c l r := by
  unfold itemCountOf at hc
  cases hf : findNode ops t K with
  | nil => simp [hf] at hc
  | node y d l r =>
    simp only [hf, Option.some.injEq] at hc
    exact ⟨y, l, r, by rw [hc]⟩

theorem mem_replaceCount_of_ne (ops : Comparable α) (K : α) (v : Int) (ls : List (α × Int))
    (k : α) (c : Int) (hne : ops.eq K k = false) :
    (k, c) ∈ replaceCount ops K v ls ↔ (k, c) ∈ ls := by
  simp only [replaceCount, List.mem_map]
  constructor
  · rintro ⟨⟨a, b⟩, hm, hab⟩
    by_cases h : ops.eq K a = true
    · simp only [h, if_true, Prod.mk.injEq] at hab
      rw [hab.1, hne] at h
      exact absurd h (by decide)
    · simp only [h, Bool.false_eq_true, if_false, Prod.mk.injEq] at hab
      rw [← hab.1, ← hab.2]
      exact hm
  · intro hm
    exact ⟨(k, c), hm, by simp [hne]⟩

/-! ## Counts -/

theorem allCounts_iff (p : Int → Bool) (t : TreeNode α) :
    allCounts p t = true ↔ ∀ q ∈ printHelper t, p q.2 = true := by
  induction t with
  | nil => simp [allCounts, printHelper]
  | node x c l r ihl ihr =>
    simp only [allCounts, Bool.and_eq_true, ihl, ihr, printHelper, List.mem_append,
      List.mem_cons]
    constructor
    · rintro ⟨⟨hx, hl⟩, hr⟩ q (hq | rfl | hq)
      · exact hl q hq
      · exact hx
      · exact hr q hq
    · intro h
      exact ⟨⟨h (x, c) (Or.inr (Or.inl rfl)), fun q hq => h q (Or.inl hq)⟩,
        fun q hq => h q (Or.inr (Or.inr hq))⟩

theorem allCounts_insert (ops : Comparable α) (t : TreeNode α) (k : α) (n : Int)
    (ht : allCounts (fun c => decide (1 ≤ c)) t = true) (hn : 1 ≤ n)
    (hfit : ∀ c, itemCountOf ops t k = some c → c + n ≤ INT_MAX) :
    allCounts (fun c => decide (1 ≤ c)) (insertHelper_numItems ops t (some k) n).2 = true := by
  induction t with
  | nil => simp [insertHelper_numItems, allCounts, hn]
  | node x c l r ihl ihr =>
    simp only [allCounts, Bool.and_eq_true, decide_eq_true_eq] at ht
    obtain ⟨⟨hx, hl⟩, hr⟩ := ht
    simp only [itemCountOf, findNode] at hfit ihl ihr
    simp only [insertHelper_numItems]
    by_cases k1 : ops.lt k x = true
    · simp only [k1, if_true] at hfit ⊢
      simp [allCounts, hx, ihl hl hfit, hr]
    · simp only [Bool.not_eq_true] at k1
      by_cases k2 : ops.eq k x = true
      · simp only [k1, k2, Bool.false_eq_true, if_true, if_false] at hfit ⊢
        have h1 := hfit c rfl
        have hw : wrapInt (c + n) = c + n :=
          wrapInt_of_fits _ (by unfold INT_MIN; omega) h1
        simp only [allCounts, hw, Bool.and_eq_true, decide_eq_true_eq]
        exact ⟨⟨by omega, hl⟩, hr⟩
      · simp only [Bool.not_eq_true] at k2
        simp only [k1, k2, Bool.false_eq_true, if_false] at hfit ⊢
        simp [allCounts, hx, hl, ihr hr hfit]

theorem allCounts_remove (ops : Comparable α) (t : TreeNode α) (k : α)
    (ht : allCounts (fun c => decide (1 ≤ c)) t = true) :
    ∃ res, removeHelper ops t k = some res ∧
      allCounts (fun c => decide (1 ≤ c)) res.2 = true := by
  induction t with
  | nil => exact ⟨(false, nil), rfl, rfl⟩
  | node x c l r ihl ihr =>
    have ht' := ht
    simp only [allCounts, Bool.and_eq_true, decide_eq_true_eq] at ht
    obtain ⟨⟨hx, hl⟩, hr⟩ := ht
    simp only [removeHelper]
    by_cases k2 : ops.eq k x = true
    · simp only [k2, if_true]
      by_cases hc : c > 1
      · refine ⟨(true, node x (c - 1) l r), by simp [hc], ?_⟩
        simp only [allCounts, Bool.and_eq_true, decide_eq_true_eq]
        exact ⟨⟨by omega, hl⟩, hr⟩
      · obtain ⟨t', h3, h4⟩ := deleteNode_node x c l r
        refine ⟨(true, t'), by simp [hc, h3], ?_⟩
        rw [allCounts_iff] at ht' ⊢
        intro q hq
        rw [h4] at hq
        apply ht' q
        simp only [printHelper, List.mem_append, List.mem_cons]
        rcases List.mem_append.1 hq with h | h
        · exact Or.inl h
        · exact Or.inr (Or.inr h)
    · simp only [Bool.not_eq_true] at k2
      by_cases k1 : ops.lt k x = true
      · obtain ⟨res, h1, h2⟩ := ihl hl
        refine ⟨(res.1, node x c res.2 r), by simp [k1, k2, h1], ?_⟩
        simp only [allCounts, Bool.and_eq_true, decide_eq_true_eq]
        exact ⟨⟨hx, h2⟩, hr⟩
      · obtain ⟨res, h1, h2⟩ := ihr hr
        refine ⟨(res.1, node x c l res.2), by simp [k1, k2, h1], ?_⟩
        simp only [allCounts, Bool.and_eq_true, decide_eq_true_eq]
        exact ⟨⟨hx, hl⟩, h2⟩

theorem applyCall_allCounts (ops : Comparable α) (t : TreeNode α) (c : Call α)
    (ht : allCounts (fun c => decide (1 ≤ c)) t = true) (hpos : unitsPositive c = true)
    (hfit : callFits ops t c = true) :
    ∃ t', applyCall ops t c = some t' ∧ allCounts (fun c => decide (1 ≤ c)) t' = true := by
  cases c with
  | insert p =>
    refine ⟨_, rfl, ?_⟩
    cases p with
    | none => simpa [insert, insertHelper_eq_numItems, insertHelper_numItems_none] using ht
    | some k =>
      simp only [insert, insertHelper_eq_numItems]
      refine allCounts_insert ops t k 1 ht (le_refl 1) (fun c hc => ?_)
      simpa [callFits, hc] using hfit
  | insert_numItems p n =>
    refine ⟨_, rfl, ?_⟩
    cases p with
    | none => simpa [insert_numItems, insertHelper_numItems_none] using ht
    | some k =>
      refine allCounts_insert ops t k n ht (by simpa [unitsPositive] using hpos)
        (fun c hc => ?_)
      simpa [callFits, hc] using hfit
  | remove k =>
    obtain ⟨res, h1, h2⟩ := allCounts_remove ops t k ht
    exact ⟨res.2, by simp [applyCall, remove, h1], h2⟩

theorem runCalls_allCounts (ops : Comparable α) (calls : List (Call α)) (t : TreeNode α)
    (ht : allCounts (fun c => decide (1 ≤ c)) t = true)
    (hpos : ∀ c ∈ calls, unitsPositive c = true) (hfit : callsFit ops t calls = true) :
    ∃ t', runCalls ops t calls = some t' ∧ allCounts (fun c => decide (1 ≤ c)) t' = true := by
  induction calls generalizing t with
  | nil => exact ⟨t, rfl, ht⟩
  | cons c cs ih =>
    simp only [callsFit, Bool.and_eq_true] at hfit
    obtain ⟨hf1, hf2⟩ := hfit
    obtain ⟨t1, h1, h2⟩ :=
      applyCall_allCounts ops t c ht (hpos c (List.mem_cons_self c cs)) hf1
    simp only [h1] at hf2
    obtain ⟨t2, h3, h4⟩ := ih t1 h2 (fun c' hc' => hpos c' (List.mem_cons_of_mem c hc')) hf2
    exact ⟨t2, by simp [runCalls, h1, h3], h4⟩

/-! ## Heights -/

theorem longestPath_ge (t : TreeNode α) : -1 ≤ longestPath t := by
  induction t with
  | nil => simp [longestPath]
  | node x c l r ihl ihr =>
    simp only [longestPath, max_def]
    split_ifs <;> omega

theorem longestPath_node_nonneg (x : α) (c : Int) (l r : TreeNode α) :
    0 ≤ longestPath (node x c l r) := by
  have h1 := longestPath_ge l
  have h2 := longestPath_ge r
  simp only [longestPath, max_def]
  split_ifs <;> omega

/-- The method `nodeHeight` counts the edges of the longest downward path, and gives 0 for
`nullptr`. -/
theorem nodeHeight_eq (t : TreeNode α) : nodeHeight t = max 0 (longestPath t) := by
  induction t with
  | nil => simp [nodeHeight, longestPath]
  | node x c l r ihl ihr =>
    cases l with
    | nil =>
      cases r with
      | nil => simp [nodeHeight, longestPath]
      | node z e rl rr =>
        have hr2 := longestPath_node_nonneg z e rl rr
        simp only [nodeHeight] at ihr ⊢
        rw [ihr]
        simp only [longestPath, max_def] at hr2 ⊢
        split_ifs at hr2 ⊢ <;> omega
    | node y d ll lr =>
      have hl2 := longestPath_node_nonneg y d ll lr
      have hr := longestPath_ge r
      simp only [nodeHeight] at ihl ⊢
      rw [ihl, ihr]
      simp only [longestPath, max_def] at hl2 hr ⊢
      split_ifs at hl2 hr ⊢ <;> omega

/-! ## Insertion of a key that is found -/

/-- Inserting a key that `findNode` finds: the node found gets the new count, and no node
is added. -/
theorem insert_found (ops : Comparable α) (t : TreeNode α) (K : α) (n : Int)
    (y : α) (c : Int) (l r : TreeNode α) (hK : findNode ops t K = node y c l r) :
    (insertHelper_numItems ops t (some K) n).1 = false ∧
    findNode ops (insertHelper_numItems ops t (some K) n).2 K = node y (wrapInt (c + n)) l r ∧
    eraseCounts (insertHelper_numItems ops t (some K) n).2 = eraseCounts t := by
  induction t with
  | nil => simp [findNode] at hK
  | node x d tl tr ihl ihr =>
    simp only [findNode] at hK
    simp only [insertHelper_numItems]
    by_cases k1 : ops.lt K x = true
    · simp only [k1, if_true] at hK ⊢
      obtain ⟨h1, h2, h3⟩ := ihl hK
      exact ⟨h1, by simp only [findNode, k1, if_true, h2], by simp only [eraseCounts, h3]⟩
    · simp only [Bool.not_eq_true] at k1
      by_cases k2 : ops.eq K x = true
      · simp only [k1, k2, Bool.false_eq_true, if_true, if_false, node.injEq] at hK ⊢
        obtain ⟨rfl, rfl, rfl, rfl⟩ := hK
        exact ⟨trivial, by simp only [findNode, k1, k2, Bool.false_eq_true, if_true, if_false],
          by simp only [eraseCounts]⟩
      · simp only [Bool.not_eq_true] at k2
        simp only [k1, k2, Bool.false_eq_true, if_false] at hK ⊢
        obtain ⟨h1, h2, h3⟩ := ihr hK
        exact ⟨h1, by simp only [findNode, k1, k2, Bool.false_eq_true, if_false, h2],
          by simp only [eraseCounts, h3]⟩

/-! ## Structural equality and copies -/

theorem nodeAt_nil (p : List Bool) : nodeAt (nil : TreeNode α) p = none := by
  cases p <;> rfl

/-- The method `sameNodes` holds exactly when a node exists at the same positions of both
trees and the nodes at every position have equal items and equal counts. -/
theorem sameNodes_iff (ops : Comparable α) (A B : TreeNode α) :
    sameNodes ops A B = true ↔
      ((∀ p, (nodeAt A p).isSome = (nodeAt B p).isSome) ∧
        ∀ p x c y d, nodeAt A p = some (x, c) → nodeAt B p = some (y, d) →
          ops.eq x y = true ∧ c = d) := by
  induction A generalizing B with
  | nil =>
    cases B with
    | nil => simp [sameNodes, nodeAt_nil]
    | node y d l2 r2 =>
      simp only [sameNodes, Bool.false_eq_true, false_iff, not_and]
      intro h
      have := h []
      simp [nodeAt] at this
  | node x c l r ihl ihr =>
    cases B with
    | nil =>
      simp only [sameNodes, Bool.false_eq_true, false_iff, not_and]
      intro h
      have := h []
      simp [nodeAt] at this
    | node y d l2 r2 =>
      simp only [sameNodes, Bool.and_eq_true, decide_eq_true_eq, ihl, ihr]
      constructor
      · rintro ⟨⟨⟨hxy, hcd⟩, hl1, hl2⟩, hr1, hr2⟩
        constructor
        · intro p
          match p with
          | [] => rfl
          | false :: q => exact hl1 q
          | true :: q => exact hr1 q
        · intro p a b a2 b2 h1 h2
          match p with
          | [] =>
            simp only [nodeAt, Option.some.injEq, Prod.mk.injEq] at h1 h2
            rw [← h1.1, ← h1.2, ← h2.1, ← h2.2]
            exact ⟨hxy, hcd⟩
          | false :: q => exact hl2 q a b a2 b2 h1 h2
          | true :: q => exact hr2 q a b a2 b2 h1 h2
      · rintro ⟨h1, h2⟩
        refine ⟨⟨h2 [] x c y d rfl rfl, ?_, ?_⟩, ?_, ?_⟩
        · exact fun q => h1 (false :: q)
        · exact fun q => h2 (false :: q)
        · exact fun q => h1 (true :: q)
        · exact fun q => h2 (true :: q)

theorem copyTree_eq (t : TreeNode α) : copyTree t = t := by
  induction t with
  | nil => rfl
  | node x c l r ihl ihr => simp only [copyTree, ihl, ihr]

theorem makeEmptyHelper_eq (t : TreeNode α) : makeEmptyHelper t = some nil := by
  induction t with
  | nil => rfl
  | node x c l r ihl ihr => simp only [makeEmptyHelper, ihl, ihr, deleteNode]

theorem sameNodes_refl (ops : Comparable α) (hrefl : ∀ a, ops.eq a a = true) (t : TreeNode α) :
    sameNodes ops t t = true := by
  induction t with
  | nil => rfl
  | node x c l r ihl ihr => simp [sameNodes, hrefl, ihl, ihr]

theorem printWithoutCountsHelper_eq (t : TreeNode α) : printWithoutCountsHelper t = items t := by
  induction t with
  | nil => rfl
  | node x c l r ihl ihr => simp only [printWithoutCountsHelper, items_node, ihl, ihr]

/-- Inserting a key that `operator==` equates with no stored item creates a node, whatever
`operator<` says. -/
theorem insert_of_no_equal (ops : Comparable α) (t : TreeNode α) (K : α) (n : Int)
    (h : ∀ x ∈ items t, ops.eq K x = false) :
    (insertHelper_numItems ops t (some K) n).1 = true ∧
    ∃ pre post, printHelper t = pre ++ post ∧
      printHelper (insertHelper_numItems ops t (some K) n).2 = pre ++ (K, n) :: post := by
  induction t with
  | nil => exact ⟨rfl, [], [], rfl, rfl⟩
  | node x c l r ihl ihr =>
    have hx : ops.eq K x = false := h x (by simp [items_node])
    have hl : ∀ y ∈ items l, ops.eq K y = false :=
      fun y hy => h y (by simp [items_node, hy])
    have hr : ∀ y ∈ items r, ops.eq K y = false :=
      fun y hy => h y (by simp [items_node, hy])
    simp only [insertHelper_numItems, hx, Bool.false_eq_true, if_false]
    by_cases k1 : ops.lt K x = true
    · simp only [k1, if_true]
      obtain ⟨h1, pre, post, h3, h4⟩ := ihl hl
      refine ⟨h1, pre, post ++ (x, c) :: printHelper r, ?_, ?_⟩
      · simp [printHelper, h3]
      · simp [printHelper, h4]
    · simp only [k1, if_false]
      obtain ⟨h1, pre, post, h3, h4⟩ := ihr hr
      refine ⟨h1, printHelper l ++ (x, c) :: pre, post, ?_, ?_⟩
      · simp [printHelper, h3]
      · simp [printHelper, h4]

/-! ## Inserting and removing lists of keys -/

theorem pairwise_lines {ops : Comparable α} (ho : StrictTotalOrder ops) (t : TreeNode α)
    (hb : isBST ops t = true) :
    (printHelper t).Pairwise (fun p q => ops.lt p.1 q.1 = true) := by
  have h := (isBST_iff_pairwise ho t).1 hb
  rw [items, List.pairwise_map] at h
  exact h

/-- Two trees satisfying the invariant that print the same lines in some order print them
in the same order. -/
theorem lines_eq_of_perm {ops : Comparable α} (ho : StrictTotalOrder ops) (t1 t2 : TreeNode α)
    (h1 : isBST ops t1 = true) (h2 : isBST ops t2 = true)
    (hp : (printHelper t1).Perm (printHelper t2)) : printHelper t1 = printHelper t2 := by
  haveI : IsAntisymm (α × Int) (fun p q => ops.lt p.1 q.1 = true) :=
    ⟨fun p q hpq hqp => by
      rw [ho.lt_asymm hpq] at hqp
      exact absurd hqp (by decide)⟩
  exact List.eq_of_perm_of_sorted hp (pairwise_lines ho t1 h1) (pairwise_lines ho t2 h2)

theorem length_printHelper_of_shape (t1 t2 : TreeNode α) (h : shape t1 = shape t2) :
    (printHelper t1).length = (printHelper t2).length := by
  induction t1 generalizing t2 with
  | nil =>
    cases t2 with
    | nil => rfl
    | node y d l2 r2 => simp [shape] at h
  | node x c l r ihl ihr =>
    cases t2 with
    | nil => simp [shape] at h
    | node y d l2 r2 =>
      simp only [shape, node.injEq, true_and] at h
      simp [printHelper, ihl l2 h.1, ihr r2 h.2]

/-- A tree is determined by its shape and its lines. -/
theorem eq_of_shape_of_lines (t1 t2 : TreeNode α) (h : shape t1 = shape t2)
    (hl : printHelper t1 = printHelper t2) : t1 = t2 := by
  induction t1 generalizing t2 with
  | nil =>
    cases t2 with
    | nil => rfl
    | node y d l2 r2 => simp [shape] at h
  | node x c l r ihl ihr =>
    cases t2 with
    | nil => simp [shape] at h
    | node y d l2 r2 =>
      simp only [shape, node.injEq, true_and] at h
      simp only [printHelper] at hl
      have hlen := length_printHelper_of_shape l l2 h.1
      obtain ⟨e1, e2⟩ := List.append_inj hl hlen
      simp only [List.cons.injEq, Prod.mk.injEq] at e2
      rw [ihl l2 h.1 e1, ihr r2 h.2 e2.2, e2.1.1, e2.1.2]

theorem shape_eq_of_sameNodes (ops : Comparable α) (A B : TreeNode α)
    (h : sameNodes ops A B = true) : shape A = shape B := by
  induction A generalizing B with
  | nil =>
    cases B with
    | nil => rfl
    | node y d l2 r2 => simp [sameNodes] at h
  | node x c l r ihl ihr =>
    cases B with
    | nil => simp [sameNodes] at h
    | node y d l2 r2 =>
      simp only [sameNodes, Bool.and_eq_true] at h
      simp only [shape, ihl l2 h.1.2, ihr r2 h.2]

/-- Inserting distinct keys that are not stored, once each: the invariant is kept and the
lines are the old ones and one line with count 1 for every key. -/
theorem insertAll_lines {ops : Comparable α} (ho : StrictTotalOrder ops) (ks : List α)
    (t : TreeNode α) (hb : isBST ops t = true) (hd : ks.Nodup)
    (hnew : ∀ k ∈ ks, k ∉ items t) :
    isBST ops (insertAll ops t ks) = true ∧
    (printHelper (insertAll ops t ks)).Perm (printHelper t ++ ks.map (fun k => (k, 1))) := by
  induction ks generalizing t with
  | nil => exact ⟨hb, by simp [insertAll]⟩
  | cons k ks ih =>
    have hk : findNode ops t k = nil := by
      rw [← contains_eq_false_iff]
      cases hc : contains ops t k with
      | false => rfl
      | true => exact absurd ((contains_iff_mem ho t hb k).1 hc) (hnew k (List.mem_cons_self k ks))
    obtain ⟨_, _, pre, post, h3, h4⟩ := insert_absent_result ho t k 1 hk
    have hb1 : isBST ops (insertHelper_numItems ops t (some k) 1).2 = true :=
      isBST_insert ho t k 1 hb
    rw [List.nodup_cons] at hd
    have hnew1 : ∀ k' ∈ ks, k' ∉ items (insertHelper_numItems ops t (some k) 1).2 := by
      intro k' hk' hmem
      simp only [items, h4, List.map_append, List.map_cons, List.mem_append,
        List.mem_cons] at hmem
      have hnot := hnew k' (List.mem_cons_of_mem k hk')
      simp only [items, h3, List.map_append, List.mem_append] at hnot
      rcases hmem with h | h | h
      · exact hnot (Or.inl h)
      · rw [h] at hk'
        exact hd.1 hk'
      · exact hnot (Or.inr h)
    obtain ⟨h5, h6⟩ := ih (insertHelper_numItems ops t (some k) 1).2 hb1 hd.2 hnew1
    simp only [insertAll, insert, insertHelper_eq_numItems]
    refine ⟨h5, h6.trans ?_⟩
    rw [h4, h3]
    simp only [List.map_cons, List.append_assoc, List.cons_append]
    refine List.Perm.append_left pre ?_
    exact List.perm_middle.symm

theorem printHelper_eq_nil (t : TreeNode α) (h : printHelper t = []) : t = nil := by
  cases t with
  | nil => rfl
  | node x c l r => simp [printHelper] at h

/-- Removing, in any order, keys that are each stored with count 1 and are all the keys of
the tree: every call returns true and the tree ends empty. -/
theorem removeAll_lines {ops : Comparable α} (ho : StrictTotalOrder ops) (ks : List α)
    (t : TreeNode α) (hb : isBST ops t = true)
    (hp : (printHelper t).Perm (ks.map (fun k => (k, 1)))) :
    removeAll ops t ks = some (List.replicate ks.length true, nil) := by
  induction ks generalizing t with
  | nil =>
    have : printHelper t = [] := by simpa using hp
    rw [printHelper_eq_nil t this]
    rfl
  | cons k ks ih =>
    have hm : (k, (1 : Int)) ∈ printHelper t := by
      rw [hp.mem_iff]
      simp
    have hc := (itemCountOf_iff_mem ho t hb k 1).2 hm
    obtain ⟨y, l, r, hf⟩ := findNode_of_itemCountOf hc
    obtain ⟨t', pre, post, h1, h2, h3⟩ := remove_last_result ho t k y 1 l r hf (by decide)
    obtain ⟨res, h4, h5⟩ := isBST_remove ho t k hb
    rw [h1, Option.some.injEq] at h4
    subst h4
    have hp' : (printHelper t').Perm (ks.map (fun k => (k, 1))) := by
      rw [h3]
      rw [h2] at hp
      simp only [List.map_cons] at hp
      exact (List.perm_middle.symm.trans hp).cons_inv
    have := ih t' h5 hp'
    simp only [removeAll, remove, h1, this, List.length_cons, List.replicate_succ]

/-! ## The orders of the other key types -/

/-- An `operator<` that compares a key in a linear order, the key determining the object,
with an `operator==` that is equality, is a strict total order. -/
theorem strictTotalOrder_of_key {β : Type} [LinearOrder β] (ops : Comparable α) (key : α → β)
    (hinj : ∀ a b, key a = key b → a = b)
    (hlt : ∀ a b, ops.lt a b = true ↔ key a < key b)
    (heq : ∀ a b, ops.eq a b = true ↔ a = b) : StrictTotalOrder ops where
  irrefl a := by
    rw [Bool.eq_false_iff, Ne, hlt]
    exact lt_irrefl _
  trans a b c h1 h2 := by
    rw [hlt] at *
    exact lt_trans h1 h2
  connected a b h1 h2 := by
    rw [Bool.eq_false_iff, Ne, hlt] at h1 h2
    rcases lt_trichotomy (key a) (key b) with h | h | h
    · exact absurd h h1
    · exact hinj a b h
    · exact absurd h h2
  eq_iff a b := by
    rw [heq, Bool.eq_false_iff, Ne, hlt, Bool.eq_false_iff, Ne, hlt]
    constructor
    · rintro rfl
      exact ⟨lt_irrefl _, lt_irrefl _⟩
    · rintro ⟨h1, h2⟩
      rcases lt_trichotomy (key a) (key b) with h | h | h
      · exact absurd h h1
      · exact hinj a b h
      · exact absurd h h2

theorem comicOps_lt_iff (a b : Comic) : comicOps.lt a b = true ↔ Comic.key a < Comic.key b := by
  obtain ⟨ap, at_, ay, ag⟩ := a
  obtain ⟨bp, bt, by_, bg⟩ := b
  simp only [comicOps, Comic.lt, Comic.key, strLt, Prod.Lex.lt_iff, decide_eq_true_eq,
    ← String.toList_inj]
  split_ifs <;> simp_all

theorem comicOps_strictTotalOrder : StrictTotalOrder comicOps := by
  refine strictTotalOrder_of_key comicOps Comic.key ?_ comicOps_lt_iff ?_
  · rintro ⟨ap, at_, ay, ag⟩ ⟨bp, bt, by_, bg⟩ h
    simp only [Comic.key, EmbeddingLike.apply_eq_iff_eq, Prod.mk.injEq,
      String.toList_inj] at h
    obtain ⟨rfl, rfl, rfl, rfl⟩ := h
    rfl
  · rintro ⟨ap, at_, ay, ag⟩ ⟨bp, bt, by_, bg⟩
    simp only [comicOps, Comic.eq, Bool.and_eq_true, decide_eq_true_eq, Comic.mk.injEq]
    constructor
    · rintro ⟨⟨⟨rfl, rfl⟩, rfl⟩, rfl⟩
      exact ⟨rfl, rfl, rfl, rfl⟩
    · rintro ⟨rfl, rfl, rfl, rfl⟩
      exact ⟨⟨⟨rfl, rfl⟩, rfl⟩, rfl⟩

theorem sportsCardOps_lt_iff (a b : SportsCard) :
    sportsCardOps.lt a b = true ↔ SportsCard.key a < SportsCard.key b := by
  obtain ⟨ap, ay, am, ag⟩ := a
  obtain ⟨bp, by_, bm, bg⟩ := b
  simp only [sportsCardOps, SportsCard.lt, SportsCard.key, strLt, Prod.Lex.lt_iff,
    decide_eq_true_eq, ← String.toList_inj]
  split_ifs <;> simp_all

theorem sportsCardOps_strictTotalOrder : StrictTotalOrder sportsCardOps := by
  refine strictTotalOrder_of_key sportsCardOps SportsCard.key ?_ sportsCardOps_lt_iff ?_
  · rintro ⟨ap, ay, am, ag⟩ ⟨bp, by_, bm, bg⟩ h
    simp only [SportsCard.key, EmbeddingLike.apply_eq_iff_eq, Prod.mk.injEq,
      String.toList_inj] at h
    obtain ⟨rfl, rfl, rfl, rfl⟩ := h
    rfl
  · rintro ⟨ap, ay, am, ag⟩ ⟨bp, by_, bm, bg⟩
    simp only [sportsCardOps, SportsCard.eq, Bool.and_eq_true, decide_eq_true_eq,
      SportsCard.mk.injEq]
    constructor
    · rintro ⟨⟨⟨rfl, rfl⟩, rfl⟩, rfl⟩
      exact ⟨rfl, rfl, rfl, rfl⟩
    · rintro ⟨rfl, rfl, rfl, rfl⟩
      exact ⟨⟨⟨rfl, rfl⟩, rfl⟩, rfl⟩

theorem kind_strictTotalOrder (kind : Kind) : StrictTotalOrder kind.ops := by
  cases kind
  · exact coinOps_strictTotalOrder
  · exact comicOps_strictTotalOrder
  · exact sportsCardOps_strictTotalOrder

/-! ## The store -/

theorem factory_slots : ∀ n, n < 29 →
    (CollectibleFactory.factoryVector.get? n).join.isSome = true →
    hasInventoryTree (n : Int) = true := by
  decide

theorem createObject_tree (c : Char) (kind : Kind)
    (h : CollectibleFactory.createObject c = some kind) :
    ¬ (hashItem c < 0) ∧ hasInventoryTree (hashItem c) = true := by
  unfold CollectibleFactory.createObject at h
  by_cases hneg : CollectibleFactory.hash c < 0
  · simp [hneg] at h
  · simp only [hneg, if_false] at h
    unfold CollectibleFactory.hash at h hneg
    unfold hashItem
    by_cases hr : (c.toNat < 65 || c.toNat > 90) = true
    · simp [hr] at hneg
    · simp only [hr, Bool.false_eq_true, if_false] at h ⊢
      simp only [Int.toNat_ofNat] at h
      have hlt : (c.toNat - 65) % FACTORY_SIZE < 29 := Nat.mod_lt _ (by decide)
      refine ⟨by omega, ?_⟩
      apply factory_slots _ hlt
      rw [h]
      rfl

theorem treeOf_setTree (store : StoreInventory) (kind : Kind) (t : TreeNode kind.Item) :
    (store.setTree kind t).treeOf kind = t := by
  cases kind <;> rfl

theorem treeOf_setTree_ne (store : StoreInventory) (kind kind' : Kind) (t : TreeNode kind.Item)
    (h : kind' ≠ kind) : (store.setTree kind t).treeOf kind' = store.treeOf kind' := by
  cases kind <;> cases kind' <;> first | rfl | exact absurd rfl h

theorem setTree_customers (store : StoreInventory) (kind : Kind) (t : TreeNode kind.Item) :
    (store.setTree kind t).customers = store.customers ∧
    (store.setTree kind t).customerDict = store.customerDict ∧
    (store.setTree kind t).customerTree = store.customerTree := by
  cases kind <;> exact ⟨rfl, rfl, rfl⟩

theorem setTree_treeOf (store : StoreInventory) (kind : Kind) :
    store.setTree kind (store.treeOf kind) = store := by
  cases kind <;> rfl

/-- Removing a key that is stored, in a tree satisfying the invariant: the call returns
true; a count above 1 is lowered by one, a node with a count of 1 or less is removed; the
other keys keep their counts. -/
theorem remove_present_full {ops : Comparable α} (ho : StrictTotalOrder ops)
    (t : TreeNode α) (hb : isBST ops t = true) (K : α) (c : Int)
    (hc : itemCountOf ops t K = some c) :
    ∃ t', removeHelper ops t K = some (true, t') ∧ isBST ops t' = true ∧
      (1 < c → itemCountOf ops t' K = some (c - 1)) ∧
      (c ≤ 1 → contains ops t' K = false) ∧
      (∀ k, ops.eq K k = false → itemCountOf ops t' k = itemCountOf ops t k) := by
  obtain ⟨y, l, r, hf⟩ := findNode_of_itemCountOf hc
  obtain ⟨res, h4, h5⟩ := isBST_remove ho t K hb
  by_cases hgt : c > 1
  · obtain ⟨t', h1, _, h3⟩ := remove_decrement_result ho t hb K y c l r hf hgt
    rw [h1, Option.some.injEq] at h4
    subst h4
    refine ⟨t', h1, h5, fun _ => ?_, fun hle => absurd hgt (by omega), fun k hk => ?_⟩
    · rw [itemCountOf_iff_mem ho t' h5, h3]
      have hm := (itemCountOf_iff_mem ho t hb K c).1 hc
      simp only [replaceCount, List.mem_map]
      exact ⟨(K, c), hm, by simp [ho.eq_self]⟩
    · apply itemCountOf_congr ho t t' hb h5
      intro c'
      rw [h3]
      exact mem_replaceCount_of_ne ops K (c - 1) _ k c' hk
  · obtain ⟨t', pre, post, h1, h2, h3⟩ := remove_last_result ho t K y c l r hf hgt
    rw [h1, Option.some.injEq] at h4
    subst h4
    refine ⟨t', h1, h5, fun h => absurd h hgt, fun _ => ?_, fun k hk => ?_⟩
    · have hp := (isBST_iff_pairwise ho t).1 hb
      simp only [items, h2, List.map_append, List.map_cons, List.pairwise_append,
        List.pairwise_cons, List.mem_cons] at hp
      obtain ⟨_, ⟨hpost, _⟩, hpre⟩ := hp
      cases hcon : contains ops t' K with
      | false => rfl
      | true =>
        have hm := (contains_iff_mem ho t' h5 K).1 hcon
        simp only [items, h3, List.map_append, List.mem_append] at hm
        rcases hm with hm | hm
        · have := hpre K hm K (Or.inl rfl)
          rw [ho.irrefl] at this
          exact absurd this (by decide)
        · have := hpost K hm
          rw [ho.irrefl] at this
          exact absurd this (by decide)
    · apply itemCountOf_congr ho t t' hb h5
      intro c'
      have hne : K ≠ k := by
        rintro rfl
        rw [ho.eq_self] at hk
        exact absurd hk (by decide)
      rw [h2, h3]
      simp only [List.mem_append, List.mem_cons, Prod.mk.injEq]
      constructor
      · rintro (h | h)
        · exact Or.inl h
        · exact Or.inr (Or.inr h)
      · rintro (h | ⟨h, _⟩ | h)
        · exact Or.inl h
        · exact absurd h.symm hne
        · exact Or.inr h

theorem findNode_of_insert_absent {ops : Comparable α} (ho : StrictTotalOrder ops)
    (t : TreeNode α) (K : α) (hK : findNode ops t K = nil) :
    (insert ops t (some K)).1 = true ∧ contains ops (insert ops t (some K)).2 K = true ∧
    itemCountOf ops (insert ops t (some K)).2 K = some 1 := by
  obtain ⟨h1, h2, _⟩ := insert_absent_result ho t K 1 hK
  simp only [insert, insertHelper_eq_numItems]
  refine ⟨h1, ?_, by simp only [itemCountOf, h2]⟩
  rw [contains_eq_true_iff]
  exact ⟨_, _, _, _, h2⟩

theorem findNode_of_insert_found (ops : Comparable α) (t : TreeNode α) (K : α)
    (y : α) (c : Int) (l r : TreeNode α) (hK : findNode ops t K = node y c l r) :
    (insert ops t (some K)).1 = false ∧ contains ops (insert ops t (some K)).2 K = true ∧
    itemCountOf ops (insert ops t (some K)).2 K = some (wrapInt (c + 1)) := by
  obtain ⟨h1, h2, _⟩ := insert_found ops t K 1 y c l r hK
  simp only [insert, insertHelper_eq_numItems]
  refine ⟨h1, ?_, by simp only [itemCountOf, h2]⟩
  rw [contains_eq_true_iff]
  exact ⟨_, _, _, _, h2⟩

/-! ## Sequences of calls -/

theorem applyCall_isBST {ops : Comparable α} (ho : StrictTotalOrder ops) (t : TreeNode α)
    (c : Call α) (hb : isBST ops t = true) :
    ∃ t', applyCall ops t c = some t' ∧ isBST ops t' = true := by
  cases c with
  | insert p =>
    refine ⟨_, rfl, ?_⟩
    cases p with
    | none => simpa [insert, insertHelper_eq_numItems, insertHelper_numItems_none] using hb
    | some k =>
      simp only [insert, insertHelper_eq_numItems]
      exact isBST_insert ho t k 1 hb
  | insert_numItems p n =>
    refine ⟨_, rfl, ?_⟩
    cases p with
    | none => simpa [insert_numItems, insertHelper_numItems_none] using hb
    | some k => exact isBST_insert ho t k n hb
  | remove k =>
    obtain ⟨res, h1, h2⟩ := isBST_remove ho t k hb
    exact ⟨res.2, by simp [applyCall, remove, h1], h2⟩

theorem runCalls_isBST {ops : Comparable α} (ho : StrictTotalOrder ops) (calls : List (Call α))
    (t : TreeNode α) (hb : isBST ops t = true) :
    ∃ t', runCalls ops t calls = some t' ∧ isBST ops t' = true := by
  induction calls generalizing t with
  | nil => exact ⟨t, rfl, hb⟩
  | cons c cs ih =>
    obtain ⟨t1, h1, h2⟩ := applyCall_isBST ho t c hb
    obtain ⟨t2, h3, h4⟩ := ih t1 h2
    exact ⟨t2, by simp [runCalls, h1, h3], h4⟩

/-! ## The claims -/

/-- C1: over a key type whose `operator<` is a strict total order and whose `operator==`
holds exactly when neither key is less than the other, every finite sequence of
`insert (key)`, `insert (key, units)` and `remove (key)` calls on an empty tree runs to its
end and leaves a tree that satisfies the BST invariant (left subtree less, right subtree
greater, at every node), whose in-order traversal is strictly ascending, and in which no
two nodes hold equal keys. -/
theorem bst_invariant_after_calls {ops : Comparable α} (ho : StrictTotalOrder ops)
    (calls : List (Call α)) :
    ∃ t, runCalls ops nil calls = some t ∧ isBST ops t = true ∧
      (items t).Pairwise (fun a b => ops.lt a b = true) ∧
      (items t).Pairwise (fun a b => ops.eq a b = false ∧ a ≠ b) := by
  obtain ⟨t, h1, h2⟩ := runCalls_isBST ho calls nil rfl
  have h3 := (isBST_iff_pairwise ho t).1 h2
  refine ⟨t, h1, h2, h3, h3.imp ?_⟩
  intro a b hab
  have he := ho.eq_false_of_lt hab
  refine ⟨he, ?_⟩
  rintro rfl
  rw [ho.eq_self a] at he
  exact absurd he (by decide)

/-- C1 at `Coin` keys: two cents and a dime are inserted, the dime in bulk, and one cent is
removed. -/
theorem bst_invariant_after_calls_witness :
    StrictTotalOrder coinOps ∧
    ∃ t, runCalls coinOps nil
        [Call.insert (some ⟨"Lincoln Cent", 2001, 65⟩),
         Call.insert_numItems (some ⟨"Liberty Dime", 1913, 70⟩) 3,
         Call.insert (some ⟨"Lincoln Cent", 1999, 65⟩),
         Call.remove ⟨"Lincoln Cent", 2001, 65⟩] = some t ∧ isBST coinOps t = true ∧
      (items t).Pairwise (fun a b => coinOps.lt a b = true) ∧
      (items t).Pairwise (fun a b => coinOps.eq a b = false ∧ a ≠ b) :=
  ⟨coinOps_strictTotalOrder, bst_invariant_after_calls coinOps_strictTotalOrder _⟩

/-- C2: in a tree satisfying the BST invariant, `insert (K, U)` of a key `K` that is not
contained returns true, whatever the units `U` (so for every `U >= 1`); afterwards `K` is
contained with count exactly `U`, the traversal is the old one with the line of `K` added,
and every key that was contained is still contained, with the same stored item and the same
count. -/
theorem insert_absent_key {ops : Comparable α} (ho : StrictTotalOrder ops) (t : TreeNode α)
    (hb : isBST ops t = true) (K : α) (U : Int)
    (hK : contains ops t K = false) :
    (insert_numItems ops t (some K) U).1 = true ∧
    contains ops (insert_numItems ops t (some K) U).2 K = true ∧
    itemCountOf ops (insert_numItems ops t (some K) U).2 K = some U ∧
    isBST ops (insert_numItems ops t (some K) U).2 = true ∧
    (∃ pre post, printHelper t = pre ++ post ∧
      printHelper (insert_numItems ops t (some K) U).2 = pre ++ (K, U) :: post) ∧
    ∀ k, contains ops t k = true →
      contains ops (insert_numItems ops t (some K) U).2 k = true ∧
      retrieve ops (insert_numItems ops t (some K) U).2 k = retrieve ops t k ∧
      itemCountOf ops (insert_numItems ops t (some K) U).2 k = itemCountOf ops t k := by
  rw [contains_eq_false_iff] at hK
  obtain ⟨h1, h2, h3⟩ := insert_absent_result ho t K U hK
  refine ⟨h1, ?_, ?_, isBST_insert ho t K U hb, h3, ?_⟩
  · rw [contains_eq_true_iff]
    exact ⟨_, _, _, _, h2⟩
  · simp only [itemCountOf, insert_numItems, h2]
  · intro k hk
    rw [contains_eq_true_iff] at hk
    obtain ⟨y, d, l, r, hy⟩ := hk
    obtain ⟨d', l', r', h4, h5⟩ := findNode_insert_frame ops t K U k y d l r hy
    have hyk : y = k := findNode_item ho t k y d l r hy
    have hne : ops.eq K y = false := by
      cases he : ops.eq K y with
      | false => rfl
      | true =>
        have := (ho.eq_true_iff K y).1 he
        rw [this, hyk, hy] at hK
        exact absurd hK (by simp)
    have hd := h5 hne
    subst hd
    refine ⟨?_, ?_, ?_⟩
    · rw [contains_eq_true_iff]
      exact ⟨_, _, _, _, h4⟩
    · simp only [retrieve, insert_numItems, h4, hy]
    · simp only [itemCountOf, insert_numItems, h4, hy]

/-- C2 at `Coin` keys: a 1913 dime is inserted with three units into a tree that holds one
cent. -/
theorem insert_absent_key_witness :
    (isBST coinOps (node ⟨"Lincoln Cent", 2001, 65⟩ 1 nil nil) = true ∧
      contains coinOps (node ⟨"Lincoln Cent", 2001, 65⟩ 1 nil nil)
        ⟨"Liberty Dime", 1913, 70⟩ = false) ∧
    (insert_numItems coinOps (node ⟨"Lincoln Cent", 2001, 65⟩ 1 nil nil)
        (some ⟨"Liberty Dime", 1913, 70⟩) 3).1 = true ∧
    contains coinOps (insert_numItems coinOps (node ⟨"Lincoln Cent", 2001, 65⟩ 1 nil nil)
        (some ⟨"Liberty Dime", 1913, 70⟩) 3).2 ⟨"Liberty Dime", 1913, 70⟩ = true ∧
    itemCountOf coinOps (insert_numItems coinOps (node ⟨"Lincoln Cent", 2001, 65⟩ 1 nil nil)
        (some ⟨"Liberty Dime", 1913, 70⟩) 3).2 ⟨"Liberty Dime", 1913, 70⟩ = some 3 :=
  have h := insert_absent_key coinOps_strictTotalOrder (node ⟨"Lincoln Cent", 2001, 65⟩ 1 nil nil)
    (by decide) ⟨"Liberty Dime", 1913, 70⟩ 3 (by decide)
  ⟨⟨by decide, by decide⟩, h.1, h.2.1, h.2.2.1⟩

/-- C4: in a tree satisfying the BST invariant, `remove (K)` of a key that is not contained
returns false, and the resulting tree is the tree before the call, so `operator==`
(`sameNodes`) holds between the two. -/
theorem remove_absent_key {ops : Comparable α} (ho : StrictTotalOrder ops) (t : TreeNode α)
    (hb : isBST ops t = true) (K : α) (hK : contains ops t K = false) :
    ∃ t', remove ops t K = some (false, t') ∧ sameNodes ops t' t = true ∧ t' = t ∧
      isBST ops t' = true := by
  rw [contains_eq_false_iff] at hK
  exact ⟨t, removeHelper_absent ho t K hK, sameNodes_self ho t, rfl, hb⟩

/-- C4 at `Coin` keys: a dime is removed from a tree that holds only a cent. -/
theorem remove_absent_key_witness :
    (isBST coinOps (node (⟨"Lincoln Cent", 2001, 65⟩ : Coin) 1 nil nil) = true ∧
      contains coinOps (node ⟨"Lincoln Cent", 2001, 65⟩ 1 nil nil)
        ⟨"Liberty Dime", 1913, 70⟩ = false) ∧
    ∃ t', remove coinOps (node ⟨"Lincoln Cent", 2001, 65⟩ 1 nil nil)
        ⟨"Liberty Dime", 1913, 70⟩ = some (false, t') ∧
      sameNodes coinOps t' (node ⟨"Lincoln Cent", 2001, 65⟩ 1 nil nil) = true ∧
      t' = node ⟨"Lincoln Cent", 2001, 65⟩ 1 nil nil ∧ isBST coinOps t' = true :=
  ⟨⟨by decide, by decide⟩,
    remove_absent_key coinOps_strictTotalOrder (node ⟨"Lincoln Cent", 2001, 65⟩ 1 nil nil)
      (by decide) ⟨"Liberty Dime", 1913, 70⟩ (by decide)⟩

/-- C6: in a tree satisfying the BST invariant that contains `K` with count exactly 1,
whatever the number of children of its node, `remove (K)` returns true, `K` is not
contained afterwards, the in-order sequence of (key, count) lines is the old one with the
line of `K` deleted, every other key keeps its count, and the invariant still holds. -/
theorem remove_last_occurrence {ops : Comparable α} (ho : StrictTotalOrder ops)
    (t : TreeNode α) (hb : isBST ops t = true) (K : α)
    (hc : itemCountOf ops t K = some 1) :
    ∃ t', remove ops t K = some (true, t') ∧ contains ops t' K = false ∧
      (∃ pre post, printHelper t = pre ++ (K, 1) :: post ∧ printHelper t' = pre ++ post) ∧
      isBST ops t' = true ∧
      ∀ k, ops.eq K k = false → itemCountOf ops t' k = itemCountOf ops t k := by
  obtain ⟨y, l, r, hf⟩ := findNode_of_itemCountOf hc
  obtain ⟨t', pre, post, h1, h2, h3⟩ := remove_last_result ho t K y 1 l r hf (by decide)
  obtain ⟨res, h4, h5⟩ := isBST_remove ho t K hb
  rw [h1, Option.some.injEq] at h4
  subst h4
  refine ⟨t', h1, ?_, ⟨pre, post, h2, h3⟩, h5, ?_⟩
  · have hp := (isBST_iff_pairwise ho t).1 hb
    simp only [items, h2, List.map_append, List.map_cons, List.pairwise_append,
      List.pairwise_cons, List.mem_cons] at hp
    obtain ⟨_, ⟨hpost, _⟩, hpre⟩ := hp
    cases hcon : contains ops t' K with
    | false => rfl
    | true =>
      have hm := (contains_iff_mem ho t' h5 K).1 hcon
      simp only [items, h3, List.map_append, List.mem_append] at hm
      rcases hm with hm | hm
      · have := hpre K hm K (Or.inl rfl)
        rw [ho.irrefl] at this
        exact absurd this (by decide)
      · have := hpost K hm
        rw [ho.irrefl] at this
        exact absurd this (by decide)
  · intro k hk
    apply itemCountOf_congr ho t t' hb h5
    intro c'
    have hne : K ≠ k := by
      rintro rfl
      rw [ho.eq_self] at hk
      exact absurd hk (by decide)
    rw [h2, h3]
    simp only [List.mem_append, List.mem_cons, Prod.mk.injEq]
    constructor
    · rintro (h | h)
      · exact Or.inl h
      · exact Or.inr (Or.inr h)
    · rintro (h | ⟨h, _⟩ | h)
      · exact Or.inl h
      · exact absurd h.symm hne
      · exact Or.inr h

/-- C6 at `Coin` keys: the only dime is removed from the root, which has two children; the
1999 cent, leftmost in the right subtree, takes its place. -/
theorem remove_last_occurrence_witness :
    (isBST coinOps (node (⟨"Liberty Dime", 1913, 70⟩ : Coin) 1
        (node ⟨"Buffalo Nickel", 1920, 60⟩ 2 nil nil)
        (node ⟨"Lincoln Cent", 2001, 65⟩ 1 (node ⟨"Lincoln Cent", 1999, 65⟩ 4 nil nil) nil))
        = true ∧
      itemCountOf coinOps (node ⟨"Liberty Dime", 1913, 70⟩ 1
        (node ⟨"Buffalo Nickel", 1920, 60⟩ 2 nil nil)
        (node ⟨"Lincoln Cent", 2001, 65⟩ 1 (node ⟨"Lincoln Cent", 1999, 65⟩ 4 nil nil) nil))
        ⟨"Liberty Dime", 1913, 70⟩ = some 1) ∧
    ∃ t', remove coinOps (node ⟨"Liberty Dime", 1913, 70⟩ 1
        (node ⟨"Buffalo Nickel", 1920, 60⟩ 2 nil nil)
        (node ⟨"Lincoln Cent", 2001, 65⟩ 1 (node ⟨"Lincoln Cent", 1999, 65⟩ 4 nil nil) nil))
        ⟨"Liberty Dime", 1913, 70⟩ = some (true, t') ∧
      contains coinOps t' ⟨"Liberty Dime", 1913, 70⟩ = false ∧ isBST coinOps t' = true :=
  have h := remove_last_occurrence coinOps_strictTotalOrder
    (node ⟨"Liberty Dime", 1913, 70⟩ 1 (node ⟨"Buffalo Nickel", 1920, 60⟩ 2 nil nil)
      (node ⟨"Lincoln Cent", 2001, 65⟩ 1 (node ⟨"Lincoln Cent", 1999, 65⟩ 4 nil nil) nil))
    (by decide) ⟨"Liberty Dime", 1913, 70⟩ (by decide)
  ⟨⟨by decide, by decide⟩, h.elim fun t' ht => ⟨t', ht.1, ht.2.1, ht.2.2.2.1⟩⟩

/-- The operators of a strict total order agree. -/
theorem StrictTotalOrder.consistent {ops : Comparable α} (ho : StrictTotalOrder ops) :
    ConsistentOps ops where
  lt_asymm _ _ h := ho.lt_asymm h
  eq_lt a b c h := by rw [(ho.eq_true_iff a b).1 h]

/-- The operators of `Customer` agree. -/
theorem customerOps_consistent : ConsistentOps customerOps where
  lt_asymm _ _ h := strLt_asymm h
  eq_lt a b c h := by
    simp only [customerOps, Customer.eq, Bool.and_eq_true, decide_eq_true_eq] at h
    simp only [customerOps, Customer.lt, h.1]

theorem ConsistentOps.irrefl {ops : Comparable α} (hc : ConsistentOps ops) (a : α) :
    ops.lt a a = false := by
  cases h : ops.lt a a with
  | false => rfl
  | true =>
    have h2 := hc.lt_asymm a a h
    rw [h] at h2
    exact absurd h2 (by decide)

/-- The node at which `findNode` stops holds a key that `operator==` equates with the key
searched for, and it is a node of the tree. -/
theorem findNode_found (ops : Comparable α) (t : TreeNode α) (k y : α) (d : Int)
    (l r : TreeNode α) (h : findNode ops t k = node y d l r) :
    ops.eq k y = true ∧ (y, d) ∈ printHelper t := by
  induction t with
  | nil => simp [findNode] at h
  | node x c tl tr ihl ihr =>
    simp only [findNode] at h
    simp only [printHelper, List.mem_append, List.mem_cons]
    split_ifs at h with h1 h2
    · exact ⟨(ihl h).1, Or.inl (ihl h).2⟩
    · simp only [node.injEq] at h
      obtain ⟨rfl, rfl, -, -⟩ := h
      exact ⟨h2, Or.inr (Or.inl rfl)⟩
    · exact ⟨(ihr h).1, Or.inr (Or.inr (ihr h).2)⟩

/-- In a tree satisfying the invariant the search for a key stops at a node when a node
holds a key that `operator==` equates with it. -/
theorem findNode_of_mem_eq {ops : Comparable α} (hc : ConsistentOps ops) (t : TreeNode α)
    (hb : isBST ops t = true) (k x : α) (hx : x ∈ items t) (he : ops.eq k x = true) :
    ∃ c l r, findNode ops t k = node x c l r := by
  induction t with
  | nil => simp [items_nil] at hx
  | node y c tl tr ihl ihr =>
    have hnode : isBST ops (node y c tl tr)
        = (allItems (fun a => ops.lt a y) tl && allItems (fun a => ops.lt y a) tr
          && isBST ops tl && isBST ops tr) := rfl
    rw [hnode] at hb
    simp only [Bool.and_eq_true] at hb
    obtain ⟨⟨⟨hl, hr⟩, bl⟩, br⟩ := hb
    rw [items_node] at hx
    simp only [List.mem_append, List.mem_cons] at hx
    have hky : ops.lt k y = ops.lt x y := hc.eq_lt k x y he
    rcases hx with hx | rfl | hx
    · have h1 : ops.lt x y = true := (allItems_iff _ tl).1 hl x hx
      simp only [findNode, hky, h1, if_true]
      exact ihl bl hx
    · have h1 : ops.lt x x = false := hc.irrefl x
      exact ⟨c, tl, tr, by simp only [findNode, hky, h1, he, Bool.false_eq_true, if_true,
        if_false]⟩
    · have h1 : ops.lt y x = true := (allItems_iff _ tr).1 hr x hx
      have h2 : ops.lt x y = false := hc.lt_asymm y x h1
      have h3 : ops.eq k y = false := by
        cases h : ops.eq k y with
        | false => rfl
        | true =>
          have e1 : ops.lt k x = ops.lt y x := hc.eq_lt k y x h
          have e2 : ops.lt k x = ops.lt x x := hc.eq_lt k x x he
          have e3 : ops.lt x x = true := by rw [← e2, e1, h1]
          rw [hc.irrefl x] at e3
          exact absurd e3 (by decide)
      simp only [findNode, hky, h2, h3, Bool.false_eq_true, if_false]
      exact ihr br hx

/-- C7: for a key type whose operators agree, as those of `Coin`, `Comic`, `SportsCard` and
`Customer` do, in a tree satisfying the BST invariant `contains (k)` is true exactly when
some node holds a key that `operator==` equates with `k`; `retrieve (k)` then returns the
key stored in that node, which is the node where the search stops and need not be `k`
itself, and it returns null exactly when `contains (k)` is false.  Both methods are `const`
and assign to no node: they return a value and no tree, the tree after the call is the
tree before.  A customer searched for by ID and name is returned with the transactions of
the stored customer. -/
theorem contains_retrieve_spec {ops : Comparable α} (hc : ConsistentOps ops)
    (t : TreeNode α) (hb : isBST ops t = true) (k : α) :
    (contains ops t k = true ↔ ∃ x ∈ items t, ops.eq k x = true) ∧
    (∀ x, retrieve ops t k = some x ↔ (x ∈ items t ∧ ops.eq k x = true)) ∧
    (retrieve ops t k = none ↔ contains ops t k = false) ∧
    (contains ops t k = true → ∃ x c l r, findNode ops t k = node x c l r ∧
      retrieve ops t k = some x ∧ ops.eq k x = true ∧ (x, c) ∈ printHelper t) ∧
    (StrictTotalOrder ops → contains ops t k = true →
      ∃ c l r, findNode ops t k = node k c l r ∧ (k, c) ∈ printHelper t) ∧
    (ConsistentOps coinOps ∧ ConsistentOps comicOps ∧ ConsistentOps sportsCardOps ∧
      ConsistentOps customerOps) ∧
    retrieve customerOps twoCustomers ⟨"001", "Alice Smith", []⟩
      = some ⟨"001", "Alice Smith",
          [⟨Char.ofNat 83, Collectible.coin ⟨"Lincoln Cent", 2001, 65⟩⟩]⟩ := by
  have hret : ∀ x, retrieve ops t k = some x ↔ (x ∈ items t ∧ ops.eq k x = true) := by
    intro x
    constructor
    · intro h
      unfold retrieve at h
      cases hf : findNode ops t k with
      | nil => simp [hf] at h
      | node y d l r =>
        simp only [hf, Option.some.injEq] at h
        subst h
        have := findNode_found ops t k y d l r hf
        exact ⟨mem_items_of_mem this.2, this.1⟩
    · rintro ⟨hx, he⟩
      obtain ⟨c, l, r, hf⟩ := findNode_of_mem_eq hc t hb k x hx he
      simp only [retrieve, hf]
  have hcon : contains ops t k = true ↔ ∃ x, retrieve ops t k = some x := by
    unfold contains
    exact Option.isSome_iff_exists
  refine ⟨?_, hret, ?_, ?_, ?_,
    ⟨coinOps_strictTotalOrder.consistent, comicOps_strictTotalOrder.consistent,
      sportsCardOps_strictTotalOrder.consistent, customerOps_consistent⟩, by decide⟩
  · rw [hcon]
    constructor
    · rintro ⟨x, hx⟩
      exact ⟨x, (hret x).1 hx⟩
    · rintro ⟨x, hx, he⟩
      exact ⟨x, (hret x).2 ⟨hx, he⟩⟩
  · unfold contains
    cases retrieve ops t k <;> simp
  · intro h
    rw [contains_eq_true_iff] at h
    obtain ⟨y, d, l, r, hf⟩ := h
    have := findNode_found ops t k y d l r hf
    exact ⟨y, d, l, r, hf, by simp only [retrieve, hf], this.1, this.2⟩
  · intro ho h
    rw [contains_eq_true_iff] at h
    obtain ⟨y, d, l, r, hf⟩ := h
    have hy := findNode_item ho t k y d l r hf
    subst hy
    exact ⟨d, l, r, hf, (findNode_found ops t y y d l r hf).2⟩

/-- C7 at `Customer` keys: Alice Smith is searched for by ID and name, and the customer
stored in the tree, with her transaction, is returned. -/
theorem contains_retrieve_spec_witness :
    (ConsistentOps customerOps ∧ isBST customerOps twoCustomers = true) ∧
    (retrieve customerOps twoCustomers ⟨"001", "Alice Smith", []⟩
        = some ⟨"001", "Alice Smith",
            [⟨Char.ofNat 83, Collectible.coin ⟨"Lincoln Cent", 2001, 65⟩⟩]⟩ ↔
      ((⟨"001", "Alice Smith",
          [⟨Char.ofNat 83, Collectible.coin ⟨"Lincoln Cent", 2001, 65⟩⟩]⟩ : Customer)
          ∈ items twoCustomers ∧
        customerOps.eq ⟨"001", "Alice Smith", []⟩
          ⟨"001", "Alice Smith",
            [⟨Char.ofNat 83, Collectible.coin ⟨"Lincoln Cent", 2001, 65⟩⟩]⟩ = true)) :=
  ⟨⟨customerOps_consistent, by decide⟩,
    (contains_retrieve_spec customerOps_consistent twoCustomers (by decide)
      ⟨"001", "Alice Smith", []⟩).2.1 _⟩

/-- C8 as stated fails when a count leaves the 32-bit range: a cent inserted with
2147483647 units and then once more is stored with count -2147483648. -/
theorem counts_at_least_one_overflow :
    unitsPositive (Call.insert_numItems (some (⟨"Lincoln Cent", 2001, 65⟩ : Coin)) 2147483647)
      = true ∧
    runCalls coinOps nil
      [Call.insert_numItems (some ⟨"Lincoln Cent", 2001, 65⟩) 2147483647,
       Call.insert (some ⟨"Lincoln Cent", 2001, 65⟩)]
      = some (node ⟨"Lincoln Cent", 2001, 65⟩ (-2147483648) nil nil) ∧
    allCounts (fun c => decide (1 ≤ c))
      (node (⟨"Lincoln Cent", 2001, 65⟩ : Coin) (-2147483648) nil nil) = false := by
  decide

/-- C8, amended: starting from an empty tree, after every sequence of `insert (key)`,
`insert (key, units)` with `units >= 1`, and `remove (key)` calls in which no insert raises
a stored count above `INT_MAX`, the sequence runs to its end and every node's count is at
least 1: the node of a key whose last occurrence is removed is deleted, not left with
count 0. -/
theorem counts_at_least_one (ops : Comparable α) (calls : List (Call α))
    (hpos : ∀ c ∈ calls, unitsPositive c = true) (hfit : callsFit ops nil calls = true) :
    ∃ t, runCalls ops nil calls = some t ∧ allCounts (fun c => decide (1 ≤ c)) t = true :=
  runCalls_allCounts ops calls nil rfl hpos hfit

/-- C8, amended, at `Coin` keys: two units of a cent are inserted, one more, and two are
removed. -/
theorem counts_at_least_one_witness :
    callsFit coinOps nil
      [Call.insert_numItems (some ⟨"Lincoln Cent", 2001, 65⟩) 2,
       Call.insert (some ⟨"Lincoln Cent", 2001, 65⟩),
       Call.remove ⟨"Lincoln Cent", 2001, 65⟩,
       Call.remove ⟨"Lincoln Cent", 2001, 65⟩] = true ∧
    ∃ t, runCalls coinOps nil
      [Call.insert_numItems (some ⟨"Lincoln Cent", 2001, 65⟩) 2,
       Call.insert (some ⟨"Lincoln Cent", 2001, 65⟩),
       Call.remove ⟨"Lincoln Cent", 2001, 65⟩,
       Call.remove ⟨"Lincoln Cent", 2001, 65⟩] = some t ∧
      allCounts (fun c => decide (1 ≤ c)) t = true :=
  ⟨by decide, counts_at_least_one coinOps _ (by decide) (by decide)⟩

/-- C9 as stated fails: `insert (key, 0)` on the empty tree returns true and creates a node
with count 0, and `insert (key, -1)` on a stored key lowers its count. -/
theorem insert_nonpositive_units_accepted :
    ¬ ((insert_numItems coinOps nil (some ⟨"Lincoln Cent", 2001, 65⟩) 0).1 = false ∧
        (insert_numItems coinOps nil (some ⟨"Lincoln Cent", 2001, 65⟩) 0).2 = nil) ∧
    insert_numItems coinOps nil (some ⟨"Lincoln Cent", 2001, 65⟩) 0
      = (true, node ⟨"Lincoln Cent", 2001, 65⟩ 0 nil nil) ∧
    insert_numItems coinOps (node ⟨"Lincoln Cent", 2001, 65⟩ 2 nil nil)
        (some ⟨"Lincoln Cent", 2001, 65⟩) (-1)
      = (false, node ⟨"Lincoln Cent", 2001, 65⟩ 1 nil nil) := by
  decide

/-- C9, amended: `insert (key, units)` with `units <= 0` is carried out like every other
insert.  For a key that is not contained it returns true and creates a node whose count is
`units`, a count below 1; for a key contained with count `c` it returns false and the
count becomes `c + units` (as long as that is no smaller than `INT_MIN`), no node being
created.  Only a null key pointer is an invalid argument: the call returns false and
leaves the tree unchanged. -/
theorem insert_nonpositive_units {ops : Comparable α} (ho : StrictTotalOrder ops)
    (t : TreeNode α) (K : α) (U : Int) (hU : U ≤ 0) :
    (contains ops t K = false →
      (insert_numItems ops t (some K) U).1 = true ∧
      itemCountOf ops (insert_numItems ops t (some K) U).2 K = some U ∧
      allCounts (fun c => decide (1 ≤ c)) (insert_numItems ops t (some K) U).2 = false) ∧
    (∀ c, itemCountOf ops t K = some c → c ≤ INT_MAX → INT_MIN ≤ c + U →
      (insert_numItems ops t (some K) U).1 = false ∧
      itemCountOf ops (insert_numItems ops t (some K) U).2 K = some (c + U) ∧
      eraseCounts (insert_numItems ops t (some K) U).2 = eraseCounts t) ∧
    insert_numItems ops t none U = (false, t) := by
  refine ⟨?_, ?_, insertHelper_numItems_none ops t U⟩
  · intro hK
    rw [contains_eq_false_iff] at hK
    obtain ⟨h1, h2, pre, post, _, h4⟩ := insert_absent_result ho t K U hK
    refine ⟨h1, by simp only [itemCountOf, insert_numItems, h2], ?_⟩
    cases hall : allCounts (fun c => decide (1 ≤ c)) (insert_numItems ops t (some K) U).2 with
    | false => rfl
    | true =>
      rw [allCounts_iff] at hall
      have := hall (K, U) (by simp only [insert_numItems, h4]; simp)
      simp only [decide_eq_true_eq] at this
      omega
  · intro c hc hmax hmin
    obtain ⟨y, l, r, hf⟩ := findNode_of_itemCountOf hc
    obtain ⟨h1, h2, h3⟩ := insert_found ops t K U y c l r hf
    have hw : wrapInt (c + U) = c + U := wrapInt_of_fits _ hmin (by omega)
    rw [hw] at h2
    exact ⟨h1, by simp only [itemCountOf, insert_numItems, h2], h3⟩

/-- C9, amended, at `Coin` keys: a cent is inserted with zero units into the empty tree. -/
theorem insert_nonpositive_units_witness :
    ((0 : Int) ≤ 0 ∧ contains coinOps nil (⟨"Lincoln Cent", 2001, 65⟩ : Coin) = false) ∧
    (insert_numItems coinOps nil (some ⟨"Lincoln Cent", 2001, 65⟩) 0).1 = true ∧
    itemCountOf coinOps (insert_numItems coinOps nil (some ⟨"Lincoln Cent", 2001, 65⟩) 0).2
      ⟨"Lincoln Cent", 2001, 65⟩ = some 0 ∧
    allCounts (fun c => decide (1 ≤ c))
      (insert_numItems coinOps nil (some ⟨"Lincoln Cent", 2001, 65⟩) 0).2 = false :=
  ⟨⟨le_refl 0, by decide⟩,
    (insert_nonpositive_units coinOps_strictTotalOrder nil ⟨"Lincoln Cent", 2001, 65⟩ 0
      (le_refl 0)).1 (by decide)⟩

/-- C10: `height (k)` is -1 when `k` is not contained; otherwise it is the number of edges
on the longest downward path from the node of `k` to a leaf below it, 0 when that node is a
leaf and 1 + the larger height of its child subtrees otherwise, and it is the same as the
height asked of the subtree whose root is that node, whatever the depth of the node.  In
the tree built by inserting 5, 3, 8, 1, 4 the heights of 5, 3, 1 and 8 are 2, 1, 0 and 0. -/
theorem height_spec {ops : Comparable α} (ho : StrictTotalOrder ops) (t : TreeNode α) (k : α) :
    (contains ops t k = false → height ops t k = -1) ∧
    (contains ops t k = true → ∃ c l r, findNode ops t k = node k c l r ∧
      height ops t k = longestPath (node k c l r) ∧
      (l = nil → r = nil → height ops t k = 0) ∧
      (¬ (l = nil ∧ r = nil) → height ops t k = 1 + max (longestPath l) (longestPath r)) ∧
      height ops (node k c l r) k = height ops t k) ∧
    (height intOps (insertAll intOps nil [5, 3, 8, 1, 4]) 5 = 2 ∧
      height intOps (insertAll intOps nil [5, 3, 8, 1, 4]) 3 = 1 ∧
      height intOps (insertAll intOps nil [5, 3, 8, 1, 4]) 1 = 0 ∧
      height intOps (insertAll intOps nil [5, 3, 8, 1, 4]) 8 = 0) := by
  refine ⟨?_, ?_, by decide⟩
  · intro hc
    rw [contains_eq_false_iff] at hc
    simp only [height, hc]
  · intro hc
    rw [contains_eq_true_iff] at hc
    obtain ⟨y, d, l, r, hf⟩ := hc
    have hy := findNode_item ho t k y d l r hf
    subst hy
    have hh : height ops t y = longestPath (node y d l r) := by
      simp only [height, hf]
      rw [nodeHeight_eq, max_eq_right (longestPath_node_nonneg y d l r)]
    refine ⟨d, l, r, hf, hh, ?_, ?_, ?_⟩
    · rintro rfl rfl
      rw [hh]
      simp [longestPath]
    · intro _
      rw [hh, longestPath]
    · simp only [height, findNode, ho.irrefl, ho.eq_self, hf, Bool.false_eq_true, if_true,
        if_false]

/-- C10 at `Coin` keys: the height of the dime at the root of a three-node tree. -/
theorem height_spec_witness :
    (StrictTotalOrder coinOps ∧
      contains coinOps (node (⟨"Liberty Dime", 1913, 70⟩ : Coin) 3 nil
        (node ⟨"Lincoln Cent", 2001, 65⟩ 1 (node ⟨"Lincoln Cent", 1999, 65⟩ 4 nil nil) nil))
        ⟨"Liberty Dime", 1913, 70⟩ = true) ∧
    ∃ c l r, findNode coinOps (node (⟨"Liberty Dime", 1913, 70⟩ : Coin) 3 nil
        (node ⟨"Lincoln Cent", 2001, 65⟩ 1 (node ⟨"Lincoln Cent", 1999, 65⟩ 4 nil nil) nil))
        ⟨"Liberty Dime", 1913, 70⟩ = node ⟨"Liberty Dime", 1913, 70⟩ c l r ∧
      height coinOps (node (⟨"Liberty Dime", 1913, 70⟩ : Coin) 3 nil
        (node ⟨"Lincoln Cent", 2001, 65⟩ 1 (node ⟨"Lincoln Cent", 1999, 65⟩ 4 nil nil) nil))
        ⟨"Liberty Dime", 1913, 70⟩ = longestPath (node ⟨"Liberty Dime", 1913, 70⟩ c l r) :=
  have h := (height_spec coinOps_strictTotalOrder
      (node ⟨"Liberty Dime", 1913, 70⟩ 3 nil
        (node ⟨"Lincoln Cent", 2001, 65⟩ 1 (node ⟨"Lincoln Cent", 1999, 65⟩ 4 nil nil) nil))
      ⟨"Liberty Dime", 1913, 70⟩).2.1 (by decide)
  ⟨⟨coinOps_strictTotalOrder, by decide⟩,
    h.elim fun c hc => hc.elim fun l hl => hl.elim fun r hr => ⟨c, l, r, hr.1, hr.2.1⟩⟩

/-- C11: for every two trees `A` and `B`, `A == B` is true exactly when a node exists at a
position of `A` iff one exists at that position of `B`, and at every position the two
nodes hold keys equal under `operator==` and equal counts; `A != B` is the negation. -/
theorem operatorEq_iff (ops : Comparable α) (A B : TreeNode α) :
    (operatorEq ops A B = true ↔
      ((∀ p, (nodeAt A p).isSome = (nodeAt B p).isSome) ∧
        ∀ p x c y d, nodeAt A p = some (x, c) → nodeAt B p = some (y, d) →
          ops.eq x y = true ∧ c = d)) ∧
    operatorNe ops A B = !operatorEq ops A B :=
  ⟨sameNodes_iff ops A B, rfl⟩

/-- C13: for a key type whose `operator==` is reflexive and every tree `T`, the tree made by
the copy constructor, and the tree left by assigning `T` to any other tree, has the shape
of `T` and at every position the item and the count of `T`, so that `copy == T` is true
and both have the same in-order (key, count) lines; assigning a tree to itself leaves it
as it is. -/
theorem copy_equals_original (ops : Comparable α) (hrefl : ∀ a, ops.eq a a = true)
    (T self : TreeNode α) :
    shape (copyConstructor T) = shape T ∧
    (∀ p, nodeAt (copyConstructor T) p = nodeAt T p) ∧
    operatorEq ops (copyConstructor T) T = true ∧
    printHelper (copyConstructor T) = printHelper T ∧
    operatorAssign self T false = some (copyConstructor T) ∧
    operatorAssign T T true = some T := by
  have h : copyConstructor T = T := copyTree_eq T
  refine ⟨by rw [h], fun p => by rw [h], ?_, by rw [h], ?_, rfl⟩
  · rw [h]
    exact sameNodes_refl ops hrefl T
  · simp only [operatorAssign, makeEmpty, makeEmptyHelper_eq, copyConstructor]
    rfl

/-- C13 at `Coin` keys: a tree of two coins is copied and assigned to a tree of one coin. -/
theorem copy_equals_original_witness :
    (∀ a, coinOps.eq a a = true) ∧
    operatorEq coinOps
      (copyConstructor (node (⟨"Liberty Dime", 1913, 70⟩ : Coin) 3 nil
        (node ⟨"Lincoln Cent", 2001, 65⟩ 1 nil nil)))
      (node ⟨"Liberty Dime", 1913, 70⟩ 3 nil (node ⟨"Lincoln Cent", 2001, 65⟩ 1 nil nil))
      = true ∧
    operatorAssign (node (⟨"Buffalo Nickel", 1920, 60⟩ : Coin) 2 nil nil)
      (node ⟨"Liberty Dime", 1913, 70⟩ 3 nil (node ⟨"Lincoln Cent", 2001, 65⟩ 1 nil nil)) false
      = some (copyConstructor (node ⟨"Liberty Dime", 1913, 70⟩ 3 nil
          (node ⟨"Lincoln Cent", 2001, 65⟩ 1 nil nil))) :=
  have h := copy_equals_original coinOps coinOps_strictTotalOrder.eq_self
    (node ⟨"Liberty Dime", 1913, 70⟩ 3 nil (node ⟨"Lincoln Cent", 2001, 65⟩ 1 nil nil))
    (node ⟨"Buffalo Nickel", 1920, 60⟩ 2 nil nil)
  ⟨coinOps_strictTotalOrder.eq_self, h.2.2.1, h.2.2.2.2.1⟩

/-- C16 as stated fails: a cent stored with count 3 is written once by
`printWithoutCounts`, not three times. -/
theorem printWithoutCounts_not_repeated :
    printWithoutCounts (node (⟨"Lincoln Cent", 2001, 65⟩ : Coin) 3 nil nil)
      = [⟨"Lincoln Cent", 2001, 65⟩] ∧
    repeatedByCount (node (⟨"Lincoln Cent", 2001, 65⟩ : Coin) 3 nil nil)
      = [⟨"Lincoln Cent", 2001, 65⟩, ⟨"Lincoln Cent", 2001, 65⟩, ⟨"Lincoln Cent", 2001, 65⟩] ∧
    printWithoutCounts (node (⟨"Lincoln Cent", 2001, 65⟩ : Coin) 3 nil nil)
      ≠ repeatedByCount (node (⟨"Lincoln Cent", 2001, 65⟩ : Coin) 3 nil nil) := by
  decide

/-- C16, amended: `printWithoutCounts` emits the key of every node exactly once, whatever
its count, in in-order; in a tree satisfying the BST invariant that is ascending order
without repetition. -/
theorem printWithoutCounts_spec {ops : Comparable α} (ho : StrictTotalOrder ops)
    (t : TreeNode α) (hb : isBST ops t = true) :
    printWithoutCounts t = (printHelper t).map Prod.fst ∧
    (printWithoutCounts t).length = (printHelper t).length ∧
    (printWithoutCounts t).Pairwise (fun a b => ops.lt a b = true) ∧
    (printWithoutCounts t).Nodup := by
  have h : printWithoutCounts t = items t := printWithoutCountsHelper_eq t
  have hp := (isBST_iff_pairwise ho t).1 hb
  refine ⟨h, by rw [h, items, List.length_map], by rw [h]; exact hp, ?_⟩
  rw [h]
  refine hp.imp ?_
  rintro a b hab rfl
  rw [ho.irrefl] at hab
  exact absurd hab (by decide)

/-- C16, amended, at `Coin` keys: three dimes and one cent are written as one dime and one
cent. -/
theorem printWithoutCounts_spec_witness :
    isBST coinOps (node (⟨"Liberty Dime", 1913, 70⟩ : Coin) 3 nil
      (node ⟨"Lincoln Cent", 2001, 65⟩ 1 nil nil)) = true ∧
    printWithoutCounts (node (⟨"Liberty Dime", 1913, 70⟩ : Coin) 3 nil
      (node ⟨"Lincoln Cent", 2001, 65⟩ 1 nil nil))
      = (printHelper (node (⟨"Liberty Dime", 1913, 70⟩ : Coin) 3 nil
          (node ⟨"Lincoln Cent", 2001, 65⟩ 1 nil nil))).map Prod.fst :=
  ⟨by decide,
    (printWithoutCounts_spec coinOps_strictTotalOrder
      (node ⟨"Liberty Dime", 1913, 70⟩ 3 nil (node ⟨"Lincoln Cent", 2001, 65⟩ 1 nil nil))
      (by decide)).1⟩

/-- C17 as stated fails: a second customer named like a stored one, with another ID, gets
a node of her own, and `insert` returns true. -/
theorem customer_same_name_new_node :
    insert customerOps (node ⟨"001", "Alice Smith", []⟩ 1 nil nil)
        (some ⟨"002", "Alice Smith", []⟩)
      = (true, node ⟨"001", "Alice Smith", []⟩ 1 nil
          (node ⟨"002", "Alice Smith", []⟩ 1 nil nil)) ∧
    ¬ ((insert customerOps (node ⟨"001", "Alice Smith", []⟩ 1 nil nil)
        (some ⟨"002", "Alice Smith", []⟩)).1 = false) := by
  decide

/-- C17, amended: the customer tree orders customers by name and identifies them by name
and ID together.  Inserting a customer for whom no stored customer has both the same
name and the same ID, such as one who shares only the name of a stored customer, creates
a node with count 1 and returns true, every other line of the tree staying as it was; and
`insert` returns false only when a stored customer has the same name and the same ID. -/
theorem customer_insert_identity (t : TreeNode Customer) (c : Customer)
    (h : ∀ x ∈ items t, x.name = c.name → x.idNumber ≠ c.idNumber) :
    (insert customerOps t (some c)).1 = true ∧
    (∃ pre post, printHelper t = pre ++ post ∧
      printHelper (insert customerOps t (some c)).2 = pre ++ (c, 1) :: post) ∧
    ∀ t' c', (insert customerOps t' (some c')).1 = false →
      ∃ x ∈ items t', x.name = c'.name ∧ x.idNumber = c'.idNumber := by
  have key : ∀ (u : TreeNode Customer) (d : Customer),
      (∀ x ∈ items u, x.name = d.name → x.idNumber ≠ d.idNumber) →
      ∀ x ∈ items u, customerOps.eq d x = false := by
    intro u d hu x hx
    cases he : customerOps.eq d x with
    | false => rfl
    | true =>
      simp only [customerOps, Customer.eq, Bool.and_eq_true, decide_eq_true_eq] at he
      exact absurd he.2 (hu x hx he.1)
  refine ⟨?_, ?_, ?_⟩
  · rw [insert, insertHelper_eq_numItems]
    exact (insert_of_no_equal customerOps t c 1 (key t c h)).1
  · rw [insert, insertHelper_eq_numItems]
    exact (insert_of_no_equal customerOps t c 1 (key t c h)).2
  · intro t' c' hf
    by_contra hne
    have hn : ∀ x ∈ items t', x.name = c'.name → x.idNumber ≠ c'.idNumber := by
      intro x hx hname hid
      exact hne ⟨x, hx, hname, hid⟩
    rw [insert, insertHelper_eq_numItems,
      (insert_of_no_equal customerOps t' c' 1 (key t' c' hn)).1] at hf
    exact absurd hf (by decide)

/-- C17, amended, at the two customers named Alice Smith. -/
theorem customer_insert_identity_witness :
    (∀ x ∈ items (node (⟨"001", "Alice Smith", []⟩ : Customer) 1 nil nil),
      x.name = "Alice Smith" → x.idNumber ≠ "002") ∧
    (insert customerOps (node ⟨"001", "Alice Smith", []⟩ 1 nil nil)
      (some ⟨"002", "Alice Smith", []⟩)).1 = true :=
  have hyp : ∀ x ∈ items (node (⟨"001", "Alice Smith", []⟩ : Customer) 1 nil nil),
      x.name = (⟨"002", "Alice Smith", []⟩ : Customer).name →
      x.idNumber ≠ (⟨"002", "Alice Smith", []⟩ : Customer).idNumber := by
    intro x hx _
    simp only [items, printHelper, List.nil_append, List.map_cons, List.map_nil,
      List.mem_singleton] at hx
    rw [hx]
    decide
  ⟨hyp, (customer_insert_identity (node ⟨"001", "Alice Smith", []⟩ 1 nil nil)
    ⟨"002", "Alice Smith", []⟩ hyp).1⟩

/-- C12: two trees built by inserting the same distinct keys in two orders have the same
in-order (key, count) lines; they compare equal when the two orders give the same shape
and unequal when the shapes differ.  Inserting 2, 1, 3 and inserting 2, 3, 1 gives equal
trees; inserting 1, 2 and inserting 2, 1 gives unequal trees with the same lines. -/
theorem insertion_order_equality {ops : Comparable α} (ho : StrictTotalOrder ops)
    (ks1 ks2 : List α) (hd : ks1.Nodup) (hp : ks1.Perm ks2) :
    printHelper (insertAll ops nil ks1) = printHelper (insertAll ops nil ks2) ∧
    (shape (insertAll ops nil ks1) = shape (insertAll ops nil ks2) →
      operatorEq ops (insertAll ops nil ks1) (insertAll ops nil ks2) = true) ∧
    (shape (insertAll ops nil ks1) ≠ shape (insertAll ops nil ks2) →
      operatorEq ops (insertAll ops nil ks1) (insertAll ops nil ks2) = false ∧
      operatorNe ops (insertAll ops nil ks1) (insertAll ops nil ks2) = true) ∧
    (operatorEq intOps (insertAll intOps nil [2, 1, 3]) (insertAll intOps nil [2, 3, 1]) = true ∧
      operatorEq intOps (insertAll intOps nil [1, 2]) (insertAll intOps nil [2, 1]) = false ∧
      printHelper (insertAll intOps nil [1, 2]) = printHelper (insertAll intOps nil [2, 1])) := by
  obtain ⟨b1, p1⟩ := insertAll_lines ho ks1 nil rfl hd (fun _ _ h => by simp [items_nil] at h)
  obtain ⟨b2, p2⟩ := insertAll_lines ho ks2 nil rfl (hp.nodup_iff.1 hd)
    (fun _ _ h => by simp [items_nil] at h)
  have hlines : printHelper (insertAll ops nil ks1) = printHelper (insertAll ops nil ks2) := by
    apply lines_eq_of_perm ho _ _ b1 b2
    refine p1.trans (List.Perm.trans ?_ p2.symm)
    simp only [printHelper, List.nil_append]
    exact hp.map _
  refine ⟨hlines, ?_, ?_, by decide⟩
  · intro hs
    rw [eq_of_shape_of_lines _ _ hs hlines]
    exact sameNodes_self ho _
  · intro hs
    have hne : operatorEq ops (insertAll ops nil ks1) (insertAll ops nil ks2) = false := by
      cases he : operatorEq ops (insertAll ops nil ks1) (insertAll ops nil ks2) with
      | false => rfl
      | true => exact absurd (shape_eq_of_sameNodes ops _ _ he) hs
    refine ⟨hne, ?_⟩
    simp only [operatorEq] at hne
    simp only [operatorNe, hne, Bool.not_false]

/-- C12 at `Coin` keys: a dime, a nickel and a cent inserted root first in two orders. -/
theorem insertion_order_equality_witness :
    (([⟨"Liberty Dime", 1913, 70⟩, ⟨"Buffalo Nickel", 1920, 60⟩,
        ⟨"Lincoln Cent", 2001, 65⟩] : List Coin).Nodup ∧
      ([⟨"Liberty Dime", 1913, 70⟩, ⟨"Buffalo Nickel", 1920, 60⟩,
        ⟨"Lincoln Cent", 2001, 65⟩] : List Coin).Perm
        [⟨"Liberty Dime", 1913, 70⟩, ⟨"Lincoln Cent", 2001, 65⟩,
          ⟨"Buffalo Nickel", 1920, 60⟩]) ∧
    printHelper (insertAll coinOps nil [⟨"Liberty Dime", 1913, 70⟩,
        ⟨"Buffalo Nickel", 1920, 60⟩, ⟨"Lincoln Cent", 2001, 65⟩])
      = printHelper (insertAll coinOps nil [⟨"Liberty Dime", 1913, 70⟩,
        ⟨"Lincoln Cent", 2001, 65⟩, ⟨"Buffalo Nickel", 1920, 60⟩]) :=
  ⟨⟨by decide, by decide⟩,
    (insertion_order_equality coinOps_strictTotalOrder
      [⟨"Liberty Dime", 1913, 70⟩, ⟨"Buffalo Nickel", 1920, 60⟩, ⟨"Lincoln Cent", 2001, 65⟩]
      [⟨"Liberty Dime", 1913, 70⟩, ⟨"Lincoln Cent", 2001, 65⟩, ⟨"Buffalo Nickel", 1920, 60⟩]
      (by decide) (by decide)).1⟩

/-- C15: for every list of distinct keys inserted once each into an empty tree and every
order in which those keys are then removed, every `remove` returns true and the tree is
empty at the end. -/
theorem insert_then_remove_all {ops : Comparable α} (ho : StrictTotalOrder ops)
    (ks ks' : List α) (hd : ks.Nodup) (hp : ks.Perm ks') :
    ∃ bs t, removeAll ops (insertAll ops nil ks) ks' = some (bs, t) ∧
      bs.length = ks.length ∧ (∀ b ∈ bs, b = true) ∧ t = nil ∧ isEmpty t = true := by
  obtain ⟨b1, p1⟩ := insertAll_lines ho ks nil rfl hd (fun _ _ h => by simp [items_nil] at h)
  have hperm : (printHelper (insertAll ops nil ks)).Perm (ks'.map (fun k => (k, 1))) := by
    refine p1.trans ?_
    simp only [printHelper, List.nil_append]
    exact hp.map _
  refine ⟨_, _, removeAll_lines ho ks' _ b1 hperm, ?_, ?_, rfl, rfl⟩
  · rw [List.length_replicate, hp.length_eq]
  · intro b hb
    exact (List.mem_replicate.1 hb).2

/-- C15 at `Coin` keys: three coins are inserted and removed in another order. -/
theorem insert_then_remove_all_witness :
    (([⟨"Liberty Dime", 1913, 70⟩, ⟨"Buffalo Nickel", 1920, 60⟩,
        ⟨"Lincoln Cent", 2001, 65⟩] : List Coin).Nodup ∧
      ([⟨"Liberty Dime", 1913, 70⟩, ⟨"Buffalo Nickel", 1920, 60⟩,
        ⟨"Lincoln Cent", 2001, 65⟩] : List Coin).Perm
        [⟨"Lincoln Cent", 2001, 65⟩, ⟨"Liberty Dime", 1913, 70⟩,
          ⟨"Buffalo Nickel", 1920, 60⟩]) ∧
    ∃ bs t, removeAll coinOps (insertAll coinOps nil [⟨"Liberty Dime", 1913, 70⟩,
        ⟨"Buffalo Nickel", 1920, 60⟩, ⟨"Lincoln Cent", 2001, 65⟩])
        [⟨"Lincoln Cent", 2001, 65⟩, ⟨"Liberty Dime", 1913, 70⟩,
          ⟨"Buffalo Nickel", 1920, 60⟩] = some (bs, t) ∧
      bs.length = 3 ∧ (∀ b ∈ bs, b = true) ∧ t = nil ∧ isEmpty t = true :=
  ⟨⟨by decide, by decide⟩,
    insert_then_remove_all coinOps_strictTotalOrder
      [⟨"Liberty Dime", 1913, 70⟩, ⟨"Buffalo Nickel", 1920, 60⟩, ⟨"Lincoln Cent", 2001, 65⟩]
      [⟨"Lincoln Cent", 2001, 65⟩, ⟨"Liberty Dime", 1913, 70⟩, ⟨"Buffalo Nickel", 1920, 60⟩]
      (by decide) (by decide)⟩

set_option maxRecDepth 100000 in
/-- C18: for a loaded customer, a known category symbol and valid item data,
`SellItem::execute` returns true exactly when the item is contained in the tree of that
category.  When it returns true, a count above 1 has dropped by one and a node whose
count was 1 (or less) is removed, every other item of that tree has the count it had,
the trees of the other categories, the ID table and the customer tree are unchanged, and
the customer's log is the old log followed by one `S` transaction with that item, the
other customers being unchanged.  With a count of 2 the first sell returns true and leaves
count 1, the second returns true and leaves the item not contained, the third returns
false. -/
theorem sellItem_spec (store : StoreInventory) (args : List String) (customer : Nat)
    (cust : Customer) (typeStr : String) (kind : Kind) (item : kind.Item)
    (hcust : findCustomer store args = Except.ok (some customer))
    (hget : store.customers.get? customer = some cust)
    (htype : vecAt args 1 = Except.ok typeStr)
    (hkind : CollectibleFactory.createObject (firstChar typeStr) = some kind)
    (hdata : kind.setData (args.drop 2) = Except.ok (some item))
    (hb : isBST kind.ops (store.treeOf kind) = true) :
    (∃ store', SellItem.execute args store
        = Except.ok (contains kind.ops (store.treeOf kind) item, store') ∧
      (contains kind.ops (store.treeOf kind) item = true →
        (∀ c, itemCountOf kind.ops (store.treeOf kind) item = some c →
          (1 < c → itemCountOf kind.ops (store'.treeOf kind) item = some (c - 1)) ∧
          (c ≤ 1 → contains kind.ops (store'.treeOf kind) item = false)) ∧
        (∀ k, kind.ops.eq item k = false →
          itemCountOf kind.ops (store'.treeOf kind) k
            = itemCountOf kind.ops (store.treeOf kind) k) ∧
        (∀ kind', kind' ≠ kind → store'.treeOf kind' = store.treeOf kind') ∧
        store'.customers = store.customers.set customer
          { cust with transactions :=
              cust.transactions ++ [⟨Char.ofNat 83, kind.toCollectible item⟩] } ∧
        store'.customerDict = store.customerDict ∧
        store'.customerTree = store.customerTree)) ∧
    (∃ s1 s2 s3, SellItem.execute scenarioArgs scenarioStore = Except.ok (true, s1) ∧
      itemCountOf coinOps s1.coinTree ⟨"Lincoln Cent", 2001, 65⟩ = some 1 ∧
      SellItem.execute scenarioArgs s1 = Except.ok (true, s2) ∧
      contains coinOps s2.coinTree ⟨"Lincoln Cent", 2001, 65⟩ = false ∧
      SellItem.execute scenarioArgs s2 = Except.ok (false, s3)) := by
  obtain ⟨hneg, hslot⟩ := createObject_tree _ _ hkind
  have ho := kind_strictTotalOrder kind
  refine ⟨?_, ?_⟩
  · cases hcon : contains kind.ops (store.treeOf kind) item with
    | false =>
      have hrem := removeHelper_absent ho _ item ((contains_eq_false_iff _ _ _).1 hcon)
      refine ⟨store, ?_, fun h => absurd h (by decide)⟩
      simp [SellItem.execute, hcust, htype, hkind, hneg, hslot, hdata, remove, hrem,
        setTree_treeOf]
    | true =>
      rw [← itemCountOf_isSome, Option.isSome_iff_exists] at hcon
      obtain ⟨c, hc⟩ := hcon
      obtain ⟨t', h1, _, h3, h4, h5⟩ := remove_present_full ho _ hb item c hc
      refine ⟨{ store.setTree kind t' with
          customers := (store.setTree kind t').customers.set customer
            (cust.addTransaction (Char.ofNat 83) (some (kind.toCollectible item))).2 }, ?_, ?_⟩
      · have hget' : store.customers[customer]? = some cust := by simpa using hget
        simp [SellItem.execute, hcust, htype, hkind, hneg, hslot, hdata, remove, h1,
          StoreInventory.addTransaction, (setTree_customers store kind t').1, hget']
      · intro _
        have htree : ∀ kind'', ({ store.setTree kind t' with
            customers := (store.setTree kind t').customers.set customer
              (cust.addTransaction (Char.ofNat 83) (some (kind.toCollectible item))).2 } :
              StoreInventory).treeOf kind'' = (store.setTree kind t').treeOf kind'' := by
          intro kind''
          cases kind'' <;> rfl
        refine ⟨?_, ?_, ?_, ?_, (setTree_customers store kind t').2.1,
          (setTree_customers store kind t').2.2⟩
        · intro c' hc'
          rw [hc] at hc'
          simp only [Option.some.injEq] at hc'
          subst hc'
          rw [htree, treeOf_setTree]
          exact ⟨h3, h4⟩
        · intro k hk
          rw [htree, treeOf_setTree]
          exact h5 k hk
        · intro kind' hne
          rw [htree, treeOf_setTree_ne store kind kind' t' hne]
        · simp only [(setTree_customers store kind t').1]
          rfl
  · exact ⟨_, _, _, rfl, rfl, rfl, rfl, rfl⟩

set_option maxRecDepth 100000 in
/-- C18 at the scenario: customer 001 sells one of the two cents. -/
theorem sellItem_spec_witness :
    (findCustomer scenarioStore scenarioArgs = Except.ok (some 0) ∧
      scenarioStore.customers.get? 0 = some ⟨"001", "Alice Smith", []⟩ ∧
      vecAt scenarioArgs 1 = Except.ok "M" ∧
      CollectibleFactory.createObject (firstChar "M") = some Kind.coin ∧
      Kind.coin.setData (scenarioArgs.drop 2)
        = Except.ok (some (⟨"Lincoln Cent", 2001, 65⟩ : Coin)) ∧
      isBST Kind.coin.ops (scenarioStore.treeOf Kind.coin) = true) ∧
    ∃ store', SellItem.execute scenarioArgs scenarioStore
      = Except.ok (contains Kind.coin.ops (scenarioStore.treeOf Kind.coin)
          (⟨"Lincoln Cent", 2001, 65⟩ : Coin), store') :=
  have h := sellItem_spec scenarioStore scenarioArgs 0 ⟨"001", "Alice Smith", []⟩ "M"
    Kind.coin (⟨"Lincoln Cent", 2001, 65⟩ : Coin) rfl rfl rfl rfl rfl rfl
  ⟨⟨rfl, rfl, rfl, rfl, rfl, rfl⟩, h.1.elim fun s hs => ⟨s, hs.1⟩⟩

set_option maxRecDepth 100000 in
/-- C19 as stated fails when the count is the largest `int`: a cent in stock 2147483647
times is bought once more and its count is -2147483648. -/
theorem buyItem_overflow :
    ∃ s, BuyItem.execute scenarioArgs
        { scenarioStore with coinTree := node ⟨"Lincoln Cent", 2001, 65⟩ 2147483647 nil nil }
        = Except.ok (true, s) ∧
      itemCountOf coinOps s.coinTree ⟨"Lincoln Cent", 2001, 65⟩ = some (-2147483648) ∧
      itemCountOf coinOps s.coinTree ⟨"Lincoln Cent", 2001, 65⟩ ≠ some (2147483647 + 1) :=
  ⟨_, rfl, rfl, by decide⟩

set_option maxRecDepth 100000 in
/-- C19, amended: for a loaded customer, a known category symbol and valid item data,
`BuyItem::execute` returns true, the error branch not being taken.  Afterwards the item is
contained in the tree of its category: with count 1 when it was not contained, with
count `c + 1` when it was contained with a count `c` below `INT_MAX`.  Every other item
of that tree has the count it had, the trees of the other categories, the ID table and
the customer tree are unchanged, and the customer's log is the old log followed by one `B`
transaction with that item, the other customers being unchanged.  A cent bought twice by
customer 001, none being in stock, has count 1 and then count 2. -/
theorem buyItem_spec (store : StoreInventory) (args : List String) (customer : Nat)
    (cust : Customer) (typeStr : String) (kind : Kind) (item : kind.Item)
    (hcust : findCustomer store args = Except.ok (some customer))
    (hget : store.customers.get? customer = some cust)
    (htype : vecAt args 1 = Except.ok typeStr)
    (hkind : CollectibleFactory.createObject (firstChar typeStr) = some kind)
    (hdata : kind.setData (args.drop 2) = Except.ok (some item)) :
    (∃ store', BuyItem.execute args store = Except.ok (true, store') ∧
      contains kind.ops (store'.treeOf kind) item = true ∧
      (contains kind.ops (store.treeOf kind) item = false →
        itemCountOf kind.ops (store'.treeOf kind) item = some 1) ∧
      (∀ c, itemCountOf kind.ops (store.treeOf kind) item = some c → INT_MIN ≤ c →
        c + 1 ≤ INT_MAX → itemCountOf kind.ops (store'.treeOf kind) item = some (c + 1)) ∧
      (∀ k, kind.ops.eq item k = false →
        itemCountOf kind.ops (store'.treeOf kind) k
          = itemCountOf kind.ops (store.treeOf kind) k) ∧
      (∀ kind', kind' ≠ kind → store'.treeOf kind' = store.treeOf kind') ∧
      store'.customers = store.customers.set customer
        { cust with transactions :=
            cust.transactions ++ [⟨Char.ofNat 66, kind.toCollectible item⟩] } ∧
      store'.customerDict = store.customerDict ∧
      store'.customerTree = store.customerTree) ∧
    (∃ s1 s2, BuyItem.execute scenarioArgs { scenarioStore with coinTree := nil }
        = Except.ok (true, s1) ∧
      itemCountOf coinOps s1.coinTree ⟨"Lincoln Cent", 2001, 65⟩ = some 1 ∧
      BuyItem.execute scenarioArgs s1 = Except.ok (true, s2) ∧
      itemCountOf coinOps s2.coinTree ⟨"Lincoln Cent", 2001, 65⟩ = some 2) := by
  obtain ⟨hneg, hslot⟩ := createObject_tree _ _ hkind
  have ho := kind_strictTotalOrder kind
  have hget' : store.customers[customer]? = some cust := by simpa using hget
  refine ⟨?_, ⟨_, _, rfl, rfl, rfl, rfl⟩⟩
  have hother : ∀ k, kind.ops.eq item k = false →
      itemCountOf kind.ops (insert kind.ops (store.treeOf kind) (some item)).2 k
        = itemCountOf kind.ops (store.treeOf kind) k := by
    intro k hk
    simp only [insert, insertHelper_eq_numItems]
    exact (insert_other_key ho _ item 1 k hk).1
  have hres : ∃ b, (insert kind.ops (store.treeOf kind) (some item)).1 = b ∧
      contains kind.ops (insert kind.ops (store.treeOf kind) (some item)).2 item = true ∧
      (contains kind.ops (store.treeOf kind) item = false →
        itemCountOf kind.ops (insert kind.ops (store.treeOf kind) (some item)).2 item
          = some 1) ∧
      (∀ c, itemCountOf kind.ops (store.treeOf kind) item = some c → INT_MIN ≤ c →
        c + 1 ≤ INT_MAX →
        itemCountOf kind.ops (insert kind.ops (store.treeOf kind) (some item)).2 item
          = some (c + 1)) := by
    cases hf : findNode kind.ops (store.treeOf kind) item with
    | nil =>
      obtain ⟨h1, h2, h3⟩ := findNode_of_insert_absent ho _ item hf
      refine ⟨true, h1, h2, fun _ => h3, fun c hc => ?_⟩
      simp [itemCountOf, hf] at hc
    | node y c l r =>
      obtain ⟨h1, h2, h3⟩ := findNode_of_insert_found kind.ops _ item y c l r hf
      refine ⟨false, h1, h2, fun hcon => ?_, fun c' hc' hmin hmax => ?_⟩
      · rw [contains_eq_false_iff, hf] at hcon
        exact absurd hcon (by simp)
      · simp only [itemCountOf, hf, Option.some.injEq] at hc'
        subst hc'
        rw [h3, wrapInt_of_fits _ (by omega) hmax]
  obtain ⟨b, hb1, hb2, hb3, hb4⟩ := hres
  have htree : ∀ kind'', ({ store.setTree kind
        (insert kind.ops (store.treeOf kind) (some item)).2 with
      customers := (store.setTree kind
        (insert kind.ops (store.treeOf kind) (some item)).2).customers.set customer
          (cust.addTransaction (Char.ofNat 66) (some (kind.toCollectible item))).2 } :
        StoreInventory).treeOf kind''
      = (store.setTree kind (insert kind.ops (store.treeOf kind) (some item)).2).treeOf
          kind'' := by
    intro kind''
    cases kind'' <;> rfl
  refine ⟨{ store.setTree kind (insert kind.ops (store.treeOf kind) (some item)).2 with
      customers := (store.setTree kind
        (insert kind.ops (store.treeOf kind) (some item)).2).customers.set customer
          (cust.addTransaction (Char.ofNat 66) (some (kind.toCollectible item))).2 },
    ?_, ?_, ?_, ?_, ?_, ?_, ?_, (setTree_customers store kind _).2.1,
    (setTree_customers store kind _).2.2⟩
  · cases b <;>
      simp [BuyItem.execute, hcust, htype, hkind, hneg, hslot, hdata, hb1, hb2,
        StoreInventory.addTransaction, (setTree_customers store kind _).1, hget']
  · rw [htree, treeOf_setTree]
    exact hb2
  · rw [htree, treeOf_setTree]
    exact hb3
  · rw [htree, treeOf_setTree]
    exact hb4
  · intro k hk
    rw [htree, treeOf_setTree]
    exact hother k hk
  · intro kind' hne
    rw [htree, treeOf_setTree_ne store kind kind' _ hne]
  · simp only [(setTree_customers store kind _).1]
    rfl

set_option maxRecDepth 100000 in
/-- C19, amended, at the scenario: customer 001 brings a third cent. -/
theorem buyItem_spec_witness :
    (findCustomer scenarioStore scenarioArgs = Except.ok (some 0) ∧
      scenarioStore.customers.get? 0 = some ⟨"001", "Alice Smith", []⟩ ∧
      vecAt scenarioArgs 1 = Except.ok "M" ∧
      CollectibleFactory.createObject (firstChar "M") = some Kind.coin ∧
      Kind.coin.setData (scenarioArgs.drop 2)
        = Except.ok (some (⟨"Lincoln Cent", 2001, 65⟩ : Coin))) ∧
    ∃ store', BuyItem.execute scenarioArgs scenarioStore = Except.ok (true, store') ∧
      contains Kind.coin.ops (store'.treeOf Kind.coin) (⟨"Lincoln Cent", 2001, 65⟩ : Coin)
        = true :=
  have h := buyItem_spec scenarioStore scenarioArgs 0 ⟨"001", "Alice Smith", []⟩ "M"
    Kind.coin (⟨"Lincoln Cent", 2001, 65⟩ : Coin) rfl rfl rfl rfl rfl
  ⟨⟨rfl, rfl, rfl, rfl, rfl⟩, h.1.elim fun s hs => ⟨s, hs.1, hs.2.1⟩⟩

/-- C20: a Buy, Sell or ShowCustomer command whose customer ID denotes a number from 0 to
999 under which no customer was loaded returns false and leaves the store as it was, its
inventory trees, ID table, customer tree and customers with their logs, whatever the
other arguments are. -/
theorem unknown_customer_noop (store : StoreInventory) (args : List String) (idStr : String)
    (v : Int) (hid : vecAt args 0 = Except.ok idStr) (hv : stoi idStr = Except.ok v)
    (h0 : 0 ≤ v) (h1 : v < 1000) (hnone : store.customerDict.get? v.toNat = some none) :
    BuyItem.execute args store = Except.ok (false, store) ∧
    SellItem.execute args store = Except.ok (false, store) ∧
    ShowCustomerTransact.execute args store = Except.ok (false, store) := by
  have hf : findCustomer store args = Except.ok none := by
    have hnone' : store.customerDict[v.toNat]? = some none := by simpa using hnone
    simp [findCustomer, hid, isValidCustID, hv, h0, h1, hnone']
  simp only [BuyItem.execute, SellItem.execute, ShowCustomerTransact.execute, hf, and_self]

set_option maxRecDepth 100000 in
/-- C20 at the ID 999, which the store of the scenario has not loaded. -/
theorem unknown_customer_noop_witness :
    (vecAt ["999", "M", "2001", "65", "Lincoln Cent"] 0 = Except.ok "999" ∧
      stoi "999" = Except.ok 999 ∧ (0 : Int) ≤ 999 ∧ (999 : Int) < 1000 ∧
      scenarioStore.customerDict.get? (999 : Int).toNat = some none) ∧
    BuyItem.execute ["999", "M", "2001", "65", "Lincoln Cent"] scenarioStore
      = Except.ok (false, scenarioStore) ∧
    SellItem.execute ["999", "M", "2001", "65", "Lincoln Cent"] scenarioStore
      = Except.ok (false, scenarioStore) ∧
    ShowCustomerTransact.execute ["999", "M", "2001", "65", "Lincoln Cent"] scenarioStore
      = Except.ok (false, scenarioStore) :=
  ⟨⟨rfl, rfl, by decide, by decide, rfl⟩,
    unknown_customer_noop scenarioStore ["999", "M", "2001", "65", "Lincoln Cent"] "999" 999
      rfl rfl (by decide) (by decide) rfl⟩

/-! ## Trees on the heap -/

theorem write_cells (h : Heap α) (a : Nat) (c : Option (NodeCell α)) (b : Nat) :
    (h.write a c).cells b = if b = a then c else h.cells b := rfl

theorem write_next (h : Heap α) (a : Nat) (c : Option (NodeCell α)) :
    (h.write a c).next = h.next := rfl

theorem alloc_cells (h : Heap α) (c : NodeCell α) (b : Nat) :
    (h.alloc c).cells b = if b = h.next then some c else h.cells b := rfl

theorem alloc_next (h : Heap α) (c : NodeCell α) : (h.alloc c).next = h.next + 1 := rfl

theorem setLeft_of_cell (h : Heap α) (a : Nat) (p : Option Nat) (c : NodeCell α)
    (hc : h.cells a = some c) :
    h.setLeft a p = h.write a (some ⟨c.item, c.itemCount, p, c.rightChildPtr⟩) := by
  simp only [Heap.setLeft, hc]

theorem setRight_of_cell (h : Heap α) (a : Nat) (p : Option Nat) (c : NodeCell α)
    (hc : h.cells a = some c) :
    h.setRight a p = h.write a (some ⟨c.item, c.itemCount, c.leftChildPtr, p⟩) := by
  simp only [Heap.setRight, hc]

/-- A tree stays on the heap when no object at one of its addresses changes. -/
theorem Lives_frame (h h' : Heap α) (T : TreeNode (Nat × α)) (hl : Lives h T)
    (hf : ∀ a ∈ addrs T, h'.cells a = h.cells a) : Lives h' T := by
  induction T with
  | nil => trivial
  | node x c l r ihl ihr =>
    obtain ⟨h1, h2, h3⟩ := hl
    refine ⟨?_, ihl h2 (fun a ha => hf a (by simp [addrs, ha])),
      ihr h3 (fun a ha => hf a (by simp [addrs, ha]))⟩
    rw [hf x.1 (by simp [addrs]), h1]

theorem rootPtr_nil : rootPtr (nil : TreeNode (Nat × α)) = none := rfl

theorem rootPtr_node (x : Nat × α) (c : Int) (l r : TreeNode (Nat × α)) :
    rootPtr (node x c l r) = some x.1 := rfl

theorem nodup_node (a : Nat) (l r : List Nat) :
    (l ++ a :: r).Nodup ↔
      l.Nodup ∧ r.Nodup ∧ a ∉ l ∧ a ∉ r ∧ ∀ b ∈ l, b ∉ r := by
  simp only [List.nodup_append, List.nodup_cons, List.Disjoint, List.mem_cons]
  constructor
  · rintro ⟨h1, ⟨h2, h3⟩, h4⟩
    exact ⟨h1, h3, fun h => h4 h (Or.inl rfl), h2, fun b hb hr => h4 hb (Or.inr hr)⟩
  · rintro ⟨h1, h2, h3, h4, h5⟩
    refine ⟨h1, ⟨h4, h2⟩, ?_⟩
    rintro b hb (rfl | hr)
    · exact h3 hb
    · exact h5 b hb hr

/-- The method `insertHelper` on the heap does to the tree what it does to the tree as a
value; it writes only to nodes of the tree and to one new node. -/
theorem insertHelperH_spec (ops : Comparable α) (k : α) (n : Int) (T : TreeNode (Nat × α)) :
    ∀ (fuel : Nat) (h : Heap α), Lives h T → (addrs T).Nodup → (∀ a ∈ addrs T, a < h.next) →
      size T < fuel →
      ∃ h' T', insertHelperH ops fuel h (rootPtr T) k n
          = some ((insertHelper_numItems ops (plain T) (some k) n).1, h', rootPtr T') ∧
        plain T' = (insertHelper_numItems ops (plain T) (some k) n).2 ∧
        Lives h' T' ∧ (addrs T').Nodup ∧ h.next ≤ h'.next ∧
        (∀ a ∈ addrs T', a < h'.next) ∧
        (∀ a ∈ addrs T', a ∈ addrs T ∨ h.next ≤ a) ∧
        (∀ a, a < h.next → a ∉ addrs T → h'.cells a = h.cells a) ∧
        (∀ a, rootPtr T = some a → rootPtr T' = some a) := by
  induction T with
  | nil =>
    intro fuel h _ _ _ hfuel
    obtain ⟨f, rfl⟩ : ∃ f, fuel = f + 1 := ⟨fuel - 1, by simp only [size] at hfuel; omega⟩
    refine ⟨h.alloc ⟨k, n, none, none⟩, node (h.next, k) n nil nil, rfl, rfl, ?_, ?_, ?_, ?_, ?_,
      ?_, ?_⟩
    · exact ⟨by simp [alloc_cells, rootPtr_nil], trivial, trivial⟩
    · simp [addrs]
    · simp [alloc_next]
    · simp [addrs, alloc_next]
    · simp [addrs]
    · intro a ha _
      simp [alloc_cells, Nat.ne_of_lt ha]
    · intro a ha
      simp [rootPtr_nil] at ha
  | node x c l r ihl ihr =>
    intro fuel h hl hnd hb hfuel
    obtain ⟨f, rfl⟩ : ∃ f, fuel = f + 1 := ⟨fuel - 1, by simp only [size] at hfuel; omega⟩
    simp only [size] at hfuel
    obtain ⟨hc, hll, hlr⟩ := hl
    simp only [addrs] at hnd hb
    rw [nodup_node] at hnd
    obtain ⟨ndl, ndr, xl, xr, dlr⟩ := hnd
    have hx : x.1 < h.next := hb x.1 (by simp)
    have hbl : ∀ a ∈ addrs l, a < h.next := fun a ha => hb a (by simp [ha])
    have hbr : ∀ a ∈ addrs r, a < h.next := fun a ha => hb a (by simp [ha])
    simp only [rootPtr_node, insertHelperH, hc, plain, insertHelper_numItems]
    by_cases k1 : ops.lt k x.2 = true
    · simp only [k1, if_true]
      obtain ⟨h1, l', e1, e2, e3, e4, e5, e6, e7, e8, _⟩ := ihl f h hll ndl hbl (by omega)
      have hxl' : x.1 ∉ addrs l' := by
        intro hm
        rcases e7 x.1 hm with hm' | hm'
        · exact xl hm'
        · omega
      have hcx : h1.cells x.1 = some ⟨x.2, c, rootPtr l, rootPtr r⟩ := by
        rw [e8 x.1 hx xl, hc]
      refine ⟨h1.write x.1 (some ⟨x.2, c, rootPtr l', rootPtr r⟩), node x c l' r, ?_, ?_, ?_, ?_,
        ?_, ?_, ?_, ?_, ?_⟩
      · simp only [e1, setLeft_of_cell h1 x.1 _ _ hcx, rootPtr_node]
      · simp only [plain, e2]
      · refine ⟨by simp [write_cells], ?_, ?_⟩
        · refine Lives_frame h1 _ l' e3 (fun a ha => ?_)
          have : a ≠ x.1 := fun hax => hxl' (hax ▸ ha)
          simp [write_cells, this]
        · refine Lives_frame h _ r hlr (fun a ha => ?_)
          have h1' : a ≠ x.1 := fun hax => xr (hax ▸ ha)
          have h2' : a ∉ addrs l := fun hal => dlr a hal ha
          simp only [write_cells, h1', if_false]
          exact e8 a (hbr a ha) h2'
      · simp only [addrs]
        rw [nodup_node]
        refine ⟨e4, ndr, hxl', xr, ?_⟩
        intro b hb' hbr'
        rcases e7 b hb' with hm | hm
        · exact dlr b hm hbr'
        · have := hbr b hbr'
          omega
      · simpa [write_next] using e5
      · intro a ha
        simp only [addrs, List.mem_append, List.mem_cons] at ha
        simp only [write_next]
        rcases ha with ha | rfl | ha
        · exact e6 a ha
        · omega
        · have := hbr a ha
          omega
      · intro a ha
        simp only [addrs, List.mem_append, List.mem_cons] at ha ⊢
        rcases ha with ha | rfl | ha
        · rcases e7 a ha with hm | hm
          · exact Or.inl (Or.inl hm)
          · exact Or.inr hm
        · exact Or.inl (Or.inr (Or.inl rfl))
        · exact Or.inl (Or.inr (Or.inr ha))
      · intro a ha hna
        simp only [addrs, List.mem_append, List.mem_cons, not_or] at hna
        simp only [write_cells, hna.2.1, if_false]
        exact e8 a ha hna.1
      · intro a ha
        exact ha
    · simp only [Bool.not_eq_true] at k1
      by_cases k2 : ops.eq k x.2 = true
      · simp only [k1, k2, Bool.false_eq_true, if_true, if_false]
        refine ⟨h.write x.1 (some ⟨x.2, wrapInt (c + n), rootPtr l, rootPtr r⟩),
          node x (wrapInt (c + n)) l r, rfl, rfl, ?_, ?_, ?_, ?_, ?_, ?_, ?_⟩
        · refine ⟨by simp [write_cells], ?_, ?_⟩
          · refine Lives_frame h _ l hll (fun a ha => ?_)
            have : a ≠ x.1 := fun hax => xl (hax ▸ ha)
            simp [write_cells, this]
          · refine Lives_frame h _ r hlr (fun a ha => ?_)
            have : a ≠ x.1 := fun hax => xr (hax ▸ ha)
            simp [write_cells, this]
        · simp only [addrs]
          rw [nodup_node]
          exact ⟨ndl, ndr, xl, xr, dlr⟩
        · simp [write_next]
        · intro a ha
          simp only [write_next]
          exact hb a (by simpa [addrs] using ha)
        · intro a ha
          exact Or.inl (by simpa [addrs] using ha)
        · intro a _ hna
          simp only [addrs, List.mem_append, List.mem_cons, not_or] at hna
          simp only [write_cells, hna.2.1, if_false]
        · intro a ha
          exact ha
      · simp only [Bool.not_eq_true] at k2
        simp only [k1, k2, Bool.false_eq_true, if_false]
        obtain ⟨h1, r', e1, e2, e3, e4, e5, e6, e7, e8, _⟩ := ihr f h hlr ndr hbr (by omega)
        have hxr' : x.1 ∉ addrs r' := by
          intro hm
          rcases e7 x.1 hm with hm' | hm'
          · exact xr hm'
          · omega
        have hcx : h1.cells x.1 = some ⟨x.2, c, rootPtr l, rootPtr r⟩ := by
          rw [e8 x.1 hx xr, hc]
        refine ⟨h1.write x.1 (some ⟨x.2, c, rootPtr l, rootPtr r'⟩), node x c l r', ?_, ?_, ?_,
          ?_, ?_, ?_, ?_, ?_, ?_⟩
        · simp only [e1, setRight_of_cell h1 x.1 _ _ hcx, rootPtr_node]
        · simp only [plain, e2]
        · refine ⟨by simp [write_cells], ?_, ?_⟩
          · refine Lives_frame h _ l hll (fun a ha => ?_)
            have h1' : a ≠ x.1 := fun hax => xl (hax ▸ ha)
            have h2' : a ∉ addrs r := fun har => dlr a ha har
            simp only [write_cells, h1', if_false]
            exact e8 a (hbl a ha) h2'
          · refine Lives_frame h1 _ r' e3 (fun a ha => ?_)
            have : a ≠ x.1 := fun hax => hxr' (hax ▸ ha)
            simp [write_cells, this]
        · simp only [addrs]
          rw [nodup_node]
          refine ⟨ndl, e4, xl, hxr', ?_⟩
          intro b hb' hbr'
          rcases e7 b hbr' with hm | hm
          · exact dlr b hb' hm
          · have := hbl b hb'
            omega
        · simpa [write_next] using e5
        · intro a ha
          simp only [addrs, List.mem_append, List.mem_cons] at ha
          simp only [write_next]
          rcases ha with ha | rfl | ha
          · have := hbl a ha
            omega
          · omega
          · exact e6 a ha
        · intro a ha
          simp only [addrs, List.mem_append, List.mem_cons] at ha ⊢
          rcases ha with ha | rfl | ha
          · exact Or.inl (Or.inl ha)
          · exact Or.inl (Or.inr (Or.inl rfl))
          · rcases e7 a ha with hm | hm
            · exact Or.inl (Or.inr (Or.inr hm))
            · exact Or.inr hm
        · intro a ha hna
          simp only [addrs, List.mem_append, List.mem_cons, not_or] at hna
          simp only [write_cells, hna.2.1, if_false]
          exact e8 a ha hna.2.2
        · intro a ha
          exact ha

/-- An address outside a node's tree is outside both subtrees and is not the node. -/
theorem not_mem_addrs_node {a : Nat} {x : Nat × α} {c : Int} {l r : TreeNode (Nat × α)}
    (hna : a ∉ addrs (node x c l r)) : a ∉ addrs l ∧ a ≠ x.1 ∧ a ∉ addrs r := by
  have e : addrs (node x c l r) = addrs l ++ x.1 :: addrs r := rfl
  rw [e] at hna
  simpa [not_or] using hna

/-- The method `findAndDeleteMostLeft` on the heap does to a tree that is not empty what it
does to the tree as a value; it writes only to nodes of the tree. -/
theorem findAndDeleteMostLeftH_spec (T : TreeNode (Nat × α)) :
    ∀ (fuel : Nat) (h : Heap α), T ≠ nil → Lives h T → (addrs T).Nodup → size T < fuel →
      ∃ m mc h' T', findAndDeleteMostLeftH fuel h (rootPtr T) = some (m, mc, h', rootPtr T') ∧
        findAndDeleteMostLeft (plain T) = some (m, mc, plain T') ∧
        Lives h' T' ∧ (addrs T').Sublist (addrs T) ∧ h'.next = h.next ∧
        (∀ a, a ∉ addrs T → h'.cells a = h.cells a) := by
  induction T with
  | nil => intro _ _ hne; exact absurd rfl hne
  | node x c l r ihl _ =>
    intro fuel h _ hl hnd hfuel
    obtain ⟨f, rfl⟩ : ∃ f, fuel = f + 1 := ⟨fuel - 1, by simp only [size] at hfuel; omega⟩
    simp only [size] at hfuel
    obtain ⟨hc, hll, hlr⟩ := hl
    simp only [addrs] at hnd
    rw [nodup_node] at hnd
    obtain ⟨ndl, ndr, xl, xr, dlr⟩ := hnd
    cases l with
    | nil =>
      refine ⟨x.2, c, h.write x.1 none, r, ?_, ?_, ?_, ?_, rfl, ?_⟩
      · simp only [rootPtr_node, findAndDeleteMostLeftH, hc, rootPtr_nil]
      · simp only [plain, findAndDeleteMostLeft]
      · refine Lives_frame h _ r hlr (fun a ha => ?_)
        have : a ≠ x.1 := fun hax => xr (hax ▸ ha)
        simp [write_cells, this]
      · simp only [addrs, List.nil_append]
        exact List.sublist_cons_self _ _
      · intro a hna
        simp only [addrs, List.nil_append, List.mem_cons, not_or] at hna
        simp only [write_cells, hna.1, if_false]
    | node y d ll lr =>
      obtain ⟨m, mc, h1, l', e1, e2, e3, e4, e5, e6⟩ :=
        ihl f h (by simp) hll ndl (by omega)
      have hxl' : x.1 ∉ addrs l' := fun hm => xl (e4.subset hm)
      have hcx : h1.cells x.1
          = some ⟨x.2, c, rootPtr (node y d ll lr), rootPtr r⟩ := by
        rw [e6 x.1 xl, hc]
      refine ⟨m, mc, h1.write x.1 (some ⟨x.2, c, rootPtr l', rootPtr r⟩), node x c l' r,
        ?_, ?_, ?_, ?_, ?_, ?_⟩
      · have e1' := e1
        rw [rootPtr_node] at e1'
        simp only [rootPtr_node, findAndDeleteMostLeftH, hc, e1',
          setLeft_of_cell h1 x.1 _ _ hcx]
      · simp only [plain] at e2 ⊢
        simp only [findAndDeleteMostLeft, e2]
      · refine ⟨by simp [write_cells, rootPtr_node], ?_, ?_⟩
        · refine Lives_frame h1 _ l' e3 (fun a ha => ?_)
          have : a ≠ x.1 := fun hax => hxl' (hax ▸ ha)
          simp [write_cells, this]
        · refine Lives_frame h _ r hlr (fun a ha => ?_)
          have h1' : a ≠ x.1 := fun hax => xr (hax ▸ ha)
          have h2' : a ∉ addrs (node y d ll lr) := fun hal => dlr a hal ha
          simp only [write_cells, h1', if_false]
          exact e6 a h2'
      · simp only [addrs] at e4 ⊢
        exact List.Sublist.append_right e4 _
      · simpa [write_next] using e5
      · intro a hna
        have hna' := not_mem_addrs_node hna
        simp only [write_cells, hna'.2.1, if_false]
        exact e6 a hna'.1

/-- The method `deleteNode` on the heap does to a tree that is not empty what it does to

the tree as a value; it writes only to nodes of the tree. -/
theorem deleteNodeH_spec (x : Nat × α) (c : Int) (l r : TreeNode (Nat × α)) (fuel : Nat)
    (h : Heap α) (hl : Lives h (node x c l r)) (hnd : (addrs (node x c l r)).Nodup)
    (hfuel : size r < fuel) :
    ∃ h' T', deleteNodeH fuel h (some x.1) = some (h', rootPtr T') ∧
      deleteNode (plain (node x c l r)) = some (plain T') ∧
      Lives h' T' ∧ (addrs T').Sublist (addrs (node x c l r)) ∧ h'.next = h.next ∧
      (∀ a, a ∉ addrs (node x c l r) → h'.cells a = h.cells a) := by
  obtain ⟨hc, hll, hlr⟩ := hl
  simp only [addrs] at hnd
  rw [nodup_node] at hnd
  obtain ⟨ndl, ndr, xl, xr, dlr⟩ := hnd
  have frame1 : ∀ a, a ∉ addrs (node x c l r) → (h.write x.1 none).cells a = h.cells a := by
    intro a hna
    have hna' := not_mem_addrs_node hna
    simp only [write_cells, hna'.2.1, if_false]
  have livesL : Lives (h.write x.1 none) l := by
    refine Lives_frame h _ l hll (fun a ha => ?_)
    have : a ≠ x.1 := fun hax => xl (hax ▸ ha)
    simp [write_cells, this]
  have livesR : Lives (h.write x.1 none) r := by
    refine Lives_frame h _ r hlr (fun a ha => ?_)
    have : a ≠ x.1 := fun hax => xr (hax ▸ ha)
    simp [write_cells, this]
  cases l with
  | nil =>
    cases r with
    | nil =>
      refine ⟨h.write x.1 none, nil, ?_, rfl, trivial, List.nil_sublist _, rfl, frame1⟩
      simp only [deleteNodeH, hc, rootPtr_nil]
    | node z e rl rr =>
      refine ⟨h.write x.1 none, node z e rl rr, ?_, rfl, livesR, ?_, rfl, frame1⟩
      · simp only [deleteNodeH, hc, rootPtr_nil, rootPtr_node]
      · simp only [addrs, List.nil_append]
        exact List.sublist_cons_self _ _
  | node y d ll lr =>
    cases r with
    | nil =>
      refine ⟨h.write x.1 none, node y d ll lr, ?_, rfl, livesL, ?_, rfl, frame1⟩
      · simp only [deleteNodeH, hc, rootPtr_nil, rootPtr_node]
      · simp only [addrs]
        exact List.sublist_append_left _ _
    | node z e rl rr =>
      obtain ⟨m, mc, h1, r', e1, e2, e3, e4, e5, e6⟩ :=
        findAndDeleteMostLeftH_spec (node z e rl rr) fuel h (by simp) hlr ndr hfuel
      have hxr' : x.1 ∉ addrs r' := fun hm => xr (e4.subset hm)
      refine ⟨h1.write x.1 (some ⟨m, mc, some y.1, rootPtr r'⟩), node (x.1, m) mc (node y d ll lr) r',
        ?_, ?_, ?_, ?_, ?_, ?_⟩
      · have e1' := e1
        rw [rootPtr_node] at e1'
        simp only [deleteNodeH, hc, rootPtr_node, e1']
      · simp only [plain] at e2 ⊢
        simp only [deleteNode, e2]
      · refine ⟨by simp [write_cells, rootPtr_node], ?_, ?_⟩
        · refine Lives_frame h _ _ hll (fun a ha => ?_)
          have h1' : a ≠ x.1 := fun hax => xl (hax ▸ ha)
          have h2' : a ∉ addrs (node z e rl rr) := fun har => dlr a ha har
          simp only [write_cells, h1', if_false]
          exact e6 a h2'
        · refine Lives_frame h1 _ r' e3 (fun a ha => ?_)
          have : a ≠ x.1 := fun hax => hxr' (hax ▸ ha)
          simp [write_cells, this]
      · simp only [addrs] at e4 ⊢
        exact List.Sublist.append_left (List.Sublist.cons₂ _ e4) _
      · simpa [write_next] using e5
      · intro a hna
        have hna' := not_mem_addrs_node hna
        simp only [write_cells, hna'.2.1, if_false]
        exact e6 a hna'.2.2

/-- The method `removeHelper` on the heap does to the tree what it does to the tree as a

value; it writes only to nodes of the tree. -/
theorem removeHelperH_spec (ops : Comparable α) (k : α) (T : TreeNode (Nat × α)) :
    ∀ (fuel : Nat) (h : Heap α), Lives h T → (addrs T).Nodup → size T < fuel →
      ∃ b h' T', removeHelperH ops fuel h (rootPtr T) k = some (b, h', rootPtr T') ∧
        removeHelper ops (plain T) k = some (b, plain T') ∧
        Lives h' T' ∧ (addrs T').Sublist (addrs T) ∧ h'.next = h.next ∧
        (∀ a, a ∉ addrs T → h'.cells a = h.cells a) := by
  induction T with
  | nil =>
    intro fuel h _ _ hfuel
    obtain ⟨f, rfl⟩ : ∃ f, fuel = f + 1 := ⟨fuel - 1, by simp only [size] at hfuel; omega⟩
    exact ⟨false, h, nil, rfl, rfl, trivial, List.Sublist.refl _, rfl, fun _ _ => rfl⟩
  | node x c l r ihl ihr =>
    intro fuel h hl hnd hfuel
    obtain ⟨f, rfl⟩ : ∃ f, fuel = f + 1 := ⟨fuel - 1, by simp only [size] at hfuel; omega⟩
    simp only [size] at hfuel
    have hl0 := hl
    have hnd0 := hnd
    obtain ⟨hc, hll, hlr⟩ := hl
    simp only [addrs] at hnd
    rw [nodup_node] at hnd
    obtain ⟨ndl, ndr, xl, xr, dlr⟩ := hnd
    simp only [rootPtr_node, removeHelperH, hc, plain, removeHelper]
    by_cases k2 : ops.eq k x.2 = true
    · simp only [k2, if_true]
      by_cases hgt : c > 1
      · simp only [hgt, if_true]
        refine ⟨true, h.write x.1 (some ⟨x.2, c - 1, rootPtr l, rootPtr r⟩), node x (c - 1) l r,
          rfl, rfl, ?_, List.Sublist.refl _, rfl, ?_⟩
        · refine ⟨by simp [write_cells], ?_, ?_⟩
          · refine Lives_frame h _ l hll (fun a ha => ?_)
            have : a ≠ x.1 := fun hax => xl (hax ▸ ha)
            simp [write_cells, this]
          · refine Lives_frame h _ r hlr (fun a ha => ?_)
            have : a ≠ x.1 := fun hax => xr (hax ▸ ha)
            simp [write_cells, this]
        · intro a hna
          have hna' := not_mem_addrs_node hna
          simp only [write_cells, hna'.2.1, if_false]
      · simp only [hgt, if_false]
        obtain ⟨h1, T', e1, e2, e3, e4, e5, e6⟩ :=
          deleteNodeH_spec x c l r f h hl0 hnd0 (by omega)
        simp only [plain] at e2
        exact ⟨true, h1, T', by simp only [e1], by simp only [e2], e3, e4, e5, e6⟩
    · simp only [Bool.not_eq_true] at k2
      by_cases k1 : ops.lt k x.2 = true
      · simp only [k1, k2, Bool.false_eq_true, if_true, if_false]
        obtain ⟨b, h1, l', e1, e2, e3, e4, e5, e6⟩ := ihl f h hll ndl (by omega)
        have hxl' : x.1 ∉ addrs l' := fun hm => xl (e4.subset hm)
        have hcx : h1.cells x.1 = some ⟨x.2, c, rootPtr l, rootPtr r⟩ := by
          rw [e6 x.1 xl, hc]
        refine ⟨b, h1.write x.1 (some ⟨x.2, c, rootPtr l', rootPtr r⟩), node x c l' r,
          ?_, ?_, ?_, ?_, ?_, ?_⟩
        · simp only [e1, setLeft_of_cell h1 x.1 _ _ hcx, rootPtr_node]
        · simp only [e2, plain]
        · refine ⟨by simp [write_cells], ?_, ?_⟩
          · refine Lives_frame h1 _ l' e3 (fun a ha => ?_)
            have : a ≠ x.1 := fun hax => hxl' (hax ▸ ha)
            simp [write_cells, this]
          · refine Lives_frame h _ r hlr (fun a ha => ?_)
            have h1' : a ≠ x.1 := fun hax => xr (hax ▸ ha)
            have h2' : a ∉ addrs l := fun hal => dlr a hal ha
            simp only [write_cells, h1', if_false]
            exact e6 a h2'
        · simp only [addrs]
          exact List.Sublist.append_right e4 _
        · simpa [write_next] using e5
        · intro a hna
          have hna' := not_mem_addrs_node hna
          simp only [write_cells, hna'.2.1, if_false]
          exact e6 a hna'.1
      · simp only [Bool.not_eq_true] at k1
        simp only [k1, k2, Bool.false_eq_true, if_false]
        obtain ⟨b, h1, r', e1, e2, e3, e4, e5, e6⟩ := ihr f h hlr ndr (by omega)
        have hxr' : x.1 ∉ addrs r' := fun hm => xr (e4.subset hm)
        have hcx : h1.cells x.1 = some ⟨x.2, c, rootPtr l, rootPtr r⟩ := by
          rw [e6 x.1 xr, hc]
        refine ⟨b, h1.write x.1 (some ⟨x.2, c, rootPtr l, rootPtr r'⟩), node x c l r',
          ?_, ?_, ?_, ?_, ?_, ?_⟩
        · simp only [e1, setRight_of_cell h1 x.1 _ _ hcx, rootPtr_node]
        · simp only [e2, plain]
        · refine ⟨by simp [write_cells], ?_, ?_⟩
          · refine Lives_frame h _ l hll (fun a ha => ?_)
            have h1' : a ≠ x.1 := fun hax => xl (hax ▸ ha)
            have h2' : a ∉ addrs r := fun har => dlr a ha har
            simp only [write_cells, h1', if_false]
            exact e6 a h2'
          · refine Lives_frame h1 _ r' e3 (fun a ha => ?_)
            have : a ≠ x.1 := fun hax => hxr' (hax ▸ ha)
            simp [write_cells, this]
        · simp only [addrs]
          exact List.Sublist.append_left (List.Sublist.cons₂ _ e4) _
        · simpa [write_next] using e5
        · intro a hna
          have hna' := not_mem_addrs_node hna
          simp only [write_cells, hna'.2.1, if_false]
          exact e6 a hna'.2.2

/-- The method `copyTree` on the heap builds a tree equal to the original out of new nodes
only; it changes no object that was on the heap. -/
theorem copyTreeH_spec (T : TreeNode (Nat × α)) :
    ∀ (fuel : Nat) (h : Heap α), Lives h T → (∀ a ∈ addrs T, a < h.next) → size T < fuel →
      ∃ h' T', copyTreeH fuel h (rootPtr T) = some (h', rootPtr T') ∧
        plain T' = plain T ∧ Lives h' T' ∧ (addrs T').Nodup ∧ h.next ≤ h'.next ∧
        (∀ a ∈ addrs T', h.next ≤ a ∧ a < h'.next) ∧
        (∀ a, a < h.next → h'.cells a = h.cells a) := by
  induction T with
  | nil =>
    intro fuel h _ _ hfuel
    obtain ⟨f, rfl⟩ : ∃ f, fuel = f + 1 := ⟨fuel - 1, by simp only [size] at hfuel; omega⟩
    exact ⟨h, nil, rfl, rfl, trivial, List.nodup_nil, le_refl _,
      fun a ha => absurd ha (List.not_mem_nil a), fun _ _ => rfl⟩
  | node x c l r ihl ihr =>
    intro fuel h hl hb hfuel
    obtain ⟨f, rfl⟩ : ∃ f, fuel = f + 1 := ⟨fuel - 1, by simp only [size] at hfuel; omega⟩
    simp only [size] at hfuel
    obtain ⟨hc, hll, hlr⟩ := hl
    have hbl : ∀ a ∈ addrs l, a < h.next := fun a ha => hb a (by simp [addrs, ha])
    have hbr : ∀ a ∈ addrs r, a < h.next := fun a ha => hb a (by simp [addrs, ha])
    have L0 : Lives (h.alloc ⟨x.2, c, none, none⟩) l := by
      refine Lives_frame h _ l hll (fun a ha => ?_)
      have : a ≠ h.next := Nat.ne_of_lt (hbl a ha)
      simp only [alloc_cells, this, if_false]
    obtain ⟨h1, l', e1, e2, e3, e4, e5, e6, e7⟩ :=
      ihl f (h.alloc ⟨x.2, c, none, none⟩) L0
        (fun a ha => by rw [alloc_next]; exact Nat.lt_succ_of_lt (hbl a ha)) (by omega)
    rw [alloc_next] at e5 e6 e7
    have c1 : h1.cells h.next = some ⟨x.2, c, none, none⟩ := by
      rw [e7 h.next (Nat.lt_succ_self _)]
      simp only [alloc_cells, if_true]
    have L2 : Lives (h1.write h.next (some ⟨x.2, c, rootPtr l', none⟩)) r := by
      refine Lives_frame h _ r hlr (fun a ha => ?_)
      have hlt := hbr a ha
      have hne : a ≠ h.next := Nat.ne_of_lt hlt
      simp only [write_cells, hne, if_false]
      rw [e7 a (Nat.lt_succ_of_lt hlt)]
      simp only [alloc_cells, hne, if_false]
    obtain ⟨h3, r', g1, g2, g3, g4, g5, g6, g7⟩ :=
      ihr f (h1.write h.next (some ⟨x.2, c, rootPtr l', none⟩)) L2
        (fun a ha => by rw [write_next]; exact Nat.lt_of_lt_of_le (hbr a ha) (by omega))
        (by omega)
    rw [write_next] at g5 g6 g7
    have c3 : h3.cells h.next = some ⟨x.2, c, rootPtr l', none⟩ := by
      rw [g7 h.next (by omega)]
      simp only [write_cells, if_true]
    refine ⟨h3.write h.next (some ⟨x.2, c, rootPtr l', rootPtr r'⟩), node (h.next, x.2) c l' r',
      ?_, ?_, ?_, ?_, ?_, ?_, ?_⟩
    · simp only [rootPtr_node, copyTreeH, hc, e1, setLeft_of_cell h1 h.next _ _ c1, g1,
        setRight_of_cell h3 h.next _ _ c3]
    · simp only [plain, e2, g2]
    · refine ⟨by simp [write_cells], ?_, ?_⟩
      · refine Lives_frame h1 _ l' e3 (fun a ha => ?_)
        have hr := e6 a ha
        have hne : a ≠ h.next := by omega
        simp only [write_cells, hne, if_false]
        rw [g7 a hr.2]
        simp only [write_cells, hne, if_false]
      · refine Lives_frame h3 _ r' g3 (fun a ha => ?_)
        have hr := g6 a ha
        have hne : a ≠ h.next := by omega
        simp only [write_cells, hne, if_false]
    · simp only [addrs]
      rw [nodup_node]
      refine ⟨e4, g4, fun hm => ?_, fun hm => ?_, fun b hb1 hb2 => ?_⟩
      · have := e6 _ hm
        omega
      · have := g6 _ hm
        omega
      · have h1' := e6 b hb1
        have h2' := g6 b hb2
        omega
    · simp only [write_next]
      omega
    · intro a ha
      simp only [addrs, List.mem_append, List.mem_cons] at ha
      simp only [write_next]
      rcases ha with ha | rfl | ha
      · have := e6 a ha
        omega
      · omega
      · have := g6 a ha
        omega
    · intro a ha
      have hne : a ≠ h.next := Nat.ne_of_lt ha
      simp only [write_cells, hne, if_false]
      rw [g7 a (by omega)]
      simp only [write_cells, hne, if_false]
      rw [e7 a (by omega)]
      simp only [alloc_cells, hne, if_false]

theorem size_plain (T : TreeNode (Nat × α)) : size (plain T) = size T := by
  induction T with
  | nil => rfl
  | node x c l r ihl ihr => simp only [plain, size, ihl, ihr]

theorem size_eq_length (T : TreeNode (Nat × α)) : size T = (addrs T).length := by
  induction T with
  | nil => rfl
  | node x c l r ihl ihr =>
    simp only [size, addrs, ihl, ihr, List.length_append, List.length_cons]
    omega

theorem size_insertHelper_numItems (ops : Comparable α) (k : α) (n : Int) (t : TreeNode α) :
    size (insertHelper_numItems ops t (some k) n).2 ≤ size t + 1 := by
  induction t with
  | nil => simp [insertHelper_numItems, size]
  | node x c l r ihl ihr =>
    simp only [insertHelper_numItems]
    split
    · simp only [size]; omega
    · split
      · simp only [size]; omega
      · simp only [size]; omega

/-- Reading a tree that is on the heap gives the tree. -/
theorem readTree_of_Lives (T : TreeNode (Nat × α)) :
    ∀ (fuel : Nat) (h : Heap α), Lives h T → size T < fuel →
      readTree fuel h (rootPtr T) = some (plain T) := by
  induction T with
  | nil =>
    intro fuel h _ hfuel
    obtain ⟨f, rfl⟩ : ∃ f, fuel = f + 1 := ⟨fuel - 1, by simp only [size] at hfuel; omega⟩
    rfl
  | node x c l r ihl ihr =>
    intro fuel h hl hfuel
    obtain ⟨f, rfl⟩ : ∃ f, fuel = f + 1 := ⟨fuel - 1, by simp only [size] at hfuel; omega⟩
    simp only [size] at hfuel
    obtain ⟨hc, hll, hlr⟩ := hl
    simp only [rootPtr_node, readTree, hc, ihl f h hll (by omega), ihr f h hlr (by omega), plain]

/-- One call on a tree that is on the heap does to the tree what it does to the tree as a
value; it changes no allocated object outside the tree. -/
theorem applyCallH_spec (ops : Comparable α) (T : TreeNode (Nat × α)) (c : Call α) (fuel : Nat)
    (h : Heap α) (hl : Lives h T) (hnd : (addrs T).Nodup) (hb : ∀ a ∈ addrs T, a < h.next)
    (hfuel : size T < fuel) :
    ∃ h' T', applyCallH ops fuel h (rootPtr T) c = some (h', rootPtr T') ∧
      applyCall ops (plain T) c = some (plain T') ∧
      Lives h' T' ∧ (addrs T').Nodup ∧ h.next ≤ h'.next ∧
      (∀ a ∈ addrs T', a < h'.next) ∧
      (∀ a ∈ addrs T', a ∈ addrs T ∨ h.next ≤ a) ∧
      (∀ a, a < h.next → a ∉ addrs T → h'.cells a = h.cells a) ∧
      size T' ≤ size T + 1 := by
  have keep : ∃ h' T', some (h, rootPtr T) = some (h', rootPtr T') ∧
      some (plain T) = some (plain T') ∧
      Lives h' T' ∧ (addrs T').Nodup ∧ h.next ≤ h'.next ∧
      (∀ a ∈ addrs T', a < h'.next) ∧
      (∀ a ∈ addrs T', a ∈ addrs T ∨ h.next ≤ a) ∧
      (∀ a, a < h.next → a ∉ addrs T → h'.cells a = h.cells a) ∧
      size T' ≤ size T + 1 :=
    ⟨h, T, rfl, rfl, hl, hnd, le_refl _, hb, fun _ ha => Or.inl ha, fun _ _ _ => rfl,
      Nat.le_succ _⟩
  have put : ∀ (k : α) (n : Int), ∃ h' T',
      (match insertHelperH ops fuel h (rootPtr T) k n with
        | none => none
        | some res => some res.2) = some (h', rootPtr T') ∧
      some (insertHelper_numItems ops (plain T) (some k) n).2 = some (plain T') ∧
      Lives h' T' ∧ (addrs T').Nodup ∧ h.next ≤ h'.next ∧
      (∀ a ∈ addrs T', a < h'.next) ∧
      (∀ a ∈ addrs T', a ∈ addrs T ∨ h.next ≤ a) ∧
      (∀ a, a < h.next → a ∉ addrs T → h'.cells a = h.cells a) ∧
      size T' ≤ size T + 1 := by
    intro k n
    obtain ⟨h1, T', e1, e2, e3, e4, e5, e6, e7, e8, _⟩ :=
      insertHelperH_spec ops k n T fuel h hl hnd hb hfuel
    refine ⟨h1, T', by simp only [e1], by rw [e2], e3, e4, e5, e6, e7, e8, ?_⟩
    rw [← size_plain T', e2, ← size_plain T]
    exact size_insertHelper_numItems ops k n (plain T)
  cases c with
  | insert p =>
    cases p with
    | none =>
      simpa only [applyCallH, applyCall, insert, insertHelper_eq_numItems,
        insertHelper_numItems_none] using keep
    | some k =>
      simpa only [applyCallH, applyCall, insert, insertHelper_eq_numItems] using put k 1
  | insert_numItems p n =>
    cases p with
    | none =>
      simpa only [applyCallH, applyCall, insert_numItems, insertHelper_numItems_none]
        using keep
    | some k =>
      simpa only [applyCallH, applyCall, insert_numItems] using put k n
  | remove k =>
    obtain ⟨b, h1, T', e1, e2, e3, e4, e5, e6⟩ := removeHelperH_spec ops k T fuel h hl hnd hfuel
    refine ⟨h1, T', ?_, ?_, e3, e4.nodup hnd, by omega, ?_,
      fun a ha => Or.inl (e4.subset ha), fun a _ ha => e6 a ha, ?_⟩
    · simp only [applyCallH, e1]
    · simp only [applyCall, remove, e2]
    · intro a ha
      rw [e5]
      exact hb a (e4.subset ha)
    · rw [size_eq_length T', size_eq_length T]
      exact Nat.le_succ_of_le e4.length_le

/-- A sequence of calls on a tree that is on the heap does to the tree what it does to the
tree as a value; it changes no allocated object outside the tree. -/
theorem runCallsH_spec (ops : Comparable α) (fuel : Nat) (calls : List (Call α)) :
    ∀ (T : TreeNode (Nat × α)) (h : Heap α), Lives h T → (addrs T).Nodup →
      (∀ a ∈ addrs T, a < h.next) → size T + calls.length < fuel →
      ∃ h' T', runCallsH ops fuel h (rootPtr T) calls = some (h', rootPtr T') ∧
        runCalls ops (plain T) calls = some (plain T') ∧
        Lives h' T' ∧ size T' ≤ size T + calls.length ∧
        (∀ a, a < h.next → a ∉ addrs T → h'.cells a = h.cells a) := by
  induction calls with
  | nil =>
    intro T h hl _ _ _
    exact ⟨h, T, rfl, rfl, hl, Nat.le_refl _, fun _ _ _ => rfl⟩
  | cons c cs ih =>
    intro T h hl hnd hb hfuel
    simp only [List.length_cons] at hfuel
    obtain ⟨h1, T1, e1, e2, e3, e4, e5, e6, e9, e7, e8⟩ :=
      applyCallH_spec ops T c fuel h hl hnd hb (by omega)
    obtain ⟨h2, T2, g1, g2, g3, g4, g5⟩ := ih T1 h1 e3 e4 e6 (by omega)
    refine ⟨h2, T2, ?_, ?_, g3, ?_, ?_⟩
    · simp only [runCallsH, e1, g1]
    · simp only [runCalls, e2, g2]
    · simp only [List.length_cons]
      omega
    · intro a ha hna
      have hm : a ∉ addrs T1 := fun hm => by
        rcases e9 a hm with h1' | h1'
        · exact hna h1'
        · omega
      rw [g5 a (by omega) hm, e7 a ha hna]

/-! ## The independence of a copy -/

/-- C14: after tree A is copied into B with `copyTree`, which the copy constructor and
`operator=` call, every sequence of insert and remove calls on B runs to its end and leaves
the tree read from A's root (items in their positions, with their counts) what it was, and
every sequence of such calls on A leaves the tree read from B's root equal to the copy; the
tree that was called is the one that the same calls make of the tree as a value. -/
theorem copy_independent (ops : Comparable α) (h : Heap α) (rootA : Option Nat)
    (A : TreeNode (Nat × α)) (calls : List (Call α)) (fuel : Nat) (hA : Owns h rootA A)
    (hfuel : size A + calls.length < fuel) :
    ∃ hc rootB, copyTreeH fuel h rootA = some (hc, rootB) ∧
      readTree fuel hc rootA = some (plain A) ∧ readTree fuel hc rootB = some (plain A) ∧
      (∃ h' rootB', runCallsH ops fuel hc rootB calls = some (h', rootB') ∧
        readTree fuel h' rootB' = runCalls ops (plain A) calls ∧
        readTree fuel h' rootA = some (plain A)) ∧
      (∃ h' rootA', runCallsH ops fuel hc rootA calls = some (h', rootA') ∧
        readTree fuel h' rootA' = runCalls ops (plain A) calls ∧
        readTree fuel h' rootB = some (plain A)) := by
  obtain ⟨rfl, hl, hnd, hb⟩ := hA
  obtain ⟨hc, B, e1, e2, e3, e4, e5, e6, e7⟩ := copyTreeH_spec A fuel h hl hb (by omega)
  have sizeB : size B = size A := by rw [← size_plain B, e2, size_plain]
  have livesA : Lives hc A := Lives_frame h hc A hl (fun a ha => e7 a (hb a ha))
  refine ⟨hc, rootPtr B, e1, readTree_of_Lives A fuel hc livesA (by omega), ?_, ?_, ?_⟩
  · rw [← e2]
    exact readTree_of_Lives B fuel hc e3 (by omega)
  · obtain ⟨h', B', g1, g2, g3, g4, g5⟩ :=
      runCallsH_spec ops fuel calls B hc e3 e4 (fun a ha => (e6 a ha).2) (by omega)
    refine ⟨h', rootPtr B', g1, ?_, ?_⟩
    · rw [← e2, g2]
      exact readTree_of_Lives B' fuel h' g3 (by omega)
    · refine readTree_of_Lives A fuel h' (Lives_frame hc h' A livesA (fun a ha => ?_)) (by omega)
      have hlt := hb a ha
      exact g5 a (by omega) (fun hm => by have := (e6 a hm).1; omega)
  · obtain ⟨h', A', g1, g2, g3, g4, g5⟩ :=
      runCallsH_spec ops fuel calls A hc livesA hnd (fun a ha => by have := hb a ha; omega)
        (by omega)
    refine ⟨h', rootPtr A', g1, ?_, ?_⟩
    · rw [g2]
      exact readTree_of_Lives A' fuel h' g3 (by omega)
    · rw [← e2]
      refine readTree_of_Lives B fuel h' (Lives_frame hc h' B e3 (fun a ha => ?_)) (by omega)
      have hr := e6 a ha
      exact g5 a hr.2 (fun hm => by have := hb a hm; omega)

theorem copy_independent_witness :
    Owns oneNodeHeap (some 0) oneNodeTree ∧ size oneNodeTree + threeCalls.length < 10 ∧
    ∃ hc rootB, copyTreeH 10 oneNodeHeap (some 0) = some (hc, rootB) ∧
      readTree 10 hc (some 0) = some (plain oneNodeTree) ∧
      readTree 10 hc rootB = some (plain oneNodeTree) ∧
      (∃ h' rootB', runCallsH intOps 10 hc rootB threeCalls = some (h', rootB') ∧
        readTree 10 h' rootB' = runCalls intOps (plain oneNodeTree) threeCalls ∧
        readTree 10 h' (some 0) = some (plain oneNodeTree)) ∧
      (∃ h' rootA', runCallsH intOps 10 hc (some 0) threeCalls = some (h', rootA') ∧
        readTree 10 h' rootA' = runCalls intOps (plain oneNodeTree) threeCalls ∧
        readTree 10 h' rootB = some (plain oneNodeTree)) :=
  have hA : Owns oneNodeHeap (some 0) oneNodeTree :=
    ⟨rfl, ⟨rfl, trivial, trivial⟩, by decide, by decide⟩
  ⟨hA, by decide, copy_independent intOps oneNodeHeap (some 0) oneNodeTree threeCalls 10 hA
    (by decide)⟩

/-! ## The orders of the items, as claimed -/

theorem coinOps_lt_iff (a b : Coin) : coinOps.lt a b = true ↔ Coin.key a < Coin.key b := by
  obtain ⟨at_, ay, ag⟩ := a
  obtain ⟨bt, by_, bg⟩ := b
  simp only [coinOps, Coin.lt, Coin.key, strLt, Prod.Lex.lt_iff, decide_eq_true_eq,
    ← String.toList_inj]
  split_ifs <;> simp_all

/-- Of `a < b`, `a == b` and `b < a` exactly one holds when the operators are a strict total
order. -/
theorem exactlyOne_of_strictTotalOrder {ops : Comparable α} (ho : StrictTotalOrder ops)
    (a b : α) : exactlyOne (ops.lt a b) (ops.eq a b) (ops.lt b a) = true := by
  cases h1 : ops.lt a b with
  | true => simp [exactlyOne, ho.eq_false_of_lt h1, ho.lt_asymm h1]
  | false =>
    cases h2 : ops.eq a b with
    | true =>
      have := (ho.eq_iff a b).1 h2
      simp [exactlyOne, this.2]
    | false => simp [exactlyOne, ho.gt_of_not h1 h2]

/-- C28: `Coin::operator<` is the lexicographic order on (type, year, grade), the type
compared as a string and the year and the grade as integers; it is irreflexive and
transitive, and of `a < b`, `a == b` and `b < a` exactly one holds for every two coins. -/
theorem coin_order_spec :
    (∀ a b : Coin, Coin.lt a b = true ↔
      a.type.toList < b.type.toList ∨ (a.type = b.type ∧
        (a.year < b.year ∨ (a.year = b.year ∧ a.grade < b.grade)))) ∧
    (∀ a b : Coin, Coin.lt a b = true ↔ Coin.key a < Coin.key b) ∧
    (∀ a : Coin, Coin.lt a a = false) ∧
    (∀ a b c : Coin, Coin.lt a b = true → Coin.lt b c = true → Coin.lt a c = true) ∧
    (∀ a b : Coin, exactlyOne (Coin.lt a b) (Coin.eq a b) (Coin.lt b a) = true) := by
  refine ⟨?_, coinOps_lt_iff, coinOps_strictTotalOrder.irrefl, coinOps_strictTotalOrder.trans,
    exactlyOne_of_strictTotalOrder coinOps_strictTotalOrder⟩
  intro a b
  simp only [Coin.lt, strLt, decide_eq_true_eq]
  split_ifs <;> simp_all

/-- C28 at three coins: a 1913 dime is less than a 2001 cent of grade 65, which is less
than the 2001 cent of grade 70. -/
theorem coin_order_spec_witness :
    Coin.lt ⟨"Liberty Dime", 1913, 70⟩ ⟨"Lincoln Cent", 2001, 65⟩ = true ∧
    Coin.lt ⟨"Lincoln Cent", 2001, 65⟩ ⟨"Lincoln Cent", 2001, 70⟩ = true ∧
    Coin.lt ⟨"Liberty Dime", 1913, 70⟩ ⟨"Lincoln Cent", 2001, 70⟩ = true :=
  ⟨by decide, by decide,
    coin_order_spec.2.2.2.1 ⟨"Liberty Dime", 1913, 70⟩ ⟨"Lincoln Cent", 2001, 65⟩
      ⟨"Lincoln Cent", 2001, 70⟩ (by decide) (by decide)⟩

/-- C29: `Comic::operator<` is the lexicographic order on (publisher, title, year, grade),
the publisher, the title and the grade compared as strings and the year as an integer; it
is irreflexive and transitive, and of `a < b`, `a == b` and `b < a` exactly one holds for
every two comics. -/
theorem comic_order_spec :
    (∀ a b : Comic, Comic.lt a b = true ↔
      a.publisher.toList < b.publisher.toList ∨ (a.publisher = b.publisher ∧
        (a.title.toList < b.title.toList ∨ (a.title = b.title ∧
          (a.year < b.year ∨ (a.year = b.year ∧ a.grade.toList < b.grade.toList)))))) ∧
    (∀ a b : Comic, Comic.lt a b = true ↔ Comic.key a < Comic.key b) ∧
    (∀ a : Comic, Comic.lt a a = false) ∧
    (∀ a b c : Comic, Comic.lt a b = true → Comic.lt b c = true → Comic.lt a c = true) ∧
    (∀ a b : Comic, exactlyOne (Comic.lt a b) (Comic.eq a b) (Comic.lt b a) = true) := by
  refine ⟨?_, comicOps_lt_iff, comicOps_strictTotalOrder.irrefl,
    comicOps_strictTotalOrder.trans, exactlyOne_of_strictTotalOrder comicOps_strictTotalOrder⟩
  intro a b
  simp only [Comic.lt, strLt, decide_eq_true_eq]
  split_ifs <;> simp_all

/-- C29 at three comics, which differ in the publisher and then in the grade. -/
theorem comic_order_spec_witness :
    Comic.lt ⟨"DC", "Superman", 1938, "Mint"⟩ ⟨"Marvel", "X-Men", 1963, "Good"⟩ = true ∧
    Comic.lt ⟨"Marvel", "X-Men", 1963, "Good"⟩ ⟨"Marvel", "X-Men", 1963, "Mint"⟩ = true ∧
    Comic.lt ⟨"DC", "Superman", 1938, "Mint"⟩ ⟨"Marvel", "X-Men", 1963, "Mint"⟩ = true :=
  ⟨by decide, by decide,
    comic_order_spec.2.2.2.1 ⟨"DC", "Superman", 1938, "Mint"⟩ ⟨"Marvel", "X-Men", 1963, "Good"⟩
      ⟨"Marvel", "X-Men", 1963, "Mint"⟩ (by decide) (by decide)⟩

/-- C30: `SportsCard::operator<` is the lexicographic order on (player, year, manufacturer,
grade), the player, the manufacturer and the grade compared as strings and the year as an
integer; it is irreflexive and transitive, and of `a < b`, `a == b` and `b < a` exactly one
holds for every two cards. -/
theorem sportsCard_order_spec :
    (∀ a b : SportsCard, SportsCard.lt a b = true ↔
      a.player.toList < b.player.toList ∨ (a.player = b.player ∧
        (a.year < b.year ∨ (a.year = b.year ∧
          (a.manufacturer.toList < b.manufacturer.toList ∨
            (a.manufacturer = b.manufacturer ∧ a.grade.toList < b.grade.toList)))))) ∧
    (∀ a b : SportsCard, SportsCard.lt a b = true ↔ SportsCard.key a < SportsCard.key b) ∧
    (∀ a : SportsCard, SportsCard.lt a a = false) ∧
    (∀ a b c : SportsCard, SportsCard.lt a b = true → SportsCard.lt b c = true →
      SportsCard.lt a c = true) ∧
    (∀ a b : SportsCard,
      exactlyOne (SportsCard.lt a b) (SportsCard.eq a b) (SportsCard.lt b a) = true) := by
  refine ⟨?_, sportsCardOps_lt_iff, sportsCardOps_strictTotalOrder.irrefl,
    sportsCardOps_strictTotalOrder.trans,
    exactlyOne_of_strictTotalOrder sportsCardOps_strictTotalOrder⟩
  intro a b
  simp only [SportsCard.lt, strLt, decide_eq_true_eq]
  split_ifs <;> simp_all

/-- C30 at three cards, which differ in the player and then in the manufacturer. -/
theorem sportsCard_order_spec_witness :
    SportsCard.lt ⟨"Babe Ruth", 1933, "Goudey", "Good"⟩ ⟨"Ken Griffey", 1989, "Topps", "Mint"⟩
      = true ∧
    SportsCard.lt ⟨"Ken Griffey", 1989, "Topps", "Mint"⟩
      ⟨"Ken Griffey", 1989, "Upper Deck", "Mint"⟩ = true ∧
    SportsCard.lt ⟨"Babe Ruth", 1933, "Goudey", "Good"⟩
      ⟨"Ken Griffey", 1989, "Upper Deck", "Mint"⟩ = true :=
  ⟨by decide, by decide,
    sportsCard_order_spec.2.2.2.1 ⟨"Babe Ruth", 1933, "Goudey", "Good"⟩
      ⟨"Ken Griffey", 1989, "Topps", "Mint"⟩ ⟨"Ken Griffey", 1989, "Upper Deck", "Mint"⟩
      (by decide) (by decide)⟩

/-! ## Commands that change nothing, and the log of a customer -/

/-- The search for a key that no node holds ends at `nullptr`. -/
theorem findNode_of_not_mem {ops : Comparable α} (ho : StrictTotalOrder ops) (t : TreeNode α)
    (k : α) (h : k ∉ items t) : findNode ops t k = nil := by
  induction t with
  | nil => rfl
  | node x c l r ihl ihr =>
    rw [items_node] at h
    simp only [List.mem_append, List.mem_cons, not_or] at h
    obtain ⟨hl, hx, hr⟩ := h
    have hne : ops.eq k x = false := by
      cases he : ops.eq k x with
      | false => rfl
      | true => exact absurd ((ho.eq_true_iff k x).1 he) hx
    simp only [findNode, hne, Bool.false_eq_true, if_false]
    split_ifs
    · exact ihl hl
    · exact ihr hr

set_option maxRecDepth 100000 in
/-- C21: for a loaded customer, a known category symbol and valid item data naming an item
that no node of the category's tree holds, `SellItem::execute` returns false and the store
after the command is the store before it: every inventory tree, the ID table, the customer
tree and every customer with its log. -/
theorem sellItem_absent_noop (store : StoreInventory) (args : List String) (customer : Nat)
    (typeStr : String) (kind : Kind) (item : kind.Item)
    (hcust : findCustomer store args = Except.ok (some customer))
    (htype : vecAt args 1 = Except.ok typeStr)
    (hkind : CollectibleFactory.createObject (firstChar typeStr) = some kind)
    (hdata : kind.setData (args.drop 2) = Except.ok (some item))
    (habsent : item ∉ items (store.treeOf kind)) :
    SellItem.execute args store = Except.ok (false, store) := by
  obtain ⟨hneg, hslot⟩ := createObject_tree _ _ hkind
  have ho := kind_strictTotalOrder kind
  have hrem := removeHelper_absent ho _ item (findNode_of_not_mem ho _ item habsent)
  simp [SellItem.execute, hcust, htype, hkind, hneg, hslot, hdata, remove, hrem,
    setTree_treeOf]

set_option maxRecDepth 100000 in
/-- C21 at the scenario: customer 001 sells a dime, and the store stocks only a cent. -/
theorem sellItem_absent_noop_witness :
    (findCustomer scenarioStore dimeArgs = Except.ok (some 0) ∧
      vecAt dimeArgs 1 = Except.ok "M" ∧
      CollectibleFactory.createObject (firstChar "M") = some Kind.coin ∧
      Kind.coin.setData (dimeArgs.drop 2)
        = Except.ok (some (⟨"Liberty Dime", 1913, 70⟩ : Coin)) ∧
      (⟨"Liberty Dime", 1913, 70⟩ : Coin) ∉ items (scenarioStore.treeOf Kind.coin)) ∧
    SellItem.execute dimeArgs scenarioStore = Except.ok (false, scenarioStore) :=
  have habsent : (⟨"Liberty Dime", 1913, 70⟩ : Coin) ∉ items (scenarioStore.treeOf Kind.coin) := by
    decide
  ⟨⟨rfl, rfl, rfl, rfl, habsent⟩,
    sellItem_absent_noop scenarioStore dimeArgs 0 "M" Kind.coin
      (⟨"Liberty Dime", 1913, 70⟩ : Coin) rfl rfl rfl rfl habsent⟩

/-- C27: `addTransaction (action, item)` with the action `B` or `S` and an item that is not
null returns true and leaves the log that is the log before with the new transaction after
its last element, the ID and the name as they were; with another action or a null item
it returns false and leaves the customer as it was. -/
theorem addTransaction_spec (self : Customer) (action : Char)
    (collectItem : Option Collectible) :
    (∀ item, action = Char.ofNat 66 ∨ action = Char.ofNat 83 → collectItem = some item →
      self.addTransaction action collectItem
        = (true, ⟨self.idNumber, self.name, self.transactions ++ [⟨action, item⟩]⟩)) ∧
    ((action ≠ Char.ofNat 66 ∧ action ≠ Char.ofNat 83) ∨ collectItem = none →
      self.addTransaction action collectItem = (false, self)) := by
  constructor
  · rintro item hact rfl
    have h : ¬ (action ≠ Char.ofNat 66 ∧ action ≠ Char.ofNat 83) := by
      rintro ⟨h1, h2⟩
      rcases hact with h | h
      · exact h1 h
      · exact h2 h
    simp only [Customer.addTransaction, h, if_false]
  · rintro (h | rfl)
    · unfold Customer.addTransaction
      rw [if_pos h]
    · simp only [Customer.addTransaction]
      split_ifs <;> rfl

/-- C27 at a customer with one sale in the log: a purchase is appended, and an action `X`
is refused. -/
theorem addTransaction_spec_witness :
    (Customer.addTransaction ⟨"001", "Alice Smith",
        [⟨Char.ofNat 83, Collectible.coin ⟨"Lincoln Cent", 2001, 65⟩⟩]⟩ (Char.ofNat 66)
        (some (Collectible.coin ⟨"Liberty Dime", 1913, 70⟩))
      = (true, ⟨"001", "Alice Smith",
          [⟨Char.ofNat 83, Collectible.coin ⟨"Lincoln Cent", 2001, 65⟩⟩]
            ++ [⟨Char.ofNat 66, Collectible.coin ⟨"Liberty Dime", 1913, 70⟩⟩]⟩)) ∧
    (Customer.addTransaction ⟨"001", "Alice Smith", []⟩ (Char.ofNat 88)
        (some (Collectible.coin ⟨"Liberty Dime", 1913, 70⟩))
      = (false, ⟨"001", "Alice Smith", []⟩)) :=
  ⟨(addTransaction_spec ⟨"001", "Alice Smith",
        [⟨Char.ofNat 83, Collectible.coin ⟨"Lincoln Cent", 2001, 65⟩⟩]⟩ (Char.ofNat 66)
        (some (Collectible.coin ⟨"Liberty Dime", 1913, 70⟩))).1 _ (Or.inl rfl) rfl,
    by decide⟩

/-! ## Loading records -/

set_option maxRecDepth 100000 in
/-- C22: the claim fails on the code.  For the inventory record `M, 0, 2001, 65, Lincoln
Cent` the message about the invalid count is written and the cent is inserted all the
same, with count 0; for `M, -1, 2001, 65, Lincoln Cent` and a store that holds two such
cents the message is written and the count of the cent becomes 1. -/
theorem invalid_count_still_inserted :
    buildInventoryRecord zeroCountRecord StoreInventory.new
      = Except.ok (true,
          { StoreInventory.new with coinTree := node ⟨"Lincoln Cent", 2001, 65⟩ 0 nil nil }) ∧
    buildInventoryRecord negativeCountRecord scenarioStore
      = Except.ok (true,
          { scenarioStore with coinTree := node ⟨"Lincoln Cent", 2001, 65⟩ 1 nil nil }) ∧
    buildInventoryFromFile [zeroCountRecord] StoreInventory.new
      = Except.ok (1,
          { StoreInventory.new with coinTree := node ⟨"Lincoln Cent", 2001, 65⟩ 0 nil nil }) :=
  ⟨rfl, rfl, rfl⟩

set_option maxRecDepth 100000 in
/-- C23 as stated fails: after `001, Alice Smith`, the record `001, Bob Jones` is accepted;
the entry of ID 1 then refers to the second customer and the tree has a second node. -/
theorem duplicate_id_accepted :
    addCustomerRecord ["001", "Alice Smith"] StoreInventory.new = Except.ok storeAlice ∧
    addCustomerRecord ["001", "Bob Jones"] storeAlice = Except.ok storeAliceBob ∧
    storeAlice.customerDict.get? 1 = some (some 0) ∧
    storeAliceBob.customerDict.get? 1 = some (some 1) ∧
    storeAliceBob.customerTree ≠ storeAlice.customerTree :=
  ⟨rfl, rfl, rfl, rfl, by decide⟩

/-- Through the pointer of a new customer and the pointer of a stored one the tree
compares the new customer with the stored one. -/
theorem customerPtrOps_new (customers : List Customer) (new : Customer) (p : Nat)
    (c : Customer) (hp : customers.get? p = some c) :
    (customerPtrOps (customers ++ [new])).eq customers.length p = new.eq c ∧
    (customerPtrOps (customers ++ [new])).lt customers.length p = new.lt c := by
  have hlt : p < customers.length := by
    rcases Nat.lt_or_ge p customers.length with h | h
    · exact h
    · rw [List.get?_eq_none.2 h] at hp
      exact absurd hp (by simp)
  have h1 : (customers ++ [new]).get? customers.length = some new := by simp
  have h2 : (customers ++ [new]).get? p = some c := by
    simpa [List.getElem?_append_left hlt] using hp
  simp only [customerPtrOps, h1, h2, and_self]

set_option maxRecDepth 100000 in
/-- C23, amended: a customer record with a valid ID and name is added whether or not its
numeric ID is already present in the ID table, also when a stored customer has its ID and
its name.  The entry of that ID then refers to the new customer, the other entries are as
they were, and the tree is the one that `customerTree.insert` leaves for the new customer.
When no customer of the tree has both the name and the ID string of the record, the tree
has one more node, for the new customer with count 1, and the lines of the other customers
are as they were. -/
theorem addCustomer_id_present (store : StoreInventory) (customerInfo : List String)
    (idStr nameStr : String) (v : Int)
    (hid : vecAt customerInfo 0 = Except.ok idStr)
    (hnm : vecAt customerInfo 1 = Except.ok nameStr)
    (hv : stoi idStr = Except.ok v) (h0 : 0 ≤ v) (h1 : v < 1000)
    (hname : isValidCustName nameStr = true)
    (hlen : store.customerDict.length = MAX_CUSTOMERS) :
    ∃ store', addCustomerRecord customerInfo store = Except.ok store' ∧
      store'.customers = store.customers ++ [⟨idStr, nameStr, []⟩] ∧
      store'.customerDict.get? v.toNat = some (some store.customers.length) ∧
      (∀ i, i ≠ v.toNat → store'.customerDict.get? i = store.customerDict.get? i) ∧
      store'.customerTree
        = (insert (customerPtrOps store'.customers) store.customerTree
            (some store.customers.length)).2 ∧
      (∀ kind, store'.treeOf kind = store.treeOf kind) ∧
      ((∀ p ∈ items store.customerTree, ∃ c, store.customers.get? p = some c ∧
          (c.name = nameStr → c.idNumber ≠ idStr)) →
        ∃ pre post, printHelper store.customerTree = pre ++ post ∧
          printHelper store'.customerTree = pre ++ (store.customers.length, 1) :: post) := by
  have hbound : ¬ (store.customerDict.length ≤ v.toNat) := by
    rw [hlen, MAX_CUSTOMERS]
    omega
  refine ⟨{ store with
      customers := store.customers ++ [⟨idStr, nameStr, []⟩]
      customerDict := store.customerDict.set v.toNat (some store.customers.length)
      customerTree :=
        (insert (customerPtrOps (store.customers ++ [⟨idStr, nameStr, []⟩]))
          store.customerTree (some store.customers.length)).2 }, ?_, rfl, ?_, ?_, rfl, ?_, ?_⟩
  · simp only [addCustomerRecord, hid, hnm, isValidCustID, hv, h0, h1, hname, hbound,
      decide_True, Bool.and_self, Bool.not_true, Bool.false_eq_true, if_false, ge_iff_le]
  · have hb : v.toNat < store.customerDict.length := by omega
    simp [hb]
  · intro i hi
    simp [List.getElem?_set, Ne.symm hi]
  · intro kind
    cases kind <;> rfl
  · intro hnew
    have hno : ∀ x ∈ items store.customerTree,
        (customerPtrOps (store.customers ++ [⟨idStr, nameStr, []⟩])).eq
          store.customers.length x = false := by
      intro x hx
      obtain ⟨c, hc, hdiff⟩ := hnew x hx
      rw [(customerPtrOps_new store.customers ⟨idStr, nameStr, []⟩ x c hc).1]
      cases he : Customer.eq ⟨idStr, nameStr, []⟩ c with
      | false => rfl
      | true =>
        simp only [Customer.eq, Bool.and_eq_true, decide_eq_true_eq] at he
        exact absurd he.2 (hdiff he.1)
    have hins := insert_of_no_equal
      (customerPtrOps (store.customers ++ [⟨idStr, nameStr, []⟩])) store.customerTree
      store.customers.length 1 hno
    rw [insert, insertHelper_eq_numItems]
    exact hins.2

set_option maxRecDepth 100000 in
/-- C23, amended, at the record `001, Alice Smith` for the store that holds Alice Smith
under the ID 001: the record is added and the entry of ID 1 refers to the new customer. -/
theorem addCustomer_id_present_witness :
    (vecAt ["001", "Alice Smith"] 0 = Except.ok "001" ∧
      vecAt ["001", "Alice Smith"] 1 = Except.ok "Alice Smith" ∧
      stoi "001" = Except.ok 1 ∧ (0 : Int) ≤ 1 ∧ (1 : Int) < 1000 ∧
      isValidCustName "Alice Smith" = true ∧
      storeAlice.customerDict.length = MAX_CUSTOMERS) ∧
    ∃ store', addCustomerRecord ["001", "Alice Smith"] storeAlice = Except.ok store' ∧
      store'.customers = storeAlice.customers ++ [⟨"001", "Alice Smith", []⟩] ∧
      store'.customerDict.get? (1 : Int).toNat = some (some storeAlice.customers.length) :=
  have h := addCustomer_id_present storeAlice ["001", "Alice Smith"] "001" "Alice Smith" 1
    rfl rfl rfl (by decide) (by decide) (by decide) (by simp [storeAlice, MAX_CUSTOMERS])
  ⟨⟨rfl, rfl, rfl, by decide, by decide, by decide, by simp [storeAlice, MAX_CUSTOMERS]⟩,
    h.elim fun s hs => ⟨s, hs.1, hs.2.1, hs.2.2.1⟩⟩

set_option maxRecDepth 100000 in
/-- C24: the claim fails on the code.  When the record `001, Alice Smith` is loaded twice,
the ID table refers to the second `Customer` object and the tree holds only the first,
with count 2.  A purchase of customer 001 is then logged in the second object, and the
history report shows the customer of the tree with no transaction. -/
theorem duplicate_record_splits_customer :
    addCustomersFromFile [["001", "Alice Smith"], ["001", "Alice Smith"]] StoreInventory.new
      = Except.ok storeAliceTwice ∧
    storeAliceTwice.customerDict.get? 1 = some (some 1) ∧
    items storeAliceTwice.customerTree = [0] ∧
    ∃ s, BuyItem.execute scenarioArgs storeAliceTwice = Except.ok (true, s) ∧
      s.customers = [⟨"001", "Alice Smith", []⟩,
        ⟨"001", "Alice Smith",
          [⟨Char.ofNat 66, Collectible.coin ⟨"Lincoln Cent", 2001, 65⟩⟩]⟩] ∧
      ShowTransactHistory.execute [] s
        = Except.ok (true, s, [Line.text "Transaction History: ",
            Line.customer "001" "Alice Smith", Line.text "Transactions:", Line.text "none",
            Line.text ""]) :=
  ⟨rfl, rfl, rfl, _, rfl, rfl, rfl⟩

/-! ## Reports -/

/-- C25: `DisplayInventory` writes the lines of the coin tree, then those of the comic
tree, then those of the sports-card tree.  When the trees satisfy the BST invariant, the
lines of each tree are in ascending order of that category's `operator<`, so that no item
has two lines, and an item has a line with a count exactly when the tree contains it with
that count. -/
theorem displayInventory_spec (args : List String) (store : StoreInventory)
    (hb : ∀ kind, isBST kind.ops (store.treeOf kind) = true) :
    DisplayInventory.execute args store
      = Except.ok (true, store, Line.text "Inventory: " ::
          (printInventoryLines Kind.coin store.coinTree
            ++ printInventoryLines Kind.comic store.comicTree
            ++ printInventoryLines Kind.sportsCard store.sportsCardTree
            ++ [Line.text ""])) ∧
    ∀ kind,
      printInventoryLines kind (store.treeOf kind)
        = (printHelper (store.treeOf kind)).map
            (fun p => Line.itemCount (kind.toCollectible p.1) p.2) ∧
      (printHelper (store.treeOf kind)).Pairwise (fun p q => kind.ops.lt p.1 q.1 = true) ∧
      (items (store.treeOf kind)).Nodup ∧
      ∀ item count, (item, count) ∈ printHelper (store.treeOf kind) ↔
        itemCountOf kind.ops (store.treeOf kind) item = some count := by
  have hrun : DisplayInventory.execute args store
      = Except.ok (true, store, Line.text "Inventory: " ::
          ((printInventoryLines Kind.coin store.coinTree
            ++ (printInventoryLines Kind.comic store.comicTree
              ++ (printInventoryLines Kind.sportsCard store.sportsCardTree ++ [])))
            ++ [Line.text ""])) := rfl
  rw [List.append_nil, ← List.append_assoc] at hrun
  refine ⟨hrun, fun kind => ⟨rfl, pairwise_lines (kind_strictTotalOrder kind) _ (hb kind), ?_,
    fun item count => (itemCountOf_iff_mem (kind_strictTotalOrder kind) _ (hb kind) item
      count).symm⟩⟩
  have hp := (isBST_iff_pairwise (kind_strictTotalOrder kind) (store.treeOf kind)).1 (hb kind)
  refine hp.imp ?_
  intro a b hab heq
  subst heq
  rw [(kind_strictTotalOrder kind).irrefl a] at hab
  exact absurd hab (by decide)

set_option maxRecDepth 100000 in
/-- C25 at the store of the scenario, which stocks two cents. -/
theorem displayInventory_spec_witness :
    (∀ kind, isBST kind.ops (scenarioStore.treeOf kind) = true) ∧
    DisplayInventory.execute [] scenarioStore
      = Except.ok (true, scenarioStore, [Line.text "Inventory: ",
          Line.itemCount (Collectible.coin ⟨"Lincoln Cent", 2001, 65⟩) 2, Line.text ""]) :=
  have hb : ∀ kind, isBST kind.ops (scenarioStore.treeOf kind) = true := by
    intro kind
    cases kind <;> decide
  ⟨hb, (displayInventory_spec [] scenarioStore hb).1⟩

/-- An insertion keeps the tree in name order. -/
theorem nameOrdered_insert (ops : Comparable α) (t : TreeNode α) (k : α) (n : Int)
    (h : nameOrdered ops t = true) :
    nameOrdered ops (insertHelper_numItems ops t (some k) n).2 = true := by
  induction t with
  | nil => simp [insertHelper_numItems, nameOrdered, allItems]
  | node x c l r ihl ihr =>
    simp only [nameOrdered, Bool.and_eq_true] at h
    obtain ⟨⟨⟨hl, hr⟩, ol⟩, or_⟩ := h
    simp only [insertHelper_numItems]
    split_ifs with h1 h2
    · simp only [nameOrdered, Bool.and_eq_true]
      exact ⟨⟨⟨allItems_insert ops _ l k n hl h1, hr⟩, ihl ol⟩, or_⟩
    · simp only [nameOrdered, Bool.and_eq_true]
      exact ⟨⟨⟨hl, hr⟩, ol⟩, or_⟩
    · simp only [nameOrdered, Bool.and_eq_true]
      refine ⟨⟨⟨hl, allItems_insert ops _ r k n hr ?_⟩, ol⟩, ihr or_⟩
      simpa using h1

/-- Whether a tree is in name order depends only on the comparisons of its items. -/
theorem nameOrdered_congr (ops ops' : Comparable α) (t : TreeNode α)
    (h : ∀ x ∈ items t, ∀ y ∈ items t, ops.lt x y = ops'.lt x y)
    (ht : nameOrdered ops t = true) : nameOrdered ops' t = true := by
  induction t with
  | nil => rfl
  | node x c l r ihl ihr =>
    simp only [nameOrdered, Bool.and_eq_true] at ht ⊢
    obtain ⟨⟨⟨hl, hr⟩, ol⟩, or_⟩ := ht
    have hx : x ∈ items (node x c l r) := by simp [items_node]
    have hml : ∀ y ∈ items l, y ∈ items (node x c l r) := fun y hy => by simp [items_node, hy]
    have hmr : ∀ y ∈ items r, y ∈ items (node x c l r) := fun y hy => by simp [items_node, hy]
    refine ⟨⟨⟨?_, ?_⟩, ihl (fun a ha b hb => h a (hml a ha) b (hml b hb)) ol⟩,
      ihr (fun a ha b hb => h a (hmr a ha) b (hmr b hb)) or_⟩
    · rw [allItems_iff] at hl ⊢
      intro y hy
      rw [← h y (hml y hy) x hx]
      exact hl y hy
    · rw [allItems_iff] at hr ⊢
      intro y hy
      rw [← h y (hmr y hy) x hx]
      exact hr y hy

/-- The traversal of a tree in name order is ascending in the names: no item has a smaller
name than an item before it. -/
theorem pairwise_of_nameOrdered (ops : Comparable α) (f : α → String) (t : TreeNode α)
    (hlt : ∀ x ∈ items t, ∀ y ∈ items t, ops.lt x y = strLt (f x) (f y))
    (h : nameOrdered ops t = true) :
    (items t).Pairwise (fun a b => strLt (f b) (f a) = false) := by
  induction t with
  | nil => simp [items_nil]
  | node x c l r ihl ihr =>
    simp only [nameOrdered, Bool.and_eq_true] at h
    obtain ⟨⟨⟨hl, hr⟩, ol⟩, or_⟩ := h
    have hx : x ∈ items (node x c l r) := by simp [items_node]
    have hml : ∀ y ∈ items l, y ∈ items (node x c l r) := fun y hy => by simp [items_node, hy]
    have hmr : ∀ y ∈ items r, y ∈ items (node x c l r) := fun y hy => by simp [items_node, hy]
    have left : ∀ a ∈ items l, strLt (f a) (f x) = true := by
      intro a ha
      rw [← hlt a (hml a ha) x hx]
      exact (allItems_iff _ l).1 hl a ha
    have right : ∀ b ∈ items r, strLt (f b) (f x) = false := by
      intro b hb
      rw [← hlt b (hmr b hb) x hx]
      simpa using (allItems_iff _ r).1 hr b hb
    rw [items_node, List.pairwise_append]
    refine ⟨ihl (fun a ha b hb => hlt a (hml a ha) b (hml b hb)) ol, ?_, ?_⟩
    · rw [List.pairwise_cons]
      exact ⟨right, ihr (fun a ha b hb => hlt a (hmr a ha) b (hmr b hb)) or_⟩
    · intro a ha b hb
      rcases List.mem_cons.1 hb with rfl | hb
      · exact strLt_asymm (left a ha)
      · cases hba : strLt (f b) (f a) with
        | false => rfl
        | true =>
          have := strLt_trans hba (left a ha)
          rw [right b hb] at this
          exact absurd this (by decide)

/-- The customers of a list of pointers to customers are printed one after the other. -/
theorem printCustomers_of_valid (customers : List Customer) (ps : List Nat)
    (h : ∀ p ∈ ps, p < customers.length) :
    ∃ custs : List Customer, ps.map customers.get? = custs.map some ∧
      printCustomers customers ps = Except.ok (custs.map Customer.print).flatten := by
  induction ps with
  | nil => exact ⟨[], rfl, rfl⟩
  | cons p ps ih =>
    obtain ⟨custs, h1, h2⟩ := ih (fun q hq => h q (List.mem_cons_of_mem _ hq))
    have hp : p < customers.length := h p (List.mem_cons_self _ _)
    have hget : customers.get? p = some (customers.get ⟨p, hp⟩) := List.get?_eq_get hp
    refine ⟨customers.get ⟨p, hp⟩ :: custs, ?_, ?_⟩
    · simp only [List.map_cons, h1, hget]
    · simp only [printCustomers, hget, h2, List.map_cons, List.flatten_cons]

/-- The comparisons of two pointers to customers of the store are not changed by a new
`Customer` object. -/
theorem customerPtrOps_append (customers : List Customer) (new : Customer) (x y : Nat)
    (hx : x < customers.length) (hy : y < customers.length) :
    (customerPtrOps customers).lt x y = (customerPtrOps (customers ++ [new])).lt x y := by
  have h1 : (customers ++ [new]).get? x = customers.get? x := by
    simp [List.getElem?_append_left hx]
  have h2 : (customers ++ [new]).get? y = customers.get? y := by
    simp [List.getElem?_append_left hy]
  simp only [customerPtrOps, h1, h2]

/-- Loading a customer record leaves the customer tree well formed. -/
theorem customerTreeOrdered_addCustomerRecord (customerInfo : List String)
    (store store' : StoreInventory) (hinv : customerTreeOrdered store = true)
    (h : addCustomerRecord customerInfo store = Except.ok store') :
    customerTreeOrdered store' = true := by
  simp only [customerTreeOrdered, Bool.and_eq_true] at hinv
  obtain ⟨hptr, hord⟩ := hinv
  have hvalid : ∀ p ∈ items store.customerTree, p < store.customers.length := by
    intro p hp
    simpa using (allItems_iff _ _).1 hptr p hp
  have key : ∀ new : Customer,
      customerTreeOrdered { store with
        customers := store.customers ++ [new]
        customerTree := (insert (customerPtrOps (store.customers ++ [new]))
          store.customerTree (some store.customers.length)).2 } = true := by
    intro new
    simp only [customerTreeOrdered, Bool.and_eq_true, insert, insertHelper_eq_numItems]
    constructor
    · refine allItems_insert _ _ _ _ _ (allItems_imp _ _ _ ?_ hptr) (by simp)
      intro y hy
      simp only [decide_eq_true_eq, List.length_append, List.length_singleton] at hy ⊢
      omega
    · refine nameOrdered_insert _ _ _ _ (nameOrdered_congr _ _ _ ?_ hord)
      intro x hx y hy
      exact customerPtrOps_append store.customers new x y (hvalid x hx) (hvalid y hy)
  unfold addCustomerRecord at h
  split at h
  · exact absurd h (by simp)
  · split at h
    · exact absurd h (by simp)
    · split at h
      · exact absurd h (by simp)
      · simp only [Except.ok.injEq] at h
        subst h
        simp only [customerTreeOrdered, Bool.and_eq_true]
        exact ⟨hptr, hord⟩
    · split at h
      · exact absurd h (by simp)
      · split at h
        · simp only [Except.ok.injEq] at h
          subst h
          simp only [customerTreeOrdered, Bool.and_eq_true]
          exact ⟨hptr, hord⟩
        · split at h
          · exact absurd h (by simp)
          · split at h
            · exact absurd h (by simp)
            · simp only [Except.ok.injEq] at h
              subst h
              exact key _

/-- Loading the records of a customer file leaves the customer tree well formed. -/
theorem customerTreeOrdered_addCustomersFromFile (records : List (List String)) :
    ∀ store store' : StoreInventory, customerTreeOrdered store = true →
      addCustomersFromFile records store = Except.ok store' →
      customerTreeOrdered store' = true := by
  induction records with
  | nil =>
    intro store store' hinv h
    simp only [addCustomersFromFile, Except.ok.injEq] at h
    subst h
    exact hinv
  | cons r rest ih =>
    intro store store' hinv h
    simp only [addCustomersFromFile] at h
    split at h
    · exact absurd h (by simp)
    · rename_i s1 h1
      exact ih s1 store' (customerTreeOrdered_addCustomerRecord r store s1 hinv h1) h

theorem SameDirectory.refl (s : StoreInventory) : SameDirectory s s :=
  ⟨rfl, rfl, fun _ => rfl⟩

theorem sameDirectory_setTree (s : StoreInventory) (kind : Kind) (t : TreeNode kind.Item) :
    SameDirectory s (s.setTree kind t) := by
  cases kind <;> exact ⟨rfl, rfl, fun _ => rfl⟩

theorem sameDirectory_addTransaction (s s' : StoreInventory) (customer : Nat) (action : Char)
    (item : Collectible) (h : s.addTransaction customer action item = Except.ok s') :
    SameDirectory s s' := by
  unfold StoreInventory.addTransaction at h
  split at h
  · exact absurd h (by simp)
  · rename_i c hc
    simp only [Except.ok.injEq] at h
    subst h
    refine ⟨rfl, by simp, fun a => ?_⟩
    have hkey : ((c.addTransaction action (some item)).2.idNumber,
        (c.addTransaction action (some item)).2.name) = (c.idNumber, c.name) := by
      unfold Customer.addTransaction
      split_ifs <;> rfl
    have hc' : s.customers[customer]? = some c := by simpa using hc
    by_cases hca : customer = a
    · subst hca
      have hlt : customer < s.customers.length := by
        rcases Nat.lt_or_ge customer s.customers.length with h | h
        · exact h
        · rw [List.getElem?_eq_none h] at hc'
          exact absurd hc' (by simp)
      simp [List.getElem?_set, hlt, hc', hkey]
    · simp [List.getElem?_set, hca]

theorem SameDirectory.trans {s1 s2 s3 : StoreInventory} (h12 : SameDirectory s1 s2)
    (h23 : SameDirectory s2 s3) : SameDirectory s1 s3 :=
  ⟨h23.1.trans h12.1, h23.2.1.trans h12.2.1, fun a => (h23.2.2 a).trans (h12.2.2 a)⟩

/-- Whether the customer tree is well formed depends only on the tree and on the IDs and
names of the customers. -/
theorem customerTreeOrdered_of_sameDirectory (s s' : StoreInventory) (h : SameDirectory s s')
    (hinv : customerTreeOrdered s = true) : customerTreeOrdered s' = true := by
  obtain ⟨ht, hlen, hkey⟩ := h
  have hops : customerPtrOps s'.customers = customerPtrOps s.customers := by
    have hopt : ∀ (f : Customer → Customer → Bool),
        (∀ x y x' y', (x.idNumber, x.name) = (x'.idNumber, x'.name) →
          (y.idNumber, y.name) = (y'.idNumber, y'.name) → f x y = f x' y') →
        ∀ oa oa' ob ob' : Option Customer,
        oa'.map (fun c => (c.idNumber, c.name)) = oa.map (fun c => (c.idNumber, c.name)) →
        ob'.map (fun c => (c.idNumber, c.name)) = ob.map (fun c => (c.idNumber, c.name)) →
        (match oa', ob' with
          | some x, some y => f x y
          | _, _ => false)
        = (match oa, ob with
          | some x, some y => f x y
          | _, _ => false) := by
      intro f hf oa oa' ob ob' ha hb
      cases oa <;> cases oa' <;> cases ob <;> cases ob' <;>
        first
        | rfl
        | (simp at ha; done)
        | (simp at hb; done)
        | exact hf _ _ _ _ (Option.some.inj ha) (Option.some.inj hb)
    have hcase : ∀ a b (f : Customer → Customer → Bool),
        (∀ x y x' y', (x.idNumber, x.name) = (x'.idNumber, x'.name) →
          (y.idNumber, y.name) = (y'.idNumber, y'.name) → f x y = f x' y') →
        (match s'.customers.get? a, s'.customers.get? b with
          | some x, some y => f x y
          | _, _ => false)
        = (match s.customers.get? a, s.customers.get? b with
          | some x, some y => f x y
          | _, _ => false) :=
      fun a b f hf => hopt f hf _ _ _ _ (hkey a) (hkey b)
    unfold customerPtrOps
    congr 1
    · funext a b
      refine hcase a b _ ?_
      intro x y x' y' hx hy
      simp only [Prod.mk.injEq] at hx hy
      simp [Customer.eq, hx.1, hx.2, hy.1, hy.2]
    · funext a b
      refine hcase a b _ ?_
      intro x y x' y' hx hy
      simp only [Prod.mk.injEq] at hx hy
      simp [Customer.lt, hx.2, hy.2]
  simp only [customerTreeOrdered, ht, hlen, hops] at hinv ⊢
  exact hinv

/-- A sale changes neither the customer tree nor the ID or the name of a customer. -/
theorem sameDirectory_sellItem (args : List String) (s s' : StoreInventory) (b : Bool)
    (h : SellItem.execute args s = Except.ok (b, s')) : SameDirectory s s' := by
  unfold SellItem.execute at h
  repeat' split at h
  all_goals
    cases h <;> first
      | exact SameDirectory.refl _
      | exact sameDirectory_setTree _ _ _
      | exact (sameDirectory_setTree _ _ _).trans
          (sameDirectory_addTransaction _ _ _ _ _ (by assumption))

/-- A purchase changes neither the customer tree nor the ID or the name of a customer. -/
theorem sameDirectory_buyItem (args : List String) (s s' : StoreInventory) (b : Bool)
    (h : BuyItem.execute args s = Except.ok (b, s')) : SameDirectory s s' := by
  unfold BuyItem.execute at h
  repeat' split at h
  all_goals
    cases h <;> first
      | exact SameDirectory.refl _
      | exact sameDirectory_setTree _ _ _
      | exact (sameDirectory_setTree _ _ _).trans
          (sameDirectory_addTransaction _ _ _ _ _ (by assumption))

theorem mem_items_iff_nodeAt (t : TreeNode α) (x : α) :
    x ∈ items t ↔ ∃ p c, nodeAt t p = some (x, c) := by
  induction t with
  | nil => simp [items_nil, nodeAt_nil]
  | node y d l r ihl ihr =>
    rw [items_node, List.mem_append, List.mem_cons, ihl, ihr]
    constructor
    · rintro (⟨p, c, h⟩ | rfl | ⟨p, c, h⟩)
      · exact ⟨false :: p, c, h⟩
      · exact ⟨[], d, rfl⟩
      · exact ⟨true :: p, c, h⟩
    · rintro ⟨p, c, h⟩
      cases p with
      | nil =>
        simp only [nodeAt, Option.some.injEq, Prod.mk.injEq] at h
        exact Or.inr (Or.inl h.1.symm)
      | cons b p =>
        cases b with
        | false => exact Or.inl ⟨p, c, h⟩
        | true => exact Or.inr (Or.inr ⟨p, c, h⟩)

theorem length_items_eq_size (t : TreeNode α) : (items t).length = size t := by
  induction t with
  | nil => rfl
  | node y d l r ihl ihr =>
    rw [items_node, List.length_append, List.length_cons, ihl, ihr, size]
    omega

/-- C26: when the customer tree is well formed (its pointers lead to customers of the store
and it is in name order), the history report writes its title and then, for the customers
of the tree in the order of their nodes, which is ascending in the names, the line of the
customer, the line `Transactions:`, the transactions of the log from the first to the
last, each on a line with its action character, or the line `none` when the log is empty,
and an empty line.  The customer tree of the new store is well formed, and it stays well
formed when customer records are loaded and when sales and purchases are executed.  The
customers visited are those of the nodes of the tree: a pointer is visited exactly when a
node at some position of the tree, in a left or a right subtree, holds it, there are as
many visits as the tree has nodes, and the lines of the customer of every node are part
of the report. -/
theorem showTransactHistory_spec (args : List String) (store : StoreInventory)
    (hinv : customerTreeOrdered store = true) :
    (printWithoutCounts store.customerTree).map store.customers.get?
      = ((printWithoutCounts store.customerTree).filterMap store.customers.get?).map some ∧
    ShowTransactHistory.execute args store
      = Except.ok (true, store, Line.text "Transaction History: " ::
          (((printWithoutCounts store.customerTree).filterMap store.customers.get?).map
            Customer.print).flatten) ∧
    ((printWithoutCounts store.customerTree).filterMap store.customers.get?).Pairwise
      (fun a b => strLt b.name a.name = false) ∧
    (∀ c : Customer, c.print
      = Line.customer c.idNumber c.name :: Line.text "Transactions:" ::
          ((if c.transactions = [] then [Line.text "none"]
            else c.transactions.map (fun t => Line.transaction t.action t.item))
            ++ [Line.text ""])) ∧
    customerTreeOrdered StoreInventory.new = true ∧
    (∀ records s s', customerTreeOrdered s = true →
      addCustomersFromFile records s = Except.ok s' → customerTreeOrdered s' = true) ∧
    (∀ args' s b s', customerTreeOrdered s = true →
      SellItem.execute args' s = Except.ok (b, s') → customerTreeOrdered s' = true) ∧
    (∀ args' s b s', customerTreeOrdered s = true →
      BuyItem.execute args' s = Except.ok (b, s') → customerTreeOrdered s' = true) ∧
    (∀ ptr, ptr ∈ printWithoutCounts store.customerTree
      ↔ ∃ p c, nodeAt store.customerTree p = some (ptr, c)) ∧
    (printWithoutCounts store.customerTree).length = size store.customerTree ∧
    (∀ p ptr n, nodeAt store.customerTree p = some (ptr, n) →
      ∃ c pre post, store.customers.get? ptr = some c ∧
        ShowTransactHistory.execute args store
          = Except.ok (true, store,
              Line.text "Transaction History: " :: (pre ++ c.print ++ post))) := by
  simp only [customerTreeOrdered, Bool.and_eq_true] at hinv
  obtain ⟨hptr, hord⟩ := hinv
  have hvalid : ∀ p ∈ items store.customerTree, p < store.customers.length := by
    intro p hp
    simpa using (allItems_iff _ _).1 hptr p hp
  have hpr : printWithoutCounts store.customerTree = items store.customerTree :=
    printWithoutCountsHelper_eq _
  obtain ⟨custs, h1, h2⟩ := printCustomers_of_valid store.customers
    (items store.customerTree) hvalid
  have hc : (items store.customerTree).filterMap store.customers.get? = custs := by
    have := congrArg (List.filterMap id) h1
    simpa [List.filterMap_map] using this
  rw [hpr, hc]
  have hexec : ShowTransactHistory.execute args store
      = Except.ok (true, store,
          Line.text "Transaction History: " :: (custs.map Customer.print).flatten) := by
    simp only [ShowTransactHistory.execute, hpr, h2]
  refine ⟨h1, hexec, ?_, ?_, rfl,
    fun records s s' hs h => customerTreeOrdered_addCustomersFromFile records s s' hs h,
    fun args' s b s' hs h =>
      customerTreeOrdered_of_sameDirectory s s' (sameDirectory_sellItem args' s s' b h) hs,
    fun args' s b s' hs h =>
      customerTreeOrdered_of_sameDirectory s s' (sameDirectory_buyItem args' s s' b h) hs,
    fun ptr => mem_items_iff_nodeAt store.customerTree ptr,
    length_items_eq_size store.customerTree, ?_⟩
  rotate_left 2
  · intro p ptr n hn
    have hmem : ptr ∈ items store.customerTree :=
      (mem_items_iff_nodeAt store.customerTree ptr).2 ⟨p, n, hn⟩
    have hin : store.customers.get? ptr ∈ custs.map some := by
      rw [← h1]
      exact List.mem_map_of_mem _ hmem
    obtain ⟨c, hcm, hce⟩ := List.mem_map.1 hin
    obtain ⟨a, b, hab⟩ := List.append_of_mem hcm
    refine ⟨c, (a.map Customer.print).flatten, (b.map Customer.print).flatten, hce.symm, ?_⟩
    rw [hexec, hab]
    simp [List.append_assoc]
  · have hlt : ∀ x ∈ items store.customerTree, ∀ y ∈ items store.customerTree,
        (customerPtrOps store.customers).lt x y
          = strLt (((store.customers.get? x).map Customer.name).getD "")
              (((store.customers.get? y).map Customer.name).getD "") := by
      intro x hx y hy
      have hx' := List.get?_eq_get (hvalid x hx)
      have hy' := List.get?_eq_get (hvalid y hy)
      simp only [customerPtrOps, hx', hy', Customer.lt, Option.map_some', Option.getD_some]
    have hp := pairwise_of_nameOrdered (customerPtrOps store.customers)
      (fun p => ((store.customers.get? p).map Customer.name).getD "") store.customerTree
      hlt hord
    have hp' : ((items store.customerTree).map store.customers.get?).Pairwise
        (fun x y => strLt ((y.map Customer.name).getD "") ((x.map Customer.name).getD "")
          = false) := by
      rw [List.pairwise_map]
      exact hp
    rw [h1, List.pairwise_map] at hp'
    exact hp'
  · intro c
    simp only [Customer.print, Customer.insertTransactions, List.length_eq_zero,
      List.cons_append]

set_option maxRecDepth 100000 in
/-- C26 at a store with Bob Jones at the root of the customer tree, Alice Smith, who has
sold a cent and bought a dime, as its left child and Carol White as its right child: the
three customers are reported, in the order of their names. -/
theorem showTransactHistory_spec_witness :
    customerTreeOrdered storeBobAliceCarol = true ∧
    ShowTransactHistory.execute [] storeBobAliceCarol
      = Except.ok (true, storeBobAliceCarol, [Line.text "Transaction History: ",
          Line.customer "001" "Alice Smith", Line.text "Transactions:",
          Line.transaction (Char.ofNat 83) (Collectible.coin ⟨"Lincoln Cent", 2001, 65⟩),
          Line.transaction (Char.ofNat 66) (Collectible.coin ⟨"Liberty Dime", 1913, 70⟩),
          Line.text "",
          Line.customer "002" "Bob Jones", Line.text "Transactions:", Line.text "none",
          Line.text "",
          Line.customer "003" "Carol White", Line.text "Transactions:", Line.text "none",
          Line.text ""]) :=
  have hinv : customerTreeOrdered storeBobAliceCarol = true := by decide
  ⟨hinv, (showTransactHistory_spec [] storeBobAliceCarol hinv).2.1⟩

/-! ## The ID table and the customer tree -/

theorem take_two_of_vecAt (r : List String) (idStr nameStr : String)
    (h0 : vecAt r 0 = Except.ok idStr) (h1 : vecAt r 1 = Except.ok nameStr) :
    r.take 2 = [idStr, nameStr] := by
  match r with
  | [] => simp [vecAt] at h0
  | [a] => simp [vecAt] at h1
  | a :: b :: rest =>
    simp only [vecAt, List.get?_cons_zero, List.get?_cons_succ, Except.ok.injEq] at h0 h1
    simp [h0, h1]

/-- When no `Customer` object of the store has both the ID string and the name of a record,
loading the record keeps every customer of the ID table in the customer tree. -/
theorem dictInTree_addCustomerRecord (r : List String) (store store' : StoreInventory)
    (hinv : customerTreeOrdered store = true) (hd : DictInTree store)
    (hnew : ∀ c ∈ store.customers, r.take 2 ≠ [c.idNumber, c.name])
    (h : addCustomerRecord r store = Except.ok store') :
    DictInTree store' ∧
      ∀ c ∈ store'.customers, c ∈ store.customers ∨ r.take 2 = [c.idNumber, c.name] := by
  simp only [customerTreeOrdered, Bool.and_eq_true] at hinv
  obtain ⟨hptr, -⟩ := hinv
  have hvalid : ∀ p ∈ items store.customerTree, p < store.customers.length := by
    intro p hp
    simpa using (allItems_iff _ _).1 hptr p hp
  have same : DictInTree store ∧
      ∀ c ∈ store.customers, c ∈ store.customers ∨ r.take 2 = [c.idNumber, c.name] :=
    ⟨hd, fun c hc => Or.inl hc⟩
  unfold addCustomerRecord at h
  split at h
  · exact absurd h (by simp)
  · rename_i idStr hid
    split at h
    · exact absurd h (by simp)
    · split at h
      · exact absurd h (by simp)
      · simp only [Except.ok.injEq] at h
        subst h
        exact same
    · split at h
      · exact absurd h (by simp)
      · rename_i nameStr hnm
        split at h
        · simp only [Except.ok.injEq] at h
          subst h
          exact same
        · split at h
          · exact absurd h (by simp)
          · rename_i v hv
            split at h
            · exact absurd h (by simp)
            · rename_i hlen
              simp only [Except.ok.injEq] at h
              subst h
              have htake := take_two_of_vecAt r idStr nameStr hid hnm
              have hno : ∀ x ∈ items store.customerTree,
                  (customerPtrOps (store.customers ++ [⟨idStr, nameStr, []⟩])).eq
                    store.customers.length x = false := by
                intro x hx
                have hx' := List.get?_eq_get (hvalid x hx)
                rw [(customerPtrOps_new store.customers ⟨idStr, nameStr, []⟩ x _ hx').1]
                cases he : Customer.eq ⟨idStr, nameStr, []⟩
                    (store.customers.get ⟨x, hvalid x hx⟩) with
                | false => rfl
                | true =>
                  simp only [Customer.eq, Bool.and_eq_true, decide_eq_true_eq] at he
                  have := hnew _ (List.get_mem store.customers x (hvalid x hx))
                  rw [htake, he.1, he.2] at this
                  exact absurd rfl this
              obtain ⟨-, pre, post, h1, h2⟩ := insert_of_no_equal
                (customerPtrOps (store.customers ++ [⟨idStr, nameStr, []⟩]))
                store.customerTree store.customers.length 1 hno
              have hitems : ∀ p, p ∈ items store.customerTree ∨ p = store.customers.length →
                  p ∈ items (insert (customerPtrOps (store.customers ++ [⟨idStr, nameStr, []⟩]))
                    store.customerTree (some store.customers.length)).2 := by
                intro p hp
                rw [insert, insertHelper_eq_numItems]
                simp only [items, h1, h2, List.map_append, List.map_cons, List.mem_append,
                  List.mem_cons] at hp ⊢
                tauto
              refine ⟨?_, ?_⟩
              · intro i p hip
                simp only [List.get?_eq_getElem?, List.getElem?_set] at hip
                apply hitems
                split_ifs at hip with h1' h2'
                · simp only [Option.some.injEq] at hip
                  exact Or.inr hip.symm
                · exact Or.inl (hd i p (by simpa using hip))
              · intro c hc
                simp only [List.mem_append, List.mem_singleton] at hc
                rcases hc with hc | rfl
                · exact Or.inl hc
                · exact Or.inr htake

/-- When no two records of a customer file have both the same ID string and the same name,
and none has those of a `Customer` object made before, every customer that the ID table
refers to after the file is loaded is held by a node of the customer tree. -/
theorem dictInTree_addCustomersFromFile (records : List (List String)) :
    ∀ store store' : StoreInventory, customerTreeOrdered store = true → DictInTree store →
      (∀ r ∈ records, ∀ c ∈ store.customers, r.take 2 ≠ [c.idNumber, c.name]) →
      records.Pairwise (fun r r' => r.take 2 ≠ r'.take 2) →
      addCustomersFromFile records store = Except.ok store' → DictInTree store' := by
  induction records with
  | nil =>
    intro store store' _ hd _ _ h
    simp only [addCustomersFromFile, Except.ok.injEq] at h
    subst h
    exact hd
  | cons r rest ih =>
    intro store store' hinv hd hnew hpw h
    simp only [addCustomersFromFile] at h
    rw [List.pairwise_cons] at hpw
    split at h
    · exact absurd h (by simp)
    · rename_i s1 h1
      obtain ⟨hd1, hc1⟩ := dictInTree_addCustomerRecord r store s1 hinv hd
        (hnew r (List.mem_cons_self _ _)) h1
      refine ih s1 store' (customerTreeOrdered_addCustomerRecord r store s1 hinv h1) hd1 ?_
        hpw.2 h
      intro r' hr' c hc
      rcases hc1 c hc with hc | hc
      · exact hnew r' (List.mem_cons_of_mem _ hr') c hc
      · rw [← hc]
        exact fun heq => hpw.1 r' hr' heq.symm

/-- The ID table of the new store refers to no customer. -/
theorem dictInTree_new : DictInTree StoreInventory.new := by
  intro i p h
  simp only [StoreInventory.new, List.get?_eq_getElem?, List.getElem?_replicate] at h
  split_ifs at h
  exact absurd h (by simp)

/-! ## The two inserts, and the factory -/

/-- C37: for every tree and every key, also for `nullptr` in the place of the key, the
one-argument `insert (key)` returns the value and leaves the tree that `insert (key, 1)`
returns and leaves. -/
theorem insert_eq_insert_one (ops : Comparable α) (root : TreeNode α) (itemPtr : Option α) :
    insert ops root itemPtr = insert_numItems ops root itemPtr 1 := by
  rw [insert, insert_numItems, insertHelper_eq_numItems]

theorem factory_capitals : ∀ n, n < 26 →
    (CollectibleFactory.factoryVector.get? (n % 29)).join
      = if n = 12 then some Kind.coin else if n = 2 then some Kind.comic
        else if n = 18 then some Kind.sportsCard else none := by
  decide

theorem char_eq_ofNat_iff (c : Char) (n : Nat) (hn : (Char.ofNat n).toNat = n) :
    c = Char.ofNat n ↔ c.toNat = n := by
  constructor
  · rintro rfl
    exact hn
  · intro h
    rw [← Char.ofNat_toNat c, h]

/-- The objects that `createObject` makes: a `Coin` for M, a `Comic` for C, a `SportsCard`
for S and none for another character. -/
theorem createObject_eq (c : Char) :
    CollectibleFactory.createObject c
      = if c = Char.ofNat 77 then some Kind.coin
        else if c = Char.ofNat 67 then some Kind.comic
        else if c = Char.ofNat 83 then some Kind.sportsCard
        else none := by
  simp only [char_eq_ofNat_iff c 77 (by decide), char_eq_ofNat_iff c 67 (by decide),
    char_eq_ofNat_iff c 83 (by decide)]
  unfold CollectibleFactory.createObject CollectibleFactory.hash
  by_cases hr : (c.toNat < 65 || c.toNat > 90) = true
  · have h1 : c.toNat < 65 ∨ c.toNat > 90 := by simpa using hr
    have n1 : c.toNat ≠ 77 := by omega
    have n2 : c.toNat ≠ 67 := by omega
    have n3 : c.toNat ≠ 83 := by omega
    simp [hr, n1, n2, n3]
  · have h1 : 65 ≤ c.toNat ∧ c.toNat ≤ 90 := by
      simp only [Bool.or_eq_true, decide_eq_true_eq, not_or, not_lt] at hr
      omega
    have hlt : c.toNat - 65 < 26 := by omega
    have hneg : ¬ (((c.toNat - 65) % FACTORY_SIZE : Nat) : Int) < 0 := by omega
    simp only [hr, Bool.false_eq_true, if_false, hneg, Int.toNat_ofNat, FACTORY_SIZE,
      factory_capitals _ hlt]
    have e1 : c.toNat - 65 = 12 ↔ c.toNat = 77 := by omega
    have e2 : c.toNat - 65 = 2 ↔ c.toNat = 67 := by omega
    have e3 : c.toNat - 65 = 18 ↔ c.toNat = 83 := by omega
    simp only [e1, e2, e3]
    rw [if_neg]
    simpa [FACTORY_SIZE] using hneg

set_option maxRecDepth 100000 in
/-- C34: `createObject (c)` makes a `Coin` for M, a `Comic` for C, a `SportsCard` for S and
returns null for every other character; the hash sends two different capital letters to
two different indices and every other character to -1.  An inventory record with another
symbol leaves the store as it was, and a buy or sell command with another symbol returns
false and leaves the store as it was. -/
theorem createObject_spec :
    (∀ c, CollectibleFactory.createObject c
      = if c = Char.ofNat 77 then some Kind.coin
        else if c = Char.ofNat 67 then some Kind.comic
        else if c = Char.ofNat 83 then some Kind.sportsCard
        else none) ∧
    (∀ c d : Char, 65 ≤ c.toNat → c.toNat ≤ 90 → 65 ≤ d.toNat → d.toNat ≤ 90 →
      CollectibleFactory.hash c = CollectibleFactory.hash d → c = d) ∧
    (∀ c : Char, c.toNat < 65 ∨ 90 < c.toNat → CollectibleFactory.hash c = -1) ∧
    (∀ record store res, CollectibleFactory.createObject record.itemType = none →
      buildInventoryRecord record store = Except.ok res → res.2 = store) ∧
    (∀ args store typeStr res, vecAt args 1 = Except.ok typeStr →
      CollectibleFactory.createObject (firstChar typeStr) = none →
      SellItem.execute args store = Except.ok res → res = (false, store)) ∧
    (∀ args store typeStr res, vecAt args 1 = Except.ok typeStr →
      CollectibleFactory.createObject (firstChar typeStr) = none →
      BuyItem.execute args store = Except.ok res → res = (false, store)) := by
  refine ⟨createObject_eq, ?_, ?_, ?_, ?_, ?_⟩
  · intro c d c1 c2 d1 d2 h
    have hc : (c.toNat < 65 || c.toNat > 90) = false := by simp; omega
    have hd : (d.toNat < 65 || d.toNat > 90) = false := by simp; omega
    simp only [CollectibleFactory.hash, hc, hd, Bool.false_eq_true, if_false, FACTORY_SIZE,
      Nat.cast_inj] at h
    have : c.toNat = d.toNat := by omega
    rw [← Char.ofNat_toNat c, ← Char.ofNat_toNat d, this]
  · intro c hc
    have : (c.toNat < 65 || c.toNat > 90) = true := by simp; omega
    simp only [CollectibleFactory.hash, this, if_true]
  · intro record store res hnone h
    unfold buildInventoryRecord at h
    split at h
    · cases h
    · simp only [hnone] at h
      cases h
      rfl
  · intro args store typeStr res htype hnone h
    unfold SellItem.execute at h
    split at h
    · cases h
    · cases h
      rfl
    · simp only [htype, hnone] at h
      cases h
      rfl
  · intro args store typeStr res htype hnone h
    unfold BuyItem.execute at h
    split at h
    · cases h
    · cases h
      rfl
    · simp only [htype, hnone] at h
      cases h
      rfl

set_option maxRecDepth 100000 in
/-- C34 at the symbol X: the record `X, 3, 2001, 65, Lincoln Cent` changes nothing in the
store of the scenario. -/
theorem createObject_spec_witness :
    CollectibleFactory.createObject unknownSymbolRecord.itemType = none ∧
    buildInventoryRecord unknownSymbolRecord scenarioStore = Except.ok (false, scenarioStore) ∧
    (false, scenarioStore).2 = scenarioStore :=
  ⟨rfl, rfl,
    createObject_spec.2.2.2.1 unknownSymbolRecord scenarioStore (false, scenarioStore) rfl rfl⟩

/-! ## The validation of numbers, years and IDs -/

theorem takeWhile_of_all (p : Char → Bool) (l : List Char) (h : l.all p = true) :
    l.takeWhile p = l := by
  induction l with
  | nil => rfl
  | cons a t ih =>
    simp only [List.all_cons, Bool.and_eq_true] at h
    simp only [List.takeWhile, h.1, ih h.2]

theorem not_isspace_of_isdigit (c : Char) (h : isdigit c = true) : isspace c = false := by
  simp only [isdigit, Bool.and_eq_true, decide_eq_true_eq] at h
  simp only [isspace, Bool.or_eq_false_iff, beq_eq_false_iff_ne, ne_eq, Bool.and_eq_false_iff,
    decide_eq_false_iff_not, not_le]
  omega

/-- What `stoi` returns for a string of decimal digits that is not empty: the number
written, unless it is above `INT_MAX`. -/
theorem stoi_of_digits (str : String) (hne : str.toList ≠ [])
    (hd : str.toList.all isdigit = true) :
    stoi str = if (decimalValue str.toList : Int) ≤ INT_MAX
      then Except.ok (decimalValue str.toList : Int) else Except.error Fault.out_of_range := by
  unfold stoi
  cases hl : str.toList with
  | nil => exact absurd hl hne
  | cons a t =>
    rw [hl] at hd
    have ha : isdigit a = true := by
      simp only [List.all_cons, Bool.and_eq_true] at hd
      exact hd.1
    have hsp : isspace a = false := not_isspace_of_isdigit a ha
    have hrange : 48 ≤ a.toNat ∧ a.toNat ≤ 57 := by
      simpa only [isdigit, Bool.and_eq_true, decide_eq_true_eq] using ha
    have hminus : (some a == some (Char.ofNat 45)) = false := by
      simp only [Option.some_beq_some, beq_eq_false_iff_ne, ne_eq]
      intro h
      have := congrArg Char.toNat h
      simp at this
      omega
    have hplus : (some a == some (Char.ofNat 43)) = false := by
      simp only [Option.some_beq_some, beq_eq_false_iff_ne, ne_eq]
      intro h
      have := congrArg Char.toNat h
      simp at this
      omega
    have hdrop : (a :: t).dropWhile isspace = a :: t := by
      simp only [List.dropWhile, hsp]
    have hnn : ¬ ((decimalValue (a :: t) : Int) < INT_MIN) := by
      have : (0 : Int) ≤ (decimalValue (a :: t) : Int) := Int.ofNat_nonneg _
      simp only [INT_MIN]
      omega
    simp only [hdrop, List.head?_cons, hminus, hplus, Bool.or_self, Bool.false_eq_true,
      if_false, takeWhile_of_all isdigit (a :: t) hd, List.isEmpty_cons, Bool.or_eq_true,
      decide_eq_true_eq, hnn, false_or, not_lt]
    split_ifs with h1 h2 h2
    · omega
    · rfl
    · rfl
    · omega

/-- The method `isValidCustID` returns true exactly when `stoi` reads a number from 0 to
999 at the start of the string. -/
theorem isValidCustID_eq_true_iff (str : String) :
    isValidCustID str = Except.ok true ↔ ∃ v, stoi str = Except.ok v ∧ 0 ≤ v ∧ v < 1000 := by
  unfold isValidCustID
  cases h : stoi str with
  | error e => simp
  | ok v => simp

/-- For a string of digits that is not empty and whose number fits an `int`,
`isValidCustID` returns whether the number is below 1000. -/
theorem isValidCustID_of_digits (str : String) (hne : str.toList ≠ [])
    (hd : str.toList.all isdigit = true) (hfit : (decimalValue str.toList : Int) ≤ INT_MAX) :
    isValidCustID str = Except.ok (decide (decimalValue str.toList < 1000)) := by
  unfold isValidCustID
  rw [stoi_of_digits str hne hd, if_pos hfit]
  have h0 : (0 : Int) ≤ (decimalValue str.toList : Int) := Int.ofNat_nonneg _
  simp only [ge_iff_le, h0, decide_True, Bool.true_and, Except.ok.injEq]
  congr 1
  simp only [eq_iff_iff]
  omega

theorem any_not_isdigit_of_all (str : String) (hd : str.toList.all isdigit = true) :
    str.toList.any (fun c => !isdigit c) = false := by
  rw [Bool.eq_false_iff]
  intro h
  simp only [List.any_eq_true, Bool.not_eq_true', List.all_eq_true] at h hd
  obtain ⟨c, hc, hn⟩ := h
  rw [hd c hc] at hn
  exact absurd hn (by decide)

/-- For a string with a character that is not a digit `isValidNumber` returns false. -/
theorem isValidNumber_of_nondigit (str : String)
    (h : str.toList.any (fun c => !isdigit c) = true) :
    isValidNumber str = Except.ok false := by
  simp only [isValidNumber, h, if_true]

/-- For a string of digits that is not empty and whose number fits an `int`,
`isValidNumber` returns whether the number is at least 1. -/
theorem isValidNumber_of_digits (str : String) (hne : str.toList ≠ [])
    (hd : str.toList.all isdigit = true) (hfit : (decimalValue str.toList : Int) ≤ INT_MAX) :
    isValidNumber str = Except.ok (decide (1 ≤ decimalValue str.toList)) := by
  simp only [isValidNumber, any_not_isdigit_of_all str hd, Bool.false_eq_true, if_false,
    stoi_of_digits str hne hd, if_pos hfit, Except.ok.injEq]
  by_cases h1 : 1 ≤ decimalValue str.toList
  · have : ¬ ((decimalValue str.toList : Int) < 1) := by omega
    rw [decide_eq_false this, decide_eq_true h1]
    rfl
  · have : (decimalValue str.toList : Int) < 1 := by omega
    rw [decide_eq_true this, decide_eq_false h1]
    rfl

/-- For a string of digits whose number is above `INT_MAX`, `isValidNumber` does not
return: `stoi` throws `out_of_range`. -/
theorem isValidNumber_of_large (str : String) (hne : str.toList ≠ [])
    (hd : str.toList.all isdigit = true) (hbig : INT_MAX < (decimalValue str.toList : Int)) :
    isValidNumber str = Except.error Fault.out_of_range := by
  simp only [isValidNumber, any_not_isdigit_of_all str hd, Bool.false_eq_true, if_false,
    stoi_of_digits str hne hd, if_neg (not_le.2 hbig)]

/-- For a string of digits that is not empty and whose number fits an `int`, `isValidYear`
returns whether the number is at least 1 and at most 2020. -/
theorem isValidYear_of_digits (str : String) (hne : str.toList ≠ [])
    (hd : str.toList.all isdigit = true) (hfit : (decimalValue str.toList : Int) ≤ INT_MAX) :
    isValidYear str = Except.ok (decide (1 ≤ decimalValue str.toList)
      && decide (decimalValue str.toList ≤ 2020)) := by
  unfold isValidYear
  rw [isValidNumber_of_digits str hne hd hfit]
  by_cases h1 : 1 ≤ decimalValue str.toList
  · rw [decide_eq_true h1]
    simp only [stoi_of_digits str hne hd, if_pos hfit, Bool.true_and, Except.ok.injEq,
      currYear]
    congr 1
    simp only [eq_iff_iff]
    omega
  · rw [decide_eq_false h1]
    rfl

set_option maxRecDepth 100000 in
/-- C31: the claim fails on the code.  For a string that does not start with a number, such
as `abc` or the empty string, `isValidCustID` does not return: `stoi` throws
`invalid_argument`, which nothing catches, and so do the customer loader and a sale that
are given the ID `abc`.  For `12abc` it returns true. -/
theorem isValidCustID_throws :
    isValidCustID "abc" = Except.error Fault.invalid_argument ∧
    isValidCustID "" = Except.error Fault.invalid_argument ∧
    isValidCustID "12abc" = Except.ok true ∧
    isValidCustID "-5" = Except.ok false ∧
    isValidCustID "1000" = Except.ok false ∧
    isValidCustID "999" = Except.ok true ∧
    addCustomerRecord ["abc", "Alice Smith"] StoreInventory.new
      = Except.error Fault.invalid_argument ∧
    SellItem.execute ["abc", "M", "2001", "65", "Lincoln Cent"] scenarioStore
      = Except.error Fault.invalid_argument :=
  ⟨rfl, rfl, rfl, rfl, rfl, rfl, rfl, rfl⟩

set_option maxRecDepth 100000 in
/-- C32: the claim fails on the code.  For the year `0`, and for `000`, `isValidYear`
returns false, so that an inventory record of the year 0 is not inserted; for the empty
string it does not return, `stoi` throwing `invalid_argument`.  The years 1 and 2020 are
accepted and 2021 is refused. -/
theorem isValidYear_zero_refused :
    isValidYear "0" = Except.ok false ∧
    isValidYear "000" = Except.ok false ∧
    isValidYear "" = Except.error Fault.invalid_argument ∧
    isValidYear "1" = Except.ok true ∧
    isValidYear "2020" = Except.ok true ∧
    isValidYear "2021" = Except.ok false ∧
    buildInventoryRecord ⟨Char.ofNat 77, "3", ["0", "65", "Lincoln Cent"]⟩ StoreInventory.new
      = Except.ok (false, StoreInventory.new) :=
  ⟨rfl, rfl, rfl, rfl, rfl, rfl, rfl⟩

set_option maxRecDepth 100000 in
/-- C33: the claim fails on the code.  For the empty string `isValidNumber` does not
return: `stoi` throws `invalid_argument`, which nothing catches, and so does a sale whose
year is the empty string; for a string of digits whose number is above `INT_MAX` it
throws `out_of_range`.  It returns false for `0` and for `12a` and true for `65`. -/
theorem isValidNumber_throws :
    isValidNumber "" = Except.error Fault.invalid_argument ∧
    isValidNumber "99999999999" = Except.error Fault.out_of_range ∧
    isValidNumber "0" = Except.ok false ∧
    isValidNumber "12a" = Except.ok false ∧
    isValidNumber "65" = Except.ok true ∧
    SellItem.execute ["001", "M", "", "65", "Lincoln Cent"] scenarioStore
      = Except.error Fault.invalid_argument :=
  ⟨rfl, rfl, rfl, rfl, rfl, rfl⟩

set_option maxRecDepth 100000 in
/-- C40: the claim fails on the code.  For the empty vector the three `setData` read
`data[0]`, which is outside the vector, before `validDataVector` looks at the length, and
`Coin::setData` reads `data[1]` of a vector with one element; a sale without item data
does so.  For an empty string in the place of the year, or of the grade of a coin, they do
not return, `stoi` throwing `invalid_argument`.  They return false for a vector that is
too long and for an empty string in a place that is not read as a number. -/
theorem setData_reads_outside :
    Coin.setData [] = Except.error Fault.outOfBounds ∧
    Comic.setData [] = Except.error Fault.outOfBounds ∧
    SportsCard.setData [] = Except.error Fault.outOfBounds ∧
    Coin.setData ["2001"] = Except.error Fault.outOfBounds ∧
    SellItem.execute ["001", "M"] scenarioStore = Except.error Fault.outOfBounds ∧
    Coin.setData ["", "65", "Lincoln Cent"] = Except.error Fault.invalid_argument ∧
    Coin.setData ["2001", "", "Lincoln Cent"] = Except.error Fault.invalid_argument ∧
    Comic.setData ["", "Mint", "X-Men", "Marvel"] = Except.error Fault.invalid_argument ∧
    Coin.setData ["2001", "65", "Lincoln Cent", "more"] = Except.ok none ∧
    Coin.setData ["2001", "65"] = Except.ok none ∧
    Coin.setData ["2001", "65", ""] = Except.ok none ∧
    Comic.setData ["1963", "", "X-Men", "Marvel"] = Except.ok none ∧
    Comic.setData ["1963"] = Except.ok none ∧
    SportsCard.setData ["1989", "Mint", "", "Topps"] = Except.ok none :=
  ⟨rfl, rfl, rfl, rfl, rfl, rfl, rfl, rfl, rfl, rfl, rfl, rfl, rfl, rfl⟩

/-! ## The search of `remove` and the search of `contains` -/

/-- When no key is both equal to and less than another, `removeHelper`, which tests `==`
first, and `findNode`, which tests `<` first, stop at the same node: the call returns, it
returns what `contains` returned before it, and it changes nothing when that is false. -/
theorem removeHelper_eq_contains (ops : Comparable α)
    (hexcl : ∀ a b, ops.eq a b = true → ops.lt a b = false) (t : TreeNode α) (k : α) :
    ∃ t', removeHelper ops t k = some (contains ops t k, t') ∧
      (contains ops t k = false → t' = t) := by
  induction t with
  | nil => exact ⟨nil, rfl, fun _ => rfl⟩
  | node x c l r ihl ihr =>
    by_cases h1 : ops.eq k x = true
    · have h2 := hexcl k x h1
      have hc : contains ops (node x c l r) k = true := by
        simp [contains, retrieve, findNode, h1, h2]
      rw [hc]
      by_cases hgt : c > 1
      · exact ⟨node x (c - 1) l r, by simp only [removeHelper, h1, hgt, if_true],
          fun h => absurd h (by decide)⟩
      · obtain ⟨t', h3, _⟩ := deleteNode_node x c l r
        exact ⟨t', by simp only [removeHelper, h1, hgt, if_true, if_false, h3],
          fun h => absurd h (by decide)⟩
    · simp only [Bool.not_eq_true] at h1
      by_cases h2 : ops.lt k x = true
      · obtain ⟨l', h3, h4⟩ := ihl
        have hc : contains ops (node x c l r) k = contains ops l k := by
          simp [contains, retrieve, findNode, h2]
        rw [hc]
        refine ⟨node x c l' r, ?_, fun h => by rw [h4 h]⟩
        simp only [removeHelper, h1, h2, h3, Bool.false_eq_true, if_true, if_false]
      · simp only [Bool.not_eq_true] at h2
        obtain ⟨r', h3, h4⟩ := ihr
        have hc : contains ops (node x c l r) k = contains ops r k := by
          simp [contains, retrieve, findNode, h1, h2]
        rw [hc]
        refine ⟨node x c l r', ?_, fun h => by rw [h4 h]⟩
        simp only [removeHelper, h1, h2, h3, Bool.false_eq_true, if_false]

theorem StrictTotalOrder.lt_false_of_eq {ops : Comparable α} (ho : StrictTotalOrder ops)
    (a b : α) (h : ops.eq a b = true) : ops.lt a b = false := by
  have := (ho.eq_true_iff a b).1 h
  subst this
  exact ho.irrefl a

theorem customerOps_lt_false_of_eq (a b : Customer) (h : customerOps.eq a b = true) :
    customerOps.lt a b = false := by
  simp only [customerOps, Customer.eq, Bool.and_eq_true, decide_eq_true_eq] at h
  simp only [customerOps, Customer.lt, ← h.1, strLt_irrefl]

/-- C39: for every tree, whether or not it satisfies the BST invariant, over `Coin`,
`Comic`, `SportsCard` or `Customer` keys, and every key, `remove` returns, and it returns
true exactly when `contains` was true before the call; when it returns false the tree is
as it was. -/
theorem remove_returns_contains :
    (∀ (t : TreeNode Coin) (k : Coin), ∃ t', remove coinOps t k
      = some (contains coinOps t k, t') ∧ (contains coinOps t k = false → t' = t)) ∧
    (∀ (t : TreeNode Comic) (k : Comic), ∃ t', remove comicOps t k
      = some (contains comicOps t k, t') ∧ (contains comicOps t k = false → t' = t)) ∧
    (∀ (t : TreeNode SportsCard) (k : SportsCard), ∃ t', remove sportsCardOps t k
      = some (contains sportsCardOps t k, t') ∧
        (contains sportsCardOps t k = false → t' = t)) ∧
    (∀ (t : TreeNode Customer) (k : Customer), ∃ t', remove customerOps t k
      = some (contains customerOps t k, t') ∧
        (contains customerOps t k = false → t' = t)) :=
  ⟨removeHelper_eq_contains coinOps coinOps_strictTotalOrder.lt_false_of_eq,
    removeHelper_eq_contains comicOps comicOps_strictTotalOrder.lt_false_of_eq,
    removeHelper_eq_contains sportsCardOps sportsCardOps_strictTotalOrder.lt_false_of_eq,
    removeHelper_eq_contains customerOps customerOps_lt_false_of_eq⟩

/-- C39 at a tree of two customers named Alice Smith that does not satisfy the BST
invariant: the customer of the right child is found and removed, a customer with another
ID is not. -/
theorem remove_returns_contains_witness :
    contains customerOps (node ⟨"001", "Alice Smith", []⟩ 1 nil
      (node ⟨"002", "Alice Smith", []⟩ 1 nil nil)) ⟨"003", "Alice Smith", []⟩ = false ∧
    ∃ t', remove customerOps (node ⟨"001", "Alice Smith", []⟩ 1 nil
        (node ⟨"002", "Alice Smith", []⟩ 1 nil nil)) ⟨"003", "Alice Smith", []⟩
      = some (false, t') :=
  ⟨by decide, (remove_returns_contains.2.2.2 (node ⟨"001", "Alice Smith", []⟩ 1 nil
      (node ⟨"002", "Alice Smith", []⟩ 1 nil nil)) ⟨"003", "Alice Smith", []⟩).elim
    fun t' h => ⟨t', h.1⟩⟩

/-! ## The branches that `remove` does not reach -/

theorem enteredByFindAndDeleteMostLeft_node (x : α) (c : Int) (l r : TreeNode α) :
    ∀ e ∈ enteredByFindAndDeleteMostLeft (node x c l r), e.argument ≠ nil := by
  induction l generalizing x c r with
  | nil =>
    intro e he
    simp only [enteredByFindAndDeleteMostLeft, List.mem_singleton] at he
    subst he
    simp [Entered.argument]
  | node y d ll lr ihl _ =>
    intro e he
    simp only [enteredByFindAndDeleteMostLeft, List.mem_cons] at he
    rcases he with rfl | he
    · simp [Entered.argument]
    · exact ihl y d lr e he

theorem enteredByDeleteNode_node (x : α) (c : Int) (l r : TreeNode α) :
    ∀ e ∈ enteredByDeleteNode (node x c l r), e.argument ≠ nil := by
  intro e he
  cases l with
  | nil =>
    cases r <;>
      (simp only [enteredByDeleteNode, List.mem_singleton] at he
       subst he
       simp [Entered.argument])
  | node y d ll lr =>
    cases r with
    | nil =>
      simp only [enteredByDeleteNode, List.mem_singleton] at he
      subst he
      simp [Entered.argument]
    | node z e' rl rr =>
      simp only [enteredByDeleteNode, List.mem_cons] at he
      rcases he with rfl | he
      · simp [Entered.argument]
      · exact enteredByFindAndDeleteMostLeft_node z e' rl rr e he

/-- The process exits in `findAndDeleteMostLeft` exactly when one of its calls is given
`nullptr`. -/
theorem findAndDeleteMostLeft_none_iff (t : TreeNode α) :
    findAndDeleteMostLeft t = none ↔
      ∃ e ∈ enteredByFindAndDeleteMostLeft t, e.argument = nil := by
  cases t with
  | nil =>
    constructor
    · intro _
      exact ⟨Entered.findAndDeleteMostLeft nil, by simp [enteredByFindAndDeleteMostLeft], rfl⟩
    · intro _
      rfl
  | node x c l r =>
    obtain ⟨m, mc, t', h, _⟩ := findAndDeleteMostLeft_node x c l r
    constructor
    · intro hn
      rw [h] at hn
      exact absurd hn (by simp)
    · rintro ⟨e, he, harg⟩
      exact absurd harg (enteredByFindAndDeleteMostLeft_node x c l r e he)

/-- C36: for every tree and every key, `remove` returns, so that the branch of
`findAndDeleteMostLeft` that ends the process is not reached, and every call of
`deleteNode` and of `findAndDeleteMostLeft` that it makes is given a pointer that is not
null: `deleteNode` the node found, `findAndDeleteMostLeft` the right child of a node with
two children and then left children that exist.  (The process exits in
`findAndDeleteMostLeft` exactly when one of its calls is given `nullptr`.)  In the removal of a root with two
children whose right child has a left child, three such calls are made. -/
theorem remove_reaches_no_fatal_branch (ops : Comparable α) (t : TreeNode α) (k : α) :
    (∃ res, remove ops t k = some res) ∧
    (∀ e ∈ enteredByRemoveHelper ops t k, e.argument ≠ nil) ∧
    (∀ s : TreeNode α, findAndDeleteMostLeft s = none ↔
      ∃ e ∈ enteredByFindAndDeleteMostLeft s, e.argument = nil) ∧
    enteredByRemoveHelper intOps
        (node 5 1 (node 3 1 nil nil) (node 8 1 (node 6 1 nil nil) nil)) 5
      = [Entered.deleteNode (node 5 1 (node 3 1 nil nil) (node 8 1 (node 6 1 nil nil) nil)),
          Entered.findAndDeleteMostLeft (node 8 1 (node 6 1 nil nil) nil),
          Entered.findAndDeleteMostLeft (node 6 1 nil nil)] := by
  refine ⟨?_, ?_, findAndDeleteMostLeft_none_iff, rfl⟩
  · obtain ⟨res, h, _⟩ := removeHelper_total ops t k
    exact ⟨res, h⟩
  · induction t with
    | nil =>
      intro e he
      simp [enteredByRemoveHelper] at he
    | node x c l r ihl ihr =>
      intro e he
      simp only [enteredByRemoveHelper] at he
      split_ifs at he with h1 h2 h3
      · simp at he
      · exact enteredByDeleteNode_node x c l r e he
      · exact ihl e he
      · exact ihr e he

/-! ## The removal of a node with two children -/

/-- The method `findAndDeleteMostLeft` on a tree that is not empty returns the item and the
count of the leftmost node and leaves the tree in which the right child of that node has
taken its place. -/
theorem findAndDeleteMostLeft_eq (x : α) (c : Int) (l r : TreeNode α) :
    ∃ m mc, leftmostNode (node x c l r) = some (m, mc) ∧
      findAndDeleteMostLeft (node x c l r) = some (m, mc, spliceLeftmost (node x c l r)) ∧
      printHelper (node x c l r) = (m, mc) :: printHelper (spliceLeftmost (node x c l r)) := by
  induction l generalizing x c r with
  | nil => exact ⟨x, c, rfl, rfl, by simp [printHelper, spliceLeftmost]⟩
  | node y d ll lr ihl _ =>
    obtain ⟨m, mc, h1, h2, h3⟩ := ihl y d lr
    refine ⟨m, mc, ?_, ?_, ?_⟩
    · simp only [leftmostNode, h1]
    · simp only [findAndDeleteMostLeft, h2, spliceLeftmost]
    · rw [printHelper, h3]
      simp [printHelper, spliceLeftmost]

/-- The subtree at which a search stops in a tree satisfying the invariant satisfies it. -/
theorem isBST_findNode (ops : Comparable α) (t : TreeNode α) (k : α)
    (hb : isBST ops t = true) : isBST ops (findNode ops t k) = true := by
  induction t with
  | nil => rfl
  | node x c l r ihl ihr =>
    have hb0 := hb
    simp only [isBST, Bool.and_eq_true] at hb
    obtain ⟨⟨⟨_, _⟩, bl⟩, br⟩ := hb
    simp only [findNode]
    split_ifs
    · exact ihl bl
    · exact hb0
    · exact ihr br

/-- C35: when `remove (K)` finds `K` in a node with a count of 1 (or less) and two
children, it returns true and leaves the tree in which the slot of that node holds the key
and the count of the leftmost node of the right subtree, which is the first of the
traversal of the right subtree, over the left subtree as it was and the right subtree in
which the right child of that leftmost node has taken its place; the rest of the tree is
as it was.  When the tree satisfies the BST invariant, the new key is greater than every
key of the left subtree and less than every key of the new right subtree. -/
theorem remove_two_children {ops : Comparable α} (ho : StrictTotalOrder ops) (t : TreeNode α)
    (K y : α) (c : Int) (l r : TreeNode α) (hf : findNode ops t K = node y c l r)
    (hc : c ≤ 1) (hl : l ≠ nil) (hr : r ≠ nil) :
    ∃ m mc, leftmostNode r = some (m, mc) ∧
      remove ops t K = some (true, replaceFound ops t K (node m mc l (spliceLeftmost r))) ∧
      printHelper r = (m, mc) :: printHelper (spliceLeftmost r) ∧
      (isBST ops t = true →
        allItems (fun a => ops.lt a m) l = true ∧
        allItems (fun a => ops.lt m a) (spliceLeftmost r) = true) := by
  obtain ⟨z, e, rl, rr, rfl⟩ : ∃ z e rl rr, r = node z e rl rr := by
    cases r with
    | nil => exact absurd rfl hr
    | node z e rl rr => exact ⟨z, e, rl, rr, rfl⟩
  obtain ⟨y', d, ll, lr, rfl⟩ : ∃ y' d ll lr, l = node y' d ll lr := by
    cases l with
    | nil => exact absurd rfl hl
    | node y' d ll lr => exact ⟨y', d, ll, lr, rfl⟩
  obtain ⟨m, mc, h1, h2, h3⟩ := findAndDeleteMostLeft_eq z e rl rr
  refine ⟨m, mc, h1, ?_, h3, ?_⟩
  · clear hl hr
    induction t with
    | nil => simp [findNode] at hf
    | node x c' tl tr ihl ihr =>
      simp only [findNode] at hf
      simp only [remove, removeHelper, replaceFound] at ihl ihr ⊢
      by_cases k1 : ops.lt K x = true
      · simp only [k1, if_true] at hf
        simp only [ho.eq_false_of_lt k1, k1, ihl hf, Bool.false_eq_true, if_true, if_false]
      · simp only [Bool.not_eq_true] at k1
        by_cases k2 : ops.eq K x = true
        · simp only [k1, k2, Bool.false_eq_true, if_true, if_false, node.injEq] at hf
          obtain ⟨rfl, rfl, rfl, rfl⟩ := hf
          have hgt : ¬ c' > 1 := by omega
          simp only [k1, k2, hgt, Bool.false_eq_true, if_true, if_false, deleteNode, h2]
        · simp only [Bool.not_eq_true] at k2
          simp only [k1, k2, Bool.false_eq_true, if_false] at hf
          simp only [k1, k2, ihr hf, Bool.false_eq_true, if_false]
  · intro hb
    have hsub := isBST_findNode ops t K hb
    rw [hf] at hsub
    have hnode : isBST ops (node y c (node y' d ll lr) (node z e rl rr))
        = (allItems (fun a => ops.lt a y) (node y' d ll lr)
          && allItems (fun a => ops.lt y a) (node z e rl rr)
          && isBST ops (node y' d ll lr) && isBST ops (node z e rl rr)) := rfl
    rw [hnode] at hsub
    simp only [Bool.and_eq_true] at hsub
    obtain ⟨⟨⟨hL, hR⟩, _⟩, bR⟩ := hsub
    have hm : m ∈ items (node z e rl rr) := by
      simp only [items, h3, List.map_cons, List.mem_cons, true_or]
    have hym : ops.lt y m = true := (allItems_iff _ _).1 hR m hm
    constructor
    · rw [allItems_iff] at hL ⊢
      intro a ha
      exact ho.trans a y m (hL a ha) hym
    · rw [allItems_iff]
      intro a ha
      have hp := (isBST_iff_pairwise ho (node z e rl rr)).1 bR
      simp only [items, h3, List.map_cons, List.pairwise_cons] at hp
      exact hp.1 a ha

/-- C35 at a tree of four coins: the dime at the root, which has two children, is removed;
the cent of 1999, the leftmost of the right subtree, takes its slot with its count 4, and
its right child, the cent of 2000, takes its place. -/
theorem remove_two_children_witness :
    (StrictTotalOrder coinOps ∧
      findNode coinOps fourCoins ⟨"Liberty Dime", 1913, 70⟩
        = node ⟨"Liberty Dime", 1913, 70⟩ 1 (node ⟨"Buffalo Nickel", 1920, 60⟩ 2 nil nil)
            (node ⟨"Lincoln Cent", 2001, 65⟩ 1
              (node ⟨"Lincoln Cent", 1999, 65⟩ 4 nil
                (node ⟨"Lincoln Cent", 2000, 65⟩ 1 nil nil)) nil)) ∧
    remove coinOps fourCoins ⟨"Liberty Dime", 1913, 70⟩
      = some (true, node ⟨"Lincoln Cent", 1999, 65⟩ 4
          (node ⟨"Buffalo Nickel", 1920, 60⟩ 2 nil nil)
          (node ⟨"Lincoln Cent", 2001, 65⟩ 1
            (node ⟨"Lincoln Cent", 2000, 65⟩ 1 nil nil) nil)) :=
  ⟨⟨coinOps_strictTotalOrder, by decide⟩,
    (remove_two_children coinOps_strictTotalOrder fourCoins ⟨"Liberty Dime", 1913, 70⟩
      ⟨"Liberty Dime", 1913, 70⟩ 1 (node ⟨"Buffalo Nickel", 1920, 60⟩ 2 nil nil)
      (node ⟨"Lincoln Cent", 2001, 65⟩ 1
        (node ⟨"Lincoln Cent", 1999, 65⟩ 4 nil (node ⟨"Lincoln Cent", 2000, 65⟩ 1 nil nil)) nil)
      (by decide) (by decide) (by simp) (by simp)).elim fun m h => h.elim fun mc h' => by
        have h2 := h'.2.1
        have h1 := h'.1
        simp only [leftmostNode, Option.some.injEq, Prod.mk.injEq] at h1
        obtain ⟨rfl, rfl⟩ := h1
        rw [h2]
        decide⟩

/-! ## Keys inserted in ascending order -/

/-- A key greater than every key of a chain is inserted at the end of the chain. -/
theorem insert_rightChain {ops : Comparable α} (ho : StrictTotalOrder ops) (pre : List α)
    (k : α) (h : ∀ p ∈ pre, ops.lt p k = true) :
    (insert ops (rightChain pre) (some k)).2 = rightChain (pre ++ [k]) := by
  rw [insert, insertHelper_eq_numItems]
  induction pre with
  | nil => rfl
  | cons p ps ih =>
    have hp : ops.lt p k = true := h p (List.mem_cons_self _ _)
    have ih' := ih (fun q hq => h q (List.mem_cons_of_mem _ hq))
    simp only [rightChain, List.cons_append, insertHelper_numItems, ho.lt_asymm hp,
      ho.eq_false_of_gt hp, Bool.false_eq_true, if_false, ih']
    rfl

/-- Keys inserted in ascending order after the keys of a chain extend the chain. -/
theorem insertAll_rightChain {ops : Comparable α} (ho : StrictTotalOrder ops) (ks : List α) :
    ∀ pre : List α, (pre ++ ks).Pairwise (fun a b => ops.lt a b = true) →
      insertAll ops (rightChain pre) ks = rightChain (pre ++ ks) := by
  induction ks with
  | nil =>
    intro pre _
    simp [insertAll]
  | cons k ks ih =>
    intro pre hs
    have hk : ∀ p ∈ pre, ops.lt p k = true := by
      intro p hp
      rw [List.pairwise_append] at hs
      exact hs.2.2 p hp k (List.mem_cons_self _ _)
    rw [insertAll, insert_rightChain ho pre k hk, ih (pre ++ [k]) (by simpa using hs)]
    simp

theorem noLeftChild_rightChain (ks : List α) : noLeftChild (rightChain ks) = true := by
  induction ks with
  | nil => rfl
  | cons k ks ih => simpa only [rightChain, noLeftChild] using ih

theorem nodeHeight_nonneg (t : TreeNode α) : 0 ≤ nodeHeight t := by
  rw [nodeHeight_eq]
  exact le_max_left _ _

theorem nodeHeight_rightChain (k : α) (ks : List α) :
    nodeHeight (rightChain (k :: ks)) = (ks.length : Int) := by
  induction ks generalizing k with
  | nil => rfl
  | cons k' ks ih =>
    have h := ih k'
    have e : nodeHeight (rightChain (k :: k' :: ks))
        = 1 + (if nodeHeight (nil : TreeNode α) > nodeHeight (rightChain (k' :: ks))
            then nodeHeight (nil : TreeNode α) else nodeHeight (rightChain (k' :: ks))) := rfl
    have h0 : nodeHeight (nil : TreeNode α) = 0 := rfl
    rw [e, h0, h]
    have : ¬ ((0 : Int) > (ks.length : Int)) := by omega
    rw [if_neg this]
    simp only [List.length_cons, Nat.cast_add, Nat.cast_one]
    omega

/-- The search for the last key of a chain in ascending order stops at the last node. -/
theorem findNode_rightChain_last {ops : Comparable α} (ho : StrictTotalOrder ops)
    (pre : List α) (k : α) (h : ∀ p ∈ pre, ops.lt p k = true) :
    findNode ops (rightChain (pre ++ [k])) k = node k 1 nil nil := by
  induction pre with
  | nil => simp [rightChain, findNode, ho.irrefl, ho.eq_self]
  | cons p ps ih =>
    have hp : ops.lt p k = true := h p (List.mem_cons_self _ _)
    simp only [List.cons_append, rightChain, findNode, ho.lt_asymm hp, ho.eq_false_of_gt hp,
      Bool.false_eq_true, if_false]
    exact ih (fun q hq => h q (List.mem_cons_of_mem _ hq))

/-- C38: inserting the keys of a list that is not empty and in strictly ascending order
into the empty tree gives a chain: the first key at the root, every key in the right child
of the key before it, every count 1 and no left child.  The height of the first key is the
number of keys less one and the height of the last key is 0. -/
theorem ascending_inserts_chain {ops : Comparable α} (ho : StrictTotalOrder ops) (first : α)
    (rest : List α) (hs : (first :: rest).Pairwise (fun a b => ops.lt a b = true)) :
    insertAll ops nil (first :: rest) = rightChain (first :: rest) ∧
    noLeftChild (insertAll ops nil (first :: rest)) = true ∧
    height ops (insertAll ops nil (first :: rest)) first
      = ((first :: rest).length : Int) - 1 ∧
    height ops (insertAll ops nil (first :: rest))
      ((first :: rest).getLast (List.cons_ne_nil first rest)) = 0 := by
  have hchain : insertAll ops nil (first :: rest) = rightChain (first :: rest) :=
    insertAll_rightChain ho (first :: rest) [] (by simpa using hs)
  rw [hchain]
  refine ⟨rfl, noLeftChild_rightChain _, ?_, ?_⟩
  · have hfind : findNode ops (rightChain (first :: rest)) first
        = node first 1 nil (rightChain rest) := by
      simp [rightChain, findNode, ho.irrefl, ho.eq_self]
    have hh := nodeHeight_rightChain first rest
    simp only [rightChain] at hh
    simp only [height, hfind, hh, List.length_cons, Nat.cast_add, Nat.cast_one]
    omega
  · obtain ⟨pre, hpre⟩ : ∃ pre, first :: rest
        = pre ++ [(first :: rest).getLast (List.cons_ne_nil first rest)] :=
      ⟨(first :: rest).dropLast, (List.dropLast_append_getLast _).symm⟩
    have hlt : ∀ p ∈ pre,
        ops.lt p ((first :: rest).getLast (List.cons_ne_nil first rest)) = true := by
      intro p hp
      rw [hpre, List.pairwise_append] at hs
      exact hs.2.2 p hp _ (List.mem_singleton_self _)
    have hfind := findNode_rightChain_last ho pre _ hlt
    rw [← hpre] at hfind
    simp only [height, hfind]
    rfl

/-- C38 at three coins in ascending order. -/
theorem ascending_inserts_chain_witness :
    (StrictTotalOrder coinOps ∧
      ([⟨"Buffalo Nickel", 1920, 60⟩, ⟨"Liberty Dime", 1913, 70⟩,
        ⟨"Lincoln Cent", 2001, 65⟩] : List Coin).Pairwise
        (fun a b => coinOps.lt a b = true)) ∧
    insertAll coinOps nil [⟨"Buffalo Nickel", 1920, 60⟩, ⟨"Liberty Dime", 1913, 70⟩,
        ⟨"Lincoln Cent", 2001, 65⟩]
      = node ⟨"Buffalo Nickel", 1920, 60⟩ 1 nil
          (node ⟨"Liberty Dime", 1913, 70⟩ 1 nil
            (node ⟨"Lincoln Cent", 2001, 65⟩ 1 nil nil)) ∧
    height coinOps (insertAll coinOps nil [⟨"Buffalo Nickel", 1920, 60⟩,
        ⟨"Liberty Dime", 1913, 70⟩, ⟨"Lincoln Cent", 2001, 65⟩]) ⟨"Buffalo Nickel", 1920, 60⟩
      = 2 :=
  have hs : ([⟨"Buffalo Nickel", 1920, 60⟩, ⟨"Liberty Dime", 1913, 70⟩,
      ⟨"Lincoln Cent", 2001, 65⟩] : List Coin).Pairwise
      (fun a b => coinOps.lt a b = true) := by decide
  have h := ascending_inserts_chain coinOps_strictTotalOrder ⟨"Buffalo Nickel", 1920, 60⟩
    [⟨"Liberty Dime", 1913, 70⟩, ⟨"Lincoln Cent", 2001, 65⟩] hs
  ⟨⟨coinOps_strictTotalOrder, hs⟩, h.1, h.2.2.1⟩

end SearchTree
